import Mathlib

/-!
# The bounded FIFO of the motion-capture recorders

A shallow embedding of `include/fifo.h` (class `FIFO<T>`), the buffer that sits between the
frame callback and the recorders' `Output`, followed by `include/recorderbase.h`
(`RecorderBase<F>`), the wrappers of `include/wrappers.h` the recorders use, and the three
recorders of `src/recorders.cpp`.

Modelling conventions.

* `std::queue<T> mQ` is a `List T`, front of the queue first: `push` appends at the end of the
  list, `front` is the head, `pop` drops the head.
* `unsigned long mMaxSize` is a `Nat`. The class only stores and compares it (no arithmetic is
  done on it), so no wrap-around can occur. `Size()` returns `mQ.size()` as an `unsigned long`;
  `Add` pushes only while `mQ.size() < mMaxSize`, so the size stays in the range of
  `unsigned long` and the conversion does not change it.
* The semaphore is created with count 1 and every member function releases it before it
  returns. The embedding is sequential (one call at a time), so `SemWait` finds the semaphore
  signalled and succeeds; the branch structure `if (SemWait()) { ... SemRelease(); }` is kept.
* A member function that writes through a reference parameter (`T& next`) takes the caller's
  current value and returns the new one.
-/

namespace MoCap

/-- The enum `FifoReplaceStrategy` of `fifo.h`: how to deal with additions when the FIFO is
full. -/
inductive FifoReplaceStrategy where
  | kRemoveOldest
  | kStopAdding
  deriving DecidableEq

/-- The data members of `FIFO<T>` (the semaphore handle apart). -/
structure FIFO (T : Type) where
  mQ : List T
  mLocked : Bool
  mMaxSize : Nat
  mReplaceStrategy : FifoReplaceStrategy
  deriving DecidableEq

namespace FIFO

variable {T : Type}

/-- The constructor `FIFO<T>::FIFO(maxSize, replaceStrategy)`: an empty queue, not locked. -/
def ctor (maxSize : Nat) (replaceStrategy : FifoReplaceStrategy) : FIFO T :=
  { mQ := [], mLocked := false, mMaxSize := maxSize, mReplaceStrategy := replaceStrategy }

/-- The member `FIFO<T>::SemWait`: `WaitForSingleObject(mSemaphore, INFINITE) == WAIT_OBJECT_0`.
In a sequential run the semaphore is signalled at every call, so the wait succeeds. -/
def SemWait (_f : FIFO T) : Bool := true

/-- The member `FIFO<T>::SemRelease`: it touches no data member. -/
def SemRelease (f : FIFO T) : FIFO T := f

/-- The loop `while (mQ.empty() == false) mQ.pop();` of `FIFO<T>::EmptyQ`, on the queue. -/
def emptyLoop : List T → List T
  | [] => []
  | _ :: rest => emptyLoop rest

/-- The member `FIFO<T>::EmptyQ`: remove all elements (the caller holds the semaphore). -/
def EmptyQ (f : FIFO T) : FIFO T :=
  { f with mQ := emptyLoop f.mQ }

/-- The member `FIFO<T>::Clear`. -/
def Clear (f : FIFO T) : FIFO T :=
  if f.SemWait then f.EmptyQ.SemRelease else f

/-- The member `FIFO<T>::Size`: number of elements currently in the fifo. -/
def Size (f : FIFO T) : Nat :=
  if f.SemWait then f.mQ.length else 0

/-- The member `FIFO<T>::MaxSize`: the maximum number of elements to hold. -/
def MaxSize (f : FIFO T) : Nat :=
  if f.SemWait then f.mMaxSize else 0

/-- The member `FIFO<T>::ReplaceStrategy`. -/
def ReplaceStrategy (f : FIFO T) : FifoReplaceStrategy :=
  if f.SemWait then f.mReplaceStrategy else FifoReplaceStrategy.kStopAdding

/-- The member `FIFO<T>::IsLocked`. -/
def IsLocked (f : FIFO T) : Bool :=
  if f.SemWait then f.mLocked else true

/-- The member `FIFO<T>::SetLocked`. -/
def SetLocked (f : FIFO T) (locked : Bool) : FIFO T :=
  if f.SemWait then { f with mLocked := locked }.SemRelease else f

/-- The member `FIFO<T>::SetMaxSize`. -/
def SetMaxSize (f : FIFO T) (maxSize : Nat) : FIFO T :=
  if f.SemWait then { f with mMaxSize := maxSize }.SemRelease else f

/-- The member `FIFO<T>::SetReplaceStrategy`. -/
def SetReplaceStrategy (f : FIFO T) (replaceStrategy : FifoReplaceStrategy) : FIFO T :=
  if f.SemWait then { f with mReplaceStrategy := replaceStrategy }.SemRelease else f

/-- The loop `while (mQ.size() >= mMaxSize) mQ.pop();` of `FIFO<T>::Add`, on the queue, as
`Add` runs it: only with `mMaxSize > 0`, so on the empty queue the loop condition is false and
the loop stops; `pop` is never called on an empty queue. With `mMaxSize == 0` the condition
never fails and the loop does not end: that loop, pass by pass and at any `mMaxSize`, is
`Add.whileLoop` below, which has this result when `mMaxSize > 0` and none otherwise. -/
def removeOldestLoop (maxSize : Nat) : List T → List T
  | [] => []
  | front :: rest =>
    if (front :: rest).length ≥ maxSize then removeOldestLoop maxSize rest else front :: rest

/-- The member `FIFO<T>::Add`: add a new element to the fifo. -/
def Add (f : FIFO T) (element : T) : FIFO T :=
  if decide (f.mMaxSize > 0) && !f.mLocked && f.SemWait then
    if f.mQ.length < f.mMaxSize then
      { f with mQ := f.mQ ++ [element] }.SemRelease
    else
      if f.mReplaceStrategy = FifoReplaceStrategy.kRemoveOldest then
        { f with mQ := removeOldestLoop f.mMaxSize f.mQ ++ [element] }.SemRelease
      else
        f.SemRelease
  else f

/-- The member `FIFO<T>::GetNext`: the result is the returned `bool`, the value of the
reference parameter `next` after the call, and the fifo after the call. -/
def GetNext (f : FIFO T) (next : T) : Bool × T × FIFO T :=
  if f.SemWait then
    match f.mQ with
    | front :: rest => (true, front, { f with mQ := rest }.SemRelease)
    | [] => (false, next, f.SemRelease)
  else (false, next, f)

/-- The member `FIFO<T>::PeekNext`: as `GetNext`, but the item is not removed. -/
def PeekNext (f : FIFO T) (next : T) : Bool × T × FIFO T :=
  if f.SemWait then
    match f.mQ with
    | front :: _ => (true, front, f.SemRelease)
    | [] => (false, next, f.SemRelease)
  else (false, next, f)

/-- A caller that calls `Add` once for each element of `xs`, in order. -/
def AddAll (f : FIFO T) (xs : List T) : FIFO T :=
  xs.foldl Add f

/-- A caller that calls `GetNext` repeatedly until it returns `false`, collecting the values
it returned with `true`; it makes at most `calls` calls. The result is the collected values
(first returned first), the caller's variable and the fifo at the end, and whether the last
call made returned `false`. -/
def GetUntilFalse : Nat → FIFO T → T → List T × T × FIFO T × Bool
  | 0, f, next => ([], next, f, false)
  | calls + 1, f, next =>
    match f.GetNext next with
    | (true, v, g) =>
      let r := GetUntilFalse calls g v
      (v :: r.1, r.2)
    | (false, v, g) => ([], v, g, true)


/-- One call of a public member function of `FIFO<T>` that can change the fifo, with its
arguments (for `GetNext` and `PeekNext`: the value of the caller's variable). -/
inductive Op (T : Type) where
  | add (element : T)
  | getNext (next : T)
  | peekNext (next : T)
  | clear
  | setMaxSize (maxSize : Nat)
  | setReplaceStrategy (replaceStrategy : FifoReplaceStrategy)
  | setLocked (locked : Bool)

/-- The fifo after one call. -/
def Op.apply (f : FIFO T) : Op T → FIFO T
  | Op.add element => f.Add element
  | Op.getNext next => (f.GetNext next).2.2
  | Op.peekNext next => (f.PeekNext next).2.2
  | Op.clear => f.Clear
  | Op.setMaxSize maxSize => f.SetMaxSize maxSize
  | Op.setReplaceStrategy replaceStrategy => f.SetReplaceStrategy replaceStrategy
  | Op.setLocked locked => f.SetLocked locked

/-- The fifo after a sequence of calls, first call first. -/
def run (f : FIFO T) (ops : List (Op T)) : FIFO T :=
  ops.foldl Op.apply f

/-- The call is a `SetMaxSize(n)` with `n` below the `Size()` of the fifo `f` it is made
on. -/
def Op.shrinksBelowSize (f : FIFO T) : Op T → Bool
  | Op.setMaxSize maxSize => decide (maxSize < f.Size)
  | _ => false

/-- No call of the sequence, run from `f`, is a `SetMaxSize(n)` with `n` below the `Size()`
at the time of the call. -/
def noShrinkBelowSize : FIFO T → List (Op T) → Bool
  | _, [] => true
  | f, op :: ops => !(Op.shrinksBelowSize f op) && noShrinkBelowSize (Op.apply f op) ops

end FIFO

/-- The data members of `RecorderBase<F>` (`recorderbase.h`). -/
structure RecorderBase (F : Type) where
  mFifo : FIFO F
  mEnabled : Bool
  mRecording : Bool
  deriving DecidableEq

namespace RecorderBase

variable {F : Type}

/-- The constructor `RecorderBase<F>::RecorderBase(maxSize)`: `mFifo(maxSize)` takes the
default replace strategy `kStopAdding` of the `FIFO` constructor. -/
def ctor (maxSize : Nat) : RecorderBase F :=
  { mFifo := FIFO.ctor maxSize FifoReplaceStrategy.kStopAdding
    mEnabled := true
    mRecording := false }

/-- The member `RecorderBase<F>::Size`: number of frames currently in the recorder. -/
def Size (r : RecorderBase F) : Nat :=
  r.mFifo.Size

/-- The member `RecorderBase<F>::SetMaxSize`. -/
def SetMaxSize (r : RecorderBase F) (maxSize : Nat) : RecorderBase F :=
  { r with mFifo := r.mFifo.SetMaxSize maxSize }

/-- The member `RecorderBase<F>::Enable`. -/
def Enable (r : RecorderBase F) (enabled : Bool) : RecorderBase F :=
  { r with mEnabled := enabled }

/-- The member `RecorderBase<F>::Start`. -/
def Start (r : RecorderBase F) : RecorderBase F :=
  if r.mEnabled then
    { r with mFifo := (r.mFifo.Clear).SetLocked false, mRecording := true }
  else r

/-- The member `RecorderBase<F>::Stop`. -/
def Stop (r : RecorderBase F) : RecorderBase F :=
  if r.mEnabled then
    { r with mFifo := r.mFifo.SetLocked true, mRecording := false }
  else r

/-- The member `RecorderBase<F>::Add`. -/
def Add (r : RecorderBase F) (element : F) : RecorderBase F :=
  if r.mEnabled && r.mRecording then
    { r with mFifo := r.mFifo.Add element }
  else r

/-- A caller that calls `Add` once for each element of `xs`, in order. -/
def AddAll (r : RecorderBase F) (xs : List F) : RecorderBase F :=
  xs.foldl Add r

/-- One call of a non-virtual public member function of `RecorderBase<F>` that can change the
recorder, with its arguments. -/
inductive Op (F : Type) where
  | enable (enabled : Bool)
  | start
  | stop
  | add (element : F)
  | setMaxSize (maxSize : Nat)

/-- The recorder after one call. -/
def Op.apply (r : RecorderBase F) : Op F → RecorderBase F
  | Op.enable enabled => r.Enable enabled
  | Op.start => r.Start
  | Op.stop => r.Stop
  | Op.add element => r.Add element
  | Op.setMaxSize maxSize => r.SetMaxSize maxSize

/-- The recorder after a sequence of calls, first call first. -/
def run (r : RecorderBase F) (ops : List (Op F)) : RecorderBase F :=
  ops.foldl Op.apply r

/-- The call is one of `Start()`, `Add(x)`, `Stop()`. -/
def Op.isStartAddStop : Op F → Bool
  | Op.start => true
  | Op.stop => true
  | Op.add _ => true
  | _ => false

end RecorderBase

/-- The constructor `FIFO<T>::FIFO()` called without arguments: the declaration gives
`maxSize = 1024` and `replaceStrategy = kStopAdding`. -/
def FIFO.ctorDefault {T : Type} : FIFO T :=
  FIFO.ctor 1024 FifoReplaceStrategy.kStopAdding

/-- The constructor `RecorderBase<F>::RecorderBase()` called without arguments: the
declaration gives `maxSize = 1024`. -/
def RecorderBase.ctorDefault {F : Type} : RecorderBase F :=
  RecorderBase.ctor 1024

/-! ## The wrappers of `wrappers.h` used by the recorders

Conventions.

* `int` is `Int`, a stored `int` being between `-2147483648` and `2147483647`. The only
  arithmetic on an `int` is `f.Frame()+1` in `Output`: the sum is taken in `int`, 32 bits in
  two's complement (`int32`), so at `Frame() == 2147483647` it is `-2147483648`.
* A `std::vector<std::string>` is a `List String`; `v[i]` is read only under the guard
  `i >= 0 && i < v.size()`.
* The frame wrappers keep a pointer to an array (`none` for `NULL`), the frame number and the
  count. `mCount` is a `Nat`: the classes only store `0` or a positive count in it. The
  classes keep `mCount` equal to the length of the array, so a read `mMarkers[i]` under the
  guard `i < mCount` is inside the array.
* `float` and `double` values are an arbitrary type `V`; the constant `XEMPTY` of `EVaRT.h`
  and the text `os << value` writes for a value are parameters.
* Frames enter and leave the fifo by copy construction and assignment; a copy of a frame
  wrapper is taken to be the frame wrapper itself.
-/

/-- The `int` that holds the result `x` of an `int` operation: `x` reduced modulo `2^32` into
`-2^31 .. 2^31 - 1`. -/
def int32 (x : Int) : Int :=
  (x + 2147483648) % 4294967296 - 2147483648

/-- The data members of `MarkerListWrapper`. -/
structure MarkerListWrapper where
  mMarkerNames : List String
  deriving DecidableEq

namespace MarkerListWrapper

/-- The constructor `MarkerListWrapper()` without a source: `Copy(NULL)` leaves the list
empty. -/
def ctorDefault : MarkerListWrapper :=
  { mMarkerNames := [] }

/-- The member `MarkerListWrapper::Size`: number of markers. -/
def Size (m : MarkerListWrapper) : Int :=
  (m.mMarkerNames.length : Int)

/-- The member `MarkerListWrapper::Name`: marker name at index `i`, `""` outside the list. -/
def Name (m : MarkerListWrapper) (i : Int) : String :=
  if i ≥ 0 ∧ i < (m.mMarkerNames.length : Int) then m.mMarkerNames.getD i.toNat "" else ""

/-- The member `MarkerListWrapper::Copy(const MarkerListWrapper& src)`: the list is cleared and
filled with `src.Name(i)` for `i = 0 .. src.Size()-1`. -/
def Copy (src : MarkerListWrapper) : MarkerListWrapper :=
  { mMarkerNames :=
      (List.range src.Size.toNat).foldl (fun names (i : Nat) => names ++ [src.Name (i : Int)]) [] }

end MarkerListWrapper

/-- The data members of `DofNamesWrapper`. -/
structure DofNamesWrapper where
  mDofNames : List String
  deriving DecidableEq

namespace DofNamesWrapper

/-- The constructor `DofNamesWrapper()` without a source: `Copy(NULL)` leaves the list
empty. -/
def ctorDefault : DofNamesWrapper :=
  { mDofNames := [] }

/-- The member `DofNamesWrapper::Size`: number of degrees of freedom. -/
def Size (m : DofNamesWrapper) : Int :=
  (m.mDofNames.length : Int)

/-- The member `DofNamesWrapper::Name`: DOF name at index `i`, `""` outside the list. -/
def Name (m : DofNamesWrapper) (i : Int) : String :=
  if i ≥ 0 ∧ i < (m.mDofNames.length : Int) then m.mDofNames.getD i.toNat "" else ""

/-- The member `DofNamesWrapper::Copy(const DofNamesWrapper& src)`. -/
def Copy (src : DofNamesWrapper) : DofNamesWrapper :=
  { mDofNames :=
      (List.range src.Size.toNat).foldl (fun names (i : Nat) => names ++ [src.Name (i : Int)]) [] }

end DofNamesWrapper

/-- The data members of `HierarchyWrapper`. -/
structure HierarchyWrapper where
  mSegmentNames : List String
  mParents : List Int
  deriving DecidableEq

namespace HierarchyWrapper

/-- The constructor `HierarchyWrapper()` without a source: `Copy(NULL)` leaves both lists
empty. -/
def ctorDefault : HierarchyWrapper :=
  { mSegmentNames := [], mParents := [] }

/-- The member `HierarchyWrapper::Size`: number of segments. -/
def Size (h : HierarchyWrapper) : Int :=
  (h.mSegmentNames.length : Int)

/-- The member `HierarchyWrapper::Name`: segment name at index `i`, `""` outside the list. -/
def Name (h : HierarchyWrapper) (i : Int) : String :=
  if i ≥ 0 ∧ i < (h.mSegmentNames.length : Int) then h.mSegmentNames.getD i.toNat "" else ""

/-- The member `HierarchyWrapper::Parent`: parent value at index `i`, `-2` (invalid parent)
outside the list. -/
def Parent (h : HierarchyWrapper) (i : Int) : Int :=
  if i ≥ 0 ∧ i < (h.mParents.length : Int) then h.mParents.getD i.toNat (-2) else -2

/-- The member `HierarchyWrapper::NameOfParent`: name of the parent of the segment at index
`i`. -/
def NameOfParent (h : HierarchyWrapper) (i : Int) : String :=
  if h.Parent i = -1 then "GLOBAL" else h.Name (h.Parent i)

/-- The member `HierarchyWrapper::Copy(const HierarchyWrapper& src)`: both lists are cleared
and filled with `src.Name(i)` and `src.Parent(i)` for `i = 0 .. src.Size()-1`. -/
def Copy (src : HierarchyWrapper) : HierarchyWrapper :=
  (List.range src.Size.toNat).foldl
    (fun h (i : Nat) =>
      { mSegmentNames := h.mSegmentNames ++ [src.Name (i : Int)],
        mParents := h.mParents ++ [src.Parent (i : Int)] })
    { mSegmentNames := [], mParents := [] }

end HierarchyWrapper

/-- The data members of `TrcFrameWrapper`; a `Point3` is a triple. -/
structure TrcFrameWrapper (V : Type) where
  mMarkers : Option (List (V × V × V))
  mFrame : Int
  mCount : Nat
  deriving DecidableEq

namespace TrcFrameWrapper

variable {V : Type}

/-- The constructor `TrcFrameWrapper()` without a source: no array, count 0, frame -1. -/
def ctorDefault : TrcFrameWrapper V :=
  { mMarkers := none, mFrame := -1, mCount := 0 }

/-- The member `TrcFrameWrapper::Size`: number of markers in this frame. -/
def Size (f : TrcFrameWrapper V) : Int :=
  (f.mCount : Int)

/-- The member `TrcFrameWrapper::Frame`: frame number of this frame. -/
def Frame (f : TrcFrameWrapper V) : Int :=
  f.mFrame

/-- The member `TrcFrameWrapper::GetMarkerLocation`: the value written to `loc`. -/
def GetMarkerLocation (XEMPTY : V) (f : TrcFrameWrapper V) (i : Int) : V × V × V :=
  match f.mMarkers with
  | some markers =>
    if i ≥ 0 ∧ i < (f.mCount : Int) then markers.getD i.toNat (XEMPTY, XEMPTY, XEMPTY)
    else (XEMPTY, XEMPTY, XEMPTY)
  | none => (XEMPTY, XEMPTY, XEMPTY)

end TrcFrameWrapper

/-- The array type `SegmentInfo` (`float[7]`): X, Y, Z, aX, aY, aZ, Length, named by their
index. -/
structure SegmentInfo (V : Type) where
  v0 : V
  v1 : V
  v2 : V
  v3 : V
  v4 : V
  v5 : V
  v6 : V
  deriving DecidableEq

/-- The data members of `SegmentFrameWrapper`. -/
structure SegmentFrameWrapper (V : Type) where
  mSegments : Option (List (SegmentInfo V))
  mFrame : Int
  mCount : Nat
  deriving DecidableEq

namespace SegmentFrameWrapper

variable {V : Type}

/-- The constructor `SegmentFrameWrapper()` without a source. -/
def ctorDefault : SegmentFrameWrapper V :=
  { mSegments := none, mFrame := -1, mCount := 0 }

/-- The member `SegmentFrameWrapper::Size`: number of segments in this frame. -/
def Size (f : SegmentFrameWrapper V) : Int :=
  (f.mCount : Int)

/-- The member `SegmentFrameWrapper::Frame`: frame number of this frame. -/
def Frame (f : SegmentFrameWrapper V) : Int :=
  f.mFrame

/-- The member `SegmentFrameWrapper::GetSegmentInfo`: the value written to `info`. -/
def GetSegmentInfo (XEMPTY : V) (f : SegmentFrameWrapper V) (i : Int) : SegmentInfo V :=
  match f.mSegments with
  | some segments =>
    if i ≥ 0 ∧ i < (f.mCount : Int) then
      segments.getD i.toNat ⟨XEMPTY, XEMPTY, XEMPTY, XEMPTY, XEMPTY, XEMPTY, XEMPTY⟩
    else ⟨XEMPTY, XEMPTY, XEMPTY, XEMPTY, XEMPTY, XEMPTY, XEMPTY⟩
  | none => ⟨XEMPTY, XEMPTY, XEMPTY, XEMPTY, XEMPTY, XEMPTY, XEMPTY⟩

end SegmentFrameWrapper

/-- The data members of `DofFrameWrapper`. -/
structure DofFrameWrapper (V : Type) where
  mDofs : Option (List V)
  mFrame : Int
  mCount : Nat
  deriving DecidableEq

namespace DofFrameWrapper

variable {V : Type}

/-- The constructor `DofFrameWrapper()` without a source. -/
def ctorDefault : DofFrameWrapper V :=
  { mDofs := none, mFrame := -1, mCount := 0 }

/-- The member `DofFrameWrapper::Size`: number of DOFs in this frame. -/
def Size (f : DofFrameWrapper V) : Int :=
  (f.mCount : Int)

/-- The member `DofFrameWrapper::Frame`: frame number of this frame. -/
def Frame (f : DofFrameWrapper V) : Int :=
  f.mFrame

/-- The member `DofFrameWrapper::GetDofValue`: the value written to `value`. -/
def GetDofValue (XEMPTY : V) (f : DofFrameWrapper V) (i : Int) : V :=
  match f.mDofs with
  | some dofs => if i ≥ 0 ∧ i < (f.mCount : Int) then dofs.getD i.toNat XEMPTY else XEMPTY
  | none => XEMPTY

end DofFrameWrapper

/-! ## The recorders of `recorders.h` and `recorders.cpp`

The stream `os` is the text written to it so far, a `String`; `os << x` appends the text of
`x` and `std::endl` appends a newline. A derived class is its base class extended by its own
members; the inherited member functions act on the base part.
-/

/-- The text of the given strings written one after the other. -/
def writeAll : List String → String
  | [] => ""
  | s :: rest => s ++ writeAll rest

/-- The text of the given lines, each ended by a newline. -/
def writeLines (lines : List String) : String :=
  writeAll (lines.map (fun line => line ++ "\n"))

/-- The loop `while (mFifo.Size() > 0) { if (mFifo.GetNext(f)) { ... } }` shared by the three
`Output` functions; `write os f` is the stream after the body has written the frame `f`. The
result is the fifo, the local variable `f` and the stream when the loop ends. -/
def outputLoop {F : Type} (write : String → F → String) (fifo : FIFO F) (f : F)
    (os : String) : FIFO F × F × String :=
  if _nonempty : fifo.Size > 0 then
    outputLoop write (fifo.GetNext f).2.2 (fifo.GetNext f).2.1
      (if (fifo.GetNext f).1 then write os (fifo.GetNext f).2.1 else os)
  else (fifo, f, os)
termination_by fifo.mQ.length
decreasing_by
  simp only [FIFO.Size, FIFO.SemWait, if_true] at _nonempty
  cases hq : fifo.mQ with
  | nil => simp [hq] at _nonempty
  | cons front rest => simp [FIFO.GetNext, FIFO.SemWait, FIFO.SemRelease, hq]

/-- The data members of `TrcRecorder`: those of `RecorderBase<TrcFrameWrapper>` and the
marker list. -/
structure TrcRecorder (V : Type) extends RecorderBase (TrcFrameWrapper V) where
  mMarkerList : MarkerListWrapper
  deriving DecidableEq

namespace TrcRecorder

variable {V : Type}

/-- The constructor `TrcRecorder::TrcRecorder(maxSize)`. -/
def ctor (maxSize : Nat) : TrcRecorder V :=
  { toRecorderBase := RecorderBase.ctor maxSize
    mMarkerList := MarkerListWrapper.ctorDefault }

/-- The constructor `TrcRecorder::TrcRecorder()` called without arguments: the declaration
gives `maxSize = 1024`. -/
def ctorDefault : TrcRecorder V :=
  ctor 1024

/-- The member `TrcRecorder::SetMarkerList`: `mMarkerList = list` is the assignment operator
of `MarkerListWrapper`, which calls `Copy`. -/
def SetMarkerList (r : TrcRecorder V) (list : MarkerListWrapper) : TrcRecorder V :=
  { r with mMarkerList := MarkerListWrapper.Copy list }

/-- The inherited member `RecorderBase::Size`. -/
def Size (r : TrcRecorder V) : Nat :=
  r.toRecorderBase.Size

/-- The inherited member `RecorderBase::SetMaxSize`. -/
def SetMaxSize (r : TrcRecorder V) (maxSize : Nat) : TrcRecorder V :=
  { r with toRecorderBase := r.toRecorderBase.SetMaxSize maxSize }

/-- The inherited member `RecorderBase::Enable`. -/
def Enable (r : TrcRecorder V) (enabled : Bool) : TrcRecorder V :=
  { r with toRecorderBase := r.toRecorderBase.Enable enabled }

/-- The inherited member `RecorderBase::Start`. -/
def Start (r : TrcRecorder V) : TrcRecorder V :=
  { r with toRecorderBase := r.toRecorderBase.Start }

/-- The inherited member `RecorderBase::Stop`. -/
def Stop (r : TrcRecorder V) : TrcRecorder V :=
  { r with toRecorderBase := r.toRecorderBase.Stop }

/-- The inherited member `RecorderBase::Add`. -/
def Add (r : TrcRecorder V) (element : TrcFrameWrapper V) : TrcRecorder V :=
  { r with toRecorderBase := r.toRecorderBase.Add element }

/-- A caller that calls `Add` once for each frame of `frames`, in order. -/
def AddAll (r : TrcRecorder V) (frames : List (TrcFrameWrapper V)) : TrcRecorder V :=
  frames.foldl Add r

/-- The header part of `TrcRecorder::Output`, run when `header` is set. -/
def writeHeader (list : MarkerListWrapper) (os : String) : String :=
  let os1 := os ++ "Marker Names" ++ "\n"
  let os2 := (List.range list.Size.toNat).foldl
    (fun os (i : Nat) => os ++ list.Name (i : Int) ++ "\n") os1
  os2 ++ "\n" ++ "\n"

/-- The body of the loop of `TrcRecorder::Output` for the frame `f` just taken from the fifo;
`put v` is the text `os << v` writes for a `float`. -/
def writeFrame (put : V → String) (XEMPTY : V) (list : MarkerListWrapper) (os : String)
    (f : TrcFrameWrapper V) : String :=
  let os1 := os ++ "Frame #" ++ toString (int32 (f.Frame + 1)) ++ ",X,Y,Z" ++ "\n"
  (List.range f.Size.toNat).foldl
    (fun os (i : Nat) =>
      let pt := f.GetMarkerLocation XEMPTY (i : Int)
      os ++ list.Name (i : Int) ++ "," ++ put pt.1 ++ "," ++ put pt.2.1 ++ "," ++ put pt.2.2
        ++ "\n")
    os1

/-- The member `TrcRecorder::Output`: the recorder and the stream after the call. -/
def Output (put : V → String) (XEMPTY : V) (r : TrcRecorder V) (os : String)
    (header : Bool) : TrcRecorder V × String :=
  let os1 := if header then writeHeader r.mMarkerList os else os
  let res := outputLoop (writeFrame put XEMPTY r.mMarkerList) r.mFifo
    TrcFrameWrapper.ctorDefault os1
  ({ r with mFifo := res.1 }, res.2.2)

end TrcRecorder

/-- The data members of `SegmentRecorder`: those of `RecorderBase<SegmentFrameWrapper>` and
the hierarchy. -/
structure SegmentRecorder (V : Type) extends RecorderBase (SegmentFrameWrapper V) where
  mHierarchy : HierarchyWrapper
  deriving DecidableEq

namespace SegmentRecorder

variable {V : Type}

/-- The constructor `SegmentRecorder::SegmentRecorder(maxSize)`. -/
def ctor (maxSize : Nat) : SegmentRecorder V :=
  { toRecorderBase := RecorderBase.ctor maxSize
    mHierarchy := HierarchyWrapper.ctorDefault }

/-- The constructor `SegmentRecorder::SegmentRecorder()` called without arguments: the
declaration gives `maxSize = 1024`. -/
def ctorDefault : SegmentRecorder V :=
  ctor 1024

/-- The member `SegmentRecorder::SetHierarchy`: `mHierarchy = hierarchy` is the assignment
operator of `HierarchyWrapper`, which calls `Copy`. -/
def SetHierarchy (r : SegmentRecorder V) (hierarchy : HierarchyWrapper) : SegmentRecorder V :=
  { r with mHierarchy := HierarchyWrapper.Copy hierarchy }

/-- The inherited member `RecorderBase::Size`. -/
def Size (r : SegmentRecorder V) : Nat :=
  r.toRecorderBase.Size

/-- The header part of `SegmentRecorder::Output`, run when `header` is set. -/
def writeHeader (hierarchy : HierarchyWrapper) (os : String) : String :=
  let os1 := os ++ "CHILD,PARENT" ++ "\n"
  let os2 := (List.range hierarchy.Size.toNat).foldl
    (fun os (i : Nat) => os ++ hierarchy.Name (i : Int) ++ "," ++ hierarchy.NameOfParent (i : Int)
      ++ "\n") os1
  os2 ++ "\n" ++ "\n"

/-- The body of the loop of `SegmentRecorder::Output` for the frame `f` just taken from the
fifo; `put v` is the text `os << v` writes for a `float`. -/
def writeFrame (put : V → String) (XEMPTY : V) (hierarchy : HierarchyWrapper) (os : String)
    (f : SegmentFrameWrapper V) : String :=
  let os1 := os ++ "Frame #" ++ toString (int32 (f.Frame + 1)) ++ ",X,Y,Z,aX,aY,aZ,Length" ++
    "\n"
  (List.range f.Size.toNat).foldl
    (fun os (i : Nat) =>
      let seg := f.GetSegmentInfo XEMPTY (i : Int)
      os ++ hierarchy.Name (i : Int) ++ "," ++
        put seg.v0 ++ "," ++ put seg.v1 ++ "," ++ put seg.v2 ++ "," ++
        put seg.v3 ++ "," ++ put seg.v4 ++ "," ++ put seg.v5 ++ "," ++
        put seg.v6 ++ "\n")
    os1

/-- The member `SegmentRecorder::Output`: the recorder and the stream after the call. -/
def Output (put : V → String) (XEMPTY : V) (r : SegmentRecorder V) (os : String)
    (header : Bool) : SegmentRecorder V × String :=
  let os1 := if header then writeHeader r.mHierarchy os else os
  let res := outputLoop (writeFrame put XEMPTY r.mHierarchy) r.mFifo
    SegmentFrameWrapper.ctorDefault os1
  ({ r with mFifo := res.1 }, res.2.2)

end SegmentRecorder

/-- The data members of `DofRecorder`: those of `RecorderBase<DofFrameWrapper>` and the DOF
names. -/
structure DofRecorder (V : Type) extends RecorderBase (DofFrameWrapper V) where
  mDofNames : DofNamesWrapper
  deriving DecidableEq

namespace DofRecorder

variable {V : Type}

/-- The constructor `DofRecorder::DofRecorder(maxSize)`. -/
def ctor (maxSize : Nat) : DofRecorder V :=
  { toRecorderBase := RecorderBase.ctor maxSize
    mDofNames := DofNamesWrapper.ctorDefault }

/-- The constructor `DofRecorder::DofRecorder()` called without arguments: the declaration
gives `maxSize = 1024`. -/
def ctorDefault : DofRecorder V :=
  ctor 1024

/-- The member `DofRecorder::SetDofNames`: `mDofNames = names` is the assignment operator of
`DofNamesWrapper`, which calls `Copy`. -/
def SetDofNames (r : DofRecorder V) (names : DofNamesWrapper) : DofRecorder V :=
  { r with mDofNames := DofNamesWrapper.Copy names }

/-- The inherited member `RecorderBase::Size`. -/
def Size (r : DofRecorder V) : Nat :=
  r.toRecorderBase.Size

/-- The header part of `DofRecorder::Output`, run when `header` is set. -/
def writeHeader (names : DofNamesWrapper) (os : String) : String :=
  let os1 := os ++ "Frame #,"
  let os2 := (List.range names.Size.toNat).foldl
    (fun os (i : Nat) => os ++ names.Name (i : Int) ++ ",") os1
  os2 ++ "\n"

/-- The body of the loop of `DofRecorder::Output` for the frame `f` just taken from the fifo;
`put v` is the text `os << v` writes for a `double`. -/
def writeFrame (put : V → String) (XEMPTY : V) (os : String) (f : DofFrameWrapper V) :
    String :=
  let os1 := os ++ toString (int32 (f.Frame + 1)) ++ ","
  let os2 := (List.range f.Size.toNat).foldl
    (fun os (i : Nat) =>
      let value := f.GetDofValue XEMPTY (i : Int)
      os ++ put value ++ ",")
    os1
  os2 ++ "\n"

/-- The member `DofRecorder::Output`: the recorder and the stream after the call. -/
def Output (put : V → String) (XEMPTY : V) (r : DofRecorder V) (os : String)
    (header : Bool) : DofRecorder V × String :=
  let os1 := if header then writeHeader r.mDofNames os else os
  let res := outputLoop (writeFrame put XEMPTY) r.mFifo DofFrameWrapper.ctorDefault os1
  ({ r with mFifo := res.1 }, res.2.2)

end DofRecorder

/-! ## The texts as the specification words them

These definitions follow the wording of the specification, not the code; the theorems compare
them with what `Output` writes. In a frame line the number is `f.Frame()+1` as an `int`;
`oneBased` is the number the specification means, the sequence number plus one. -/

namespace Stated

variable {V : Type}

/-- The sequence number `n` of a frame rendered 1-based: the text of `n + 1`. -/
def oneBased (n : Int) : String :=
  toString (n + 1)

/-- The first line of the block of a position frame: `Frame #<n+1>,X,Y,Z`, the sum taken in
`int`. -/
def trcFrameLine (f : TrcFrameWrapper V) : String :=
  "Frame #" ++ toString (int32 (f.Frame + 1)) ++ ",X,Y,Z"

/-- The rows of the markers `markers` under the names `names`, by position: the row of a
marker is the name at its position (empty when the list has no name there), then its three
coordinates, separated by commas. -/
def markerRows (put : V → String) : List String → List (V × V × V) → List String
  | _, [] => []
  | names, m :: rest =>
    (names.headD "" ++ "," ++ put m.1 ++ "," ++ put m.2.1 ++ "," ++ put m.2.2)
      :: markerRows put names.tail rest

/-- The rows of a position frame: `<Name(i)>,<x>,<y>,<z>` for `i = 0 .. f.Size()-1`, where
`(x, y, z)` is the location of marker `i`. -/
def trcItemRows (put : V → String) (XEMPTY : V) (list : MarkerListWrapper)
    (f : TrcFrameWrapper V) : List String :=
  (List.range f.Size.toNat).map (fun (i : Nat) =>
    list.Name (i : Int) ++ "," ++ put (f.GetMarkerLocation XEMPTY (i : Int)).1 ++ "," ++
      put (f.GetMarkerLocation XEMPTY (i : Int)).2.1 ++ "," ++
      put (f.GetMarkerLocation XEMPTY (i : Int)).2.2)

/-- The block of a position frame: its first line, then its rows. -/
def trcBlock (put : V → String) (XEMPTY : V) (list : MarkerListWrapper)
    (f : TrcFrameWrapper V) : List String :=
  trcFrameLine f :: trcItemRows put XEMPTY list f

/-- The header of the position recorder as the specification has it: the marker names, one
per line, and nothing else. -/
def trcHeader (list : MarkerListWrapper) : String :=
  writeLines list.mMarkerNames

/-- The first line of the block of a segment frame: `Frame #<n+1>,X,Y,Z,aX,aY,aZ,Length`, the
sum taken in `int`. -/
def segFrameLine (f : SegmentFrameWrapper V) : String :=
  "Frame #" ++ toString (int32 (f.Frame + 1)) ++ ",X,Y,Z,aX,aY,aZ,Length"

/-- The rows of a segment frame: the name and the seven values of segment `i`, for
`i = 0 .. f.Size()-1`. -/
def segItemRows (put : V → String) (XEMPTY : V) (hierarchy : HierarchyWrapper)
    (f : SegmentFrameWrapper V) : List String :=
  (List.range f.Size.toNat).map (fun (i : Nat) =>
    hierarchy.Name (i : Int) ++ "," ++
      put (f.GetSegmentInfo XEMPTY (i : Int)).v0 ++ "," ++
      put (f.GetSegmentInfo XEMPTY (i : Int)).v1 ++ "," ++
      put (f.GetSegmentInfo XEMPTY (i : Int)).v2 ++ "," ++
      put (f.GetSegmentInfo XEMPTY (i : Int)).v3 ++ "," ++
      put (f.GetSegmentInfo XEMPTY (i : Int)).v4 ++ "," ++
      put (f.GetSegmentInfo XEMPTY (i : Int)).v5 ++ "," ++
      put (f.GetSegmentInfo XEMPTY (i : Int)).v6)

/-- The block of a segment frame: its first line, then its rows. -/
def segBlock (put : V → String) (XEMPTY : V) (hierarchy : HierarchyWrapper)
    (f : SegmentFrameWrapper V) : List String :=
  segFrameLine f :: segItemRows put XEMPTY hierarchy f

/-- The lines of the header of the segment recorder: `CHILD,PARENT`, then for each segment
`i` in index order `<Name(i)>,<parent>`, the parent being `GLOBAL` when the parent index is
`-1` and the name of the segment at the parent index otherwise. -/
def segHeaderLines (hierarchy : HierarchyWrapper) : List String :=
  "CHILD,PARENT" :: (List.range hierarchy.Size.toNat).map (fun (i : Nat) =>
    hierarchy.Name (i : Int) ++ "," ++
      (if hierarchy.Parent (i : Int) = -1 then "GLOBAL"
       else hierarchy.Name (hierarchy.Parent (i : Int))))

/-- The lines of the segments of a hierarchy that stores the names `names` and the parent
indices `parents`: for each segment, in order, its name, a comma, and `GLOBAL` when its
stored parent index is `-1`, otherwise the stored name at the parent index (nothing when no
segment has that index). -/
def segmentLines (names : List String) (parents : List Int) : List String :=
  (names.zip parents).map (fun np =>
    np.1 ++ "," ++
      (if np.2 = -1 then "GLOBAL"
       else if 0 ≤ np.2 ∧ np.2 < (names.length : Int) then names.getD np.2.toNat "" else ""))

/-- The header line of the degree-of-freedom recorder as the specification has it:
`Frame #,` followed by the names joined by commas, a comma only between names. -/
def dofHeaderLine (names : DofNamesWrapper) : String :=
  "Frame #," ++ ",".intercalate names.mDofNames

/-- The values of a degree-of-freedom frame, `GetDofValue(i)` for `i = 0 .. f.Size()-1`. -/
def dofValues (XEMPTY : V) (f : DofFrameWrapper V) : List V :=
  (List.range f.Size.toNat).map (fun (i : Nat) => f.GetDofValue XEMPTY (i : Int))

/-- The row of a degree-of-freedom frame as the specification has it:
`<n+1>,<v0>,<v1>,...,<vk-1>`, single commas between the fields. -/
def dofRow (put : V → String) (XEMPTY : V) (f : DofFrameWrapper V) : String :=
  ",".intercalate (oneBased f.Frame :: (dofValues XEMPTY f).map put)

end Stated

/-! ## `Add` around its call of `SemWait`

The condition of `FIFO<T>::Add` is `mMaxSize > 0 && !mLocked && SemWait()`: the operators are
evaluated left to right, so the two members are read before the semaphore is waited for. -/

/-- The operands `mMaxSize > 0 && !mLocked` of the condition of `FIFO<T>::Add`, evaluated
before `SemWait()` is called. -/
def FIFO.Add.guard {T : Type} (f : FIFO T) : Bool :=
  decide (f.mMaxSize > 0) && !f.mLocked

/-- The rest of `FIFO<T>::Add` from the call of `SemWait()` on, run on the fifo as it is when
the semaphore is obtained. -/
def FIFO.Add.critical {T : Type} (f : FIFO T) (element : T) : FIFO T :=
  if f.SemWait then
    if f.mQ.length < f.mMaxSize then
      { f with mQ := f.mQ ++ [element] }.SemRelease
    else
      if f.mReplaceStrategy = FifoReplaceStrategy.kRemoveOldest then
        { f with mQ := FIFO.removeOldestLoop f.mMaxSize f.mQ ++ [element] }.SemRelease
      else
        f.SemRelease
  else f

/-- The loop `while (mQ.size() >= mMaxSize) mQ.pop();` of `FIFO<T>::Add` pass by pass, at any
`mMaxSize`; `passes` bounds the number of times the condition is evaluated and the result is
`none` when the loop has not ended within them. `pop` on an empty queue, which `std::queue`
leaves undefined, is taken to leave the queue empty. -/
def FIFO.Add.whileLoop {T : Type} (maxSize : Nat) : Nat → List T → Option (List T)
  | 0, _ => none
  | passes + 1, q =>
    if q.length ≥ maxSize then FIFO.Add.whileLoop maxSize passes q.tail else some q

/-! ## Sequences of calls on the three recorders -/

/-- One call of a public member function of `TrcRecorder` that can change the recorder: an
inherited one, `Output` on a stream, or `SetMarkerList`. -/
inductive TrcRecorder.Op (V : Type) where
  | base (op : RecorderBase.Op (TrcFrameWrapper V))
  | output (os : String) (header : Bool)
  | setMarkerList (list : MarkerListWrapper)

/-- The position recorder after one call. -/
def TrcRecorder.Op.apply {V : Type} (put : V → String) (XEMPTY : V) (r : TrcRecorder V) :
    TrcRecorder.Op V → TrcRecorder V
  | TrcRecorder.Op.base op =>
    { r with toRecorderBase := RecorderBase.Op.apply r.toRecorderBase op }
  | TrcRecorder.Op.output os header => (r.Output put XEMPTY os header).1
  | TrcRecorder.Op.setMarkerList list => r.SetMarkerList list

/-- The position recorder after a sequence of calls, first call first. -/
def TrcRecorder.run {V : Type} (put : V → String) (XEMPTY : V) (r : TrcRecorder V)
    (ops : List (TrcRecorder.Op V)) : TrcRecorder V :=
  ops.foldl (TrcRecorder.Op.apply put XEMPTY) r

/-- One call of a public member function of `SegmentRecorder` that can change the recorder. -/
inductive SegmentRecorder.Op (V : Type) where
  | base (op : RecorderBase.Op (SegmentFrameWrapper V))
  | output (os : String) (header : Bool)
  | setHierarchy (hierarchy : HierarchyWrapper)

/-- The segment recorder after one call. -/
def SegmentRecorder.Op.apply {V : Type} (put : V → String) (XEMPTY : V)
    (r : SegmentRecorder V) : SegmentRecorder.Op V → SegmentRecorder V
  | SegmentRecorder.Op.base op =>
    { r with toRecorderBase := RecorderBase.Op.apply r.toRecorderBase op }
  | SegmentRecorder.Op.output os header => (r.Output put XEMPTY os header).1
  | SegmentRecorder.Op.setHierarchy hierarchy => r.SetHierarchy hierarchy

/-- The segment recorder after a sequence of calls, first call first. -/
def SegmentRecorder.run {V : Type} (put : V → String) (XEMPTY : V) (r : SegmentRecorder V)
    (ops : List (SegmentRecorder.Op V)) : SegmentRecorder V :=
  ops.foldl (SegmentRecorder.Op.apply put XEMPTY) r

/-- One call of a public member function of `DofRecorder` that can change the recorder. -/
inductive DofRecorder.Op (V : Type) where
  | base (op : RecorderBase.Op (DofFrameWrapper V))
  | output (os : String) (header : Bool)
  | setDofNames (names : DofNamesWrapper)

/-- The degree-of-freedom recorder after one call. -/
def DofRecorder.Op.apply {V : Type} (put : V → String) (XEMPTY : V) (r : DofRecorder V) :
    DofRecorder.Op V → DofRecorder V
  | DofRecorder.Op.base op =>
    { r with toRecorderBase := RecorderBase.Op.apply r.toRecorderBase op }
  | DofRecorder.Op.output os header => (r.Output put XEMPTY os header).1
  | DofRecorder.Op.setDofNames names => r.SetDofNames names

/-- The degree-of-freedom recorder after a sequence of calls, first call first. -/
def DofRecorder.run {V : Type} (put : V → String) (XEMPTY : V) (r : DofRecorder V)
    (ops : List (DofRecorder.Op V)) : DofRecorder V :=
  ops.foldl (DofRecorder.Op.apply put XEMPTY) r

/-! ## The structures of `EVaRT.h`, construction and copying of the wrappers

`EVaRT.h` is not among the sources; its structures are quoted in the comments of
`wrappers.h`. An array member is the function from an index to the element at that index (the
bounds `MAX_MARKERS`, `MAX_SEGMENTS`, `MAX_DOFS` are not known, a read beyond them is
undefined in C++), a pointer to a structure is an `Option`, and `new` is taken to succeed.
The two overloads of `Copy` are `CopySrc` (from a structure of `EVaRT.h`) and `Copy` (from a
wrapper); a member function that changes the object takes the object and returns it. -/

/-- The structure `sTrcFrame` of `EVaRT.h`. -/
structure sTrcFrame (V : Type) where
  iFrame : Int
  Markers : Nat → V × V × V

/-- The structure `sHtr2Frame` of `EVaRT.h` (`SegmentFrame` in `wrappers.h`). -/
structure sHtr2Frame (V : Type) where
  iFrame : Int
  Segments : Nat → SegmentInfo V

/-- The structure `sDofFrame` of `EVaRT.h`. -/
structure sDofFrame (V : Type) where
  iFrame : Int
  nDOFs : Int
  DOFs : Nat → V

/-- The structure `sHierarchy` of `EVaRT.h`. -/
structure sHierarchy where
  nSegments : Int
  szSegmentNames : Nat → String
  iParents : Nat → Int

namespace HierarchyWrapper

/-- The member `HierarchyWrapper::Copy(const sHierarchy* src)`: both lists are cleared and,
when `src` is not null, filled from the arrays for `i = 0 .. src->nSegments-1`. -/
def CopySrc (src : Option sHierarchy) : HierarchyWrapper :=
  match src with
  | some src =>
    (List.range src.nSegments.toNat).foldl
      (fun h (i : Nat) =>
        { mSegmentNames := h.mSegmentNames ++ [src.szSegmentNames i],
          mParents := h.mParents ++ [src.iParents i] })
      { mSegmentNames := [], mParents := [] }
  | none => { mSegmentNames := [], mParents := [] }

/-- The constructor `HierarchyWrapper(const sHierarchy* src)`. -/
def ctor (src : Option sHierarchy) : HierarchyWrapper :=
  CopySrc src

/-- The copy constructor `HierarchyWrapper(const HierarchyWrapper& src)`. -/
def ctorCopy (src : HierarchyWrapper) : HierarchyWrapper :=
  Copy src

/-- The operator `HierarchyWrapper::operator==(const HierarchyWrapper& lhs)`. -/
def operatorEq (h lhs : HierarchyWrapper) : Bool :=
  decide (h.mSegmentNames = lhs.mSegmentNames) && decide (h.mParents = lhs.mParents)

end HierarchyWrapper

namespace TrcFrameWrapper

variable {V : Type}

/-- The member `TrcFrameWrapper::FreeMemory`. -/
def FreeMemory (_self : TrcFrameWrapper V) : TrcFrameWrapper V :=
  { mMarkers := none, mFrame := -1, mCount := 0 }

/-- The member `TrcFrameWrapper::Copy(const sTrcFrame* src, int count)`. -/
def CopySrc (self : TrcFrameWrapper V) (src : Option (sTrcFrame V)) (count : Int) :
    TrcFrameWrapper V :=
  match src with
  | some src =>
    if count > 0 then
      { mMarkers := some ((List.range count.toNat).map (fun (i : Nat) => src.Markers i))
        mFrame := src.iFrame
        mCount := count.toNat }
    else self.FreeMemory
  | none => self.FreeMemory

/-- The member `TrcFrameWrapper::Copy(const TrcFrameWrapper& src)`, for a `src` that is
another object than the one copied into. -/
def Copy (XEMPTY : V) (self : TrcFrameWrapper V) (src : TrcFrameWrapper V) :
    TrcFrameWrapper V :=
  if src.Size > 0 then
    { mMarkers := some ((List.range src.Size.toNat).map
        (fun (i : Nat) => src.GetMarkerLocation XEMPTY (i : Int)))
      mFrame := src.Frame
      mCount := src.Size.toNat }
  else self.FreeMemory

/-- The constructor `TrcFrameWrapper(const sTrcFrame* src, int count)`. -/
def ctor (src : Option (sTrcFrame V)) (count : Int) : TrcFrameWrapper V :=
  CopySrc { mMarkers := none, mFrame := -1, mCount := 0 } src count

/-- The copy constructor `TrcFrameWrapper(const TrcFrameWrapper& src)`. -/
def ctorCopy (XEMPTY : V) (src : TrcFrameWrapper V) : TrcFrameWrapper V :=
  Copy XEMPTY { mMarkers := none, mFrame := -1, mCount := 0 } src

/-- The member `TrcFrameWrapper::Set`. -/
def Set (self : TrcFrameWrapper V) (src : Option (sTrcFrame V)) (count : Int) :
    TrcFrameWrapper V :=
  self.CopySrc src count

/-- The operator `TrcFrameWrapper::operator=(const TrcFrameWrapper& lhs)`. -/
def assign (XEMPTY : V) (self : TrcFrameWrapper V) (lhs : TrcFrameWrapper V) :
    TrcFrameWrapper V :=
  Copy XEMPTY self lhs

/-- The array element `mMarkers[i]` read without a test (`none`: no such element). -/
def rawMarker (f : TrcFrameWrapper V) (i : Nat) : Option (V × V × V) :=
  match f.mMarkers with
  | some markers => markers[i]?
  | none => none

/-- The operator `TrcFrameWrapper::operator==(const TrcFrameWrapper& lhs)`; `feq` is `==`
on `float`. The loop `while (i < mCount && rc)` is a pass over `i = 0 .. mCount-1` that
leaves `rc` alone once it is false; `none`: an element was read that is not there. -/
def operatorEq (feq : V → V → Bool) (f lhs : TrcFrameWrapper V) : Option Bool :=
  let rc := decide (f.mCount = lhs.mCount) && decide (f.mFrame = lhs.mFrame)
  (List.range f.mCount).foldl
    (fun rc (i : Nat) =>
      match rc with
      | some true =>
        match f.rawMarker i, lhs.rawMarker i with
        | some a, some b => some (feq a.1 b.1 && feq a.2.1 b.2.1 && feq a.2.2 b.2.2)
        | _, _ => none
      | other => other)
    (some rc)

end TrcFrameWrapper

namespace SegmentFrameWrapper

variable {V : Type}

/-- The member `SegmentFrameWrapper::FreeMemory`. -/
def FreeMemory (_self : SegmentFrameWrapper V) : SegmentFrameWrapper V :=
  { mSegments := none, mFrame := -1, mCount := 0 }

/-- The member `SegmentFrameWrapper::Copy(const SegmentFrame* src, int count)`. -/
def CopySrc (self : SegmentFrameWrapper V) (src : Option (sHtr2Frame V)) (count : Int) :
    SegmentFrameWrapper V :=
  match src with
  | some src =>
    if count > 0 then
      { mSegments := some ((List.range count.toNat).map (fun (i : Nat) => src.Segments i))
        mFrame := src.iFrame
        mCount := count.toNat }
    else self.FreeMemory
  | none => self.FreeMemory

/-- The member `SegmentFrameWrapper::Copy(const SegmentFrameWrapper& src)`. -/
def Copy (XEMPTY : V) (self : SegmentFrameWrapper V) (src : SegmentFrameWrapper V) :
    SegmentFrameWrapper V :=
  if src.Size > 0 then
    { mSegments := some ((List.range src.Size.toNat).map
        (fun (i : Nat) => src.GetSegmentInfo XEMPTY (i : Int)))
      mFrame := src.Frame
      mCount := src.Size.toNat }
  else self.FreeMemory

/-- The constructor `SegmentFrameWrapper(const SegmentFrame* src, int count)`. -/
def ctor (src : Option (sHtr2Frame V)) (count : Int) : SegmentFrameWrapper V :=
  CopySrc { mSegments := none, mFrame := -1, mCount := 0 } src count

/-- The copy constructor `SegmentFrameWrapper(const SegmentFrameWrapper& src)`. -/
def ctorCopy (XEMPTY : V) (src : SegmentFrameWrapper V) : SegmentFrameWrapper V :=
  Copy XEMPTY { mSegments := none, mFrame := -1, mCount := 0 } src

/-- The member `SegmentFrameWrapper::Set`. -/
def Set (self : SegmentFrameWrapper V) (src : Option (sHtr2Frame V)) (count : Int) :
    SegmentFrameWrapper V :=
  self.CopySrc src count

/-- The operator `SegmentFrameWrapper::operator=(const SegmentFrameWrapper& lhs)`. -/
def assign (XEMPTY : V) (self : SegmentFrameWrapper V) (lhs : SegmentFrameWrapper V) :
    SegmentFrameWrapper V :=
  Copy XEMPTY self lhs

end SegmentFrameWrapper

namespace DofFrameWrapper

variable {V : Type}

/-- The member `DofFrameWrapper::FreeMemory`. -/
def FreeMemory (_self : DofFrameWrapper V) : DofFrameWrapper V :=
  { mDofs := none, mFrame := -1, mCount := 0 }

/-- The member `DofFrameWrapper::Copy(const sDofFrame* src)`: the count is `src->nDOFs`. -/
def CopySrc (self : DofFrameWrapper V) (src : Option (sDofFrame V)) : DofFrameWrapper V :=
  match src with
  | some src =>
    if src.nDOFs > 0 then
      { mDofs := some ((List.range src.nDOFs.toNat).map (fun (i : Nat) => src.DOFs i))
        mFrame := src.iFrame
        mCount := src.nDOFs.toNat }
    else self.FreeMemory
  | none => self.FreeMemory

/-- The member `DofFrameWrapper::Copy(const DofFrameWrapper& src)`: the loop stores
`src.mDofs[i]` for `i < mCount`, the first `mCount` elements of the array of `src`. -/
def Copy (self : DofFrameWrapper V) (src : DofFrameWrapper V) : DofFrameWrapper V :=
  if src.Size > 0 then
    { mDofs := some ((src.mDofs.getD []).take src.Size.toNat)
      mFrame := src.Frame
      mCount := src.Size.toNat }
  else self.FreeMemory

/-- The constructor `DofFrameWrapper(const sDofFrame* src)`. -/
def ctor (src : Option (sDofFrame V)) : DofFrameWrapper V :=
  CopySrc { mDofs := none, mFrame := -1, mCount := 0 } src

/-- The copy constructor `DofFrameWrapper(const DofFrameWrapper& src)`. -/
def ctorCopy (src : DofFrameWrapper V) : DofFrameWrapper V :=
  Copy { mDofs := none, mFrame := -1, mCount := 0 } src

/-- The member `DofFrameWrapper::Set`. -/
def Set (self : DofFrameWrapper V) (src : Option (sDofFrame V)) : DofFrameWrapper V :=
  self.CopySrc src

/-- The operator `DofFrameWrapper::operator=(const DofFrameWrapper& lhs)`. -/
def assign (self : DofFrameWrapper V) (lhs : DofFrameWrapper V) : DofFrameWrapper V :=
  Copy self lhs

end DofFrameWrapper

/-- The operator `==` of `float` on a value that is a number (`some`) or a NaN (`none`):
IEEE 754 makes a NaN unequal to every value, itself included. -/
def floatEq (a b : Option Int) : Bool :=
  match a, b with
  | some x, some y => decide (x = y)
  | _, _ => false

/-! ## `trimWhiteSpace` of `utils.cpp`

A `char` is its code, a `Nat`; the array `s` points to is a `List Nat` and a null `s` is
`none`. A read outside the array is undefined: the result is then `none`. `isspace` of
`<cctype>` is a parameter. A loop takes the number of times its condition may be evaluated;
`trimWhiteSpace` allows one more than the length of the array, which a loop that moves one
element per pass cannot use up before it reads outside the array. -/

namespace trimWhiteSpace

/-- The loop `while ( isspace((int)*p) ) p++;`: the index `p` at the end. -/
def skipLeading (isspace : Nat → Bool) (buf : List Nat) : Nat → Nat → Option Nat
  | 0, _ => none
  | passes + 1, p =>
    match buf[p]? with
    | none => none
    | some c => if isspace c then skipLeading isspace buf passes (p + 1) else some p

/-- The loop `while (*p) { *(p-shift) = *p; p++; }`: the index `p` and the array at the
end. -/
def moveDown (shift : Nat) : Nat → Nat → List Nat → Option (Nat × List Nat)
  | 0, _, _ => none
  | passes + 1, p, buf =>
    match buf[p]? with
    | none => none
    | some c =>
      if c ≠ 0 then moveDown shift passes (p + 1) (buf.set (p - shift) c) else some (p, buf)

/-- The loop `while ( (p != s) && isspace((int)(*(--p))) ) *p = 0;` from the index `p` down:
the array at the end. -/
def trimTrailing (isspace : Nat → Bool) : Nat → List Nat → Option (List Nat)
  | 0, buf => some buf
  | p + 1, buf =>
    match buf[p]? with
    | none => none
    | some c => if isspace c then trimTrailing isspace p (buf.set p 0) else some buf

end trimWhiteSpace

/-- The function `trimWhiteSpace(char *s)`: the array after the call (`some none` for a null
`s`, which is left alone), or `none` when the call reads outside the array. -/
def trimWhiteSpace (isspace : Nat → Bool) (s : Option (List Nat)) :
    Option (Option (List Nat)) :=
  match s with
  | none => some none
  | some buf =>
    match trimWhiteSpace.skipLeading isspace buf (buf.length + 1) 0 with
    | none => none
    | some p =>
      let shift := p - 0
      match trimWhiteSpace.moveDown shift (buf.length + 1) p buf with
      | none => none
      | some (p, buf) =>
        let buf := buf.set (p - shift) 0
        let p := p - shift
        (trimWhiteSpace.trimTrailing isspace p buf).map some

namespace Stated

/-- The string held in a `char` array: the elements before the first `0`. -/
def cString (buf : List Nat) : List Nat :=
  buf.takeWhile (fun c => c ≠ 0)

/-- A string without its longest all-whitespace prefix and its longest all-whitespace
suffix. -/
def trimmed (isspace : Nat → Bool) (cs : List Nat) : List Nat :=
  ((cs.dropWhile isspace).reverse.dropWhile isspace).reverse

end Stated

namespace FIFO

variable {T : Type}

/-! ## Auxiliary facts about the loops and about `Add` -/

theorem emptyLoop_eq_nil (q : List T) : emptyLoop q = [] := by
  induction q with
  | nil => rfl
  | cons _ rest ih => simpa [emptyLoop] using ih

theorem removeOldestLoop_eq_drop (maxSize : Nat) (q : List T) :
    removeOldestLoop maxSize q = q.drop (q.length + 1 - maxSize) := by
  induction q with
  | nil => simp [removeOldestLoop]
  | cons front rest ih =>
    by_cases hfull : maxSize ≤ rest.length + 1
    · have hk : rest.length + 1 + 1 - maxSize = (rest.length + 1 - maxSize) + 1 := by omega
      simp [removeOldestLoop, hfull, ih, hk]
    · have hk : rest.length + 1 + 1 - maxSize = 0 := by omega
      simp [removeOldestLoop, hfull, hk]

theorem Add_of_locked (f : FIFO T) (v : T) (h : f.mLocked = true) : f.Add v = f := by
  simp [Add, h]

theorem Add_of_maxSize_zero (f : FIFO T) (v : T) (h : f.mMaxSize = 0) : f.Add v = f := by
  simp [Add, h]

theorem Add_of_room (f : FIFO T) (v : T) (hl : f.mLocked = false)
    (hroom : f.mQ.length < f.mMaxSize) : f.Add v = { f with mQ := f.mQ ++ [v] } := by
  have hpos : 0 < f.mMaxSize := by omega
  simp [Add, hl, hroom, hpos, SemWait, SemRelease]

theorem Add_of_full_removeOldest (f : FIFO T) (v : T) (hl : f.mLocked = false)
    (hpos : 0 < f.mMaxSize) (hfull : f.mMaxSize ≤ f.mQ.length)
    (hs : f.mReplaceStrategy = FifoReplaceStrategy.kRemoveOldest) :
    f.Add v = { f with mQ := f.mQ.drop (f.mQ.length + 1 - f.mMaxSize) ++ [v] } := by
  have hnot : ¬ f.mQ.length < f.mMaxSize := by omega
  simp [Add, hl, hpos, hnot, hs, SemWait, SemRelease, removeOldestLoop_eq_drop]

theorem Add_of_full_stopAdding (f : FIFO T) (v : T) (hfull : f.mMaxSize ≤ f.mQ.length)
    (hs : f.mReplaceStrategy = FifoReplaceStrategy.kStopAdding) : f.Add v = f := by
  have hnot : ¬ f.mQ.length < f.mMaxSize := by omega
  simp [Add, hnot, hs, SemRelease]

theorem strategy_cases (s : FifoReplaceStrategy) :
    s = FifoReplaceStrategy.kRemoveOldest ∨ s = FifoReplaceStrategy.kStopAdding := by
  cases s
  · exact Or.inl rfl
  · exact Or.inr rfl

theorem Add_eq_or_appended (f : FIFO T) (v : T) :
    f.Add v = f ∨ ∃ n, f.Add v = { f with mQ := f.mQ.drop n ++ [v] } := by
  by_cases hl : f.mLocked = true
  · exact Or.inl (Add_of_locked f v hl)
  have hl : f.mLocked = false := by simpa using hl
  by_cases hroom : f.mQ.length < f.mMaxSize
  · exact Or.inr ⟨0, by simpa using Add_of_room f v hl hroom⟩
  have hfull : f.mMaxSize ≤ f.mQ.length := by omega
  by_cases hpos : 0 < f.mMaxSize
  · rcases strategy_cases f.mReplaceStrategy with hs | hs
    · exact Or.inr ⟨_, Add_of_full_removeOldest f v hl hpos hfull hs⟩
    · exact Or.inl (Add_of_full_stopAdding f v hfull hs)
  · exact Or.inl (Add_of_maxSize_zero f v (by omega))

theorem Add_mMaxSize (f : FIFO T) (v : T) : (f.Add v).mMaxSize = f.mMaxSize := by
  rcases Add_eq_or_appended f v with h | ⟨n, h⟩ <;> rw [h]

theorem Add_mLocked (f : FIFO T) (v : T) : (f.Add v).mLocked = f.mLocked := by
  rcases Add_eq_or_appended f v with h | ⟨n, h⟩ <;> rw [h]

theorem Add_mReplaceStrategy (f : FIFO T) (v : T) :
    (f.Add v).mReplaceStrategy = f.mReplaceStrategy := by
  rcases Add_eq_or_appended f v with h | ⟨n, h⟩ <;> rw [h]

theorem Add_length_le (f : FIFO T) (v : T) (h : f.mQ.length ≤ f.mMaxSize) :
    (f.Add v).mQ.length ≤ f.mMaxSize := by
  by_cases hl : f.mLocked = true
  · rw [Add_of_locked f v hl]; exact h
  have hl : f.mLocked = false := by simpa using hl
  by_cases hroom : f.mQ.length < f.mMaxSize
  · rw [Add_of_room f v hl hroom]; simp; omega
  have hfull : f.mMaxSize ≤ f.mQ.length := by omega
  by_cases hpos : 0 < f.mMaxSize
  · rcases strategy_cases f.mReplaceStrategy with hs | hs
    · rw [Add_of_full_removeOldest f v hl hpos hfull hs]; simp; omega
    · rw [Add_of_full_stopAdding f v hfull hs]; exact h
  · rw [Add_of_maxSize_zero f v (by omega)]; exact h

theorem AddAll_nil (f : FIFO T) : f.AddAll [] = f := rfl

theorem AddAll_cons (f : FIFO T) (x : T) (xs : List T) :
    f.AddAll (x :: xs) = (f.Add x).AddAll xs := rfl

theorem AddAll_mMaxSize (f : FIFO T) (xs : List T) : (f.AddAll xs).mMaxSize = f.mMaxSize := by
  induction xs generalizing f with
  | nil => rfl
  | cons x xs ih => rw [AddAll_cons, ih, Add_mMaxSize]

theorem AddAll_length_le (f : FIFO T) (xs : List T) (h : f.mQ.length ≤ f.mMaxSize) :
    (f.AddAll xs).mQ.length ≤ f.mMaxSize := by
  induction xs generalizing f with
  | nil => exact h
  | cons x xs ih =>
    rw [AddAll_cons]
    have := ih (f.Add x) (by rw [Add_mMaxSize]; exact Add_length_le f x h)
    rwa [Add_mMaxSize] at this

theorem AddAll_mQ_shape (f : FIFO T) (xs : List T) :
    ∃ n ys, List.Sublist ys xs ∧ (f.AddAll xs).mQ = f.mQ.drop n ++ ys := by
  induction xs generalizing f with
  | nil => exact ⟨0, [], List.Sublist.refl _, by simp [AddAll_nil]⟩
  | cons x xs ih =>
    obtain ⟨n, ys, hsub, hq⟩ := ih (f.Add x)
    rw [AddAll_cons, hq]
    rcases Add_eq_or_appended f x with h | ⟨m, h⟩
    · exact ⟨n, ys, List.Sublist.cons x hsub, by rw [h]⟩
    · refine ⟨m + n, List.drop (n - (f.mQ.drop m).length) [x] ++ ys, ?_, ?_⟩
      · have h1 : List.Sublist (List.drop (n - (f.mQ.drop m).length) [x]) [x] :=
          List.drop_sublist _ _
        simpa using List.Sublist.append h1 hsub
      · rw [h]
        simp only [List.drop_append_eq_append_drop, List.drop_drop, List.append_assoc]

theorem GetNext_cons (f : FIFO T) (next front : T) (rest : List T) (h : f.mQ = front :: rest) :
    f.GetNext next = (true, front, { f with mQ := rest }) := by
  simp [GetNext, SemWait, SemRelease, h]

theorem GetNext_nil (f : FIFO T) (next : T) (h : f.mQ = []) :
    f.GetNext next = (false, next, f) := by
  simp [GetNext, SemWait, SemRelease, h]

theorem GetUntilFalse_enough (q : List T) (f : FIFO T) (next : T) (extra : Nat)
    (h : f.mQ = q) :
    GetUntilFalse (q.length + 1 + extra) f next
      = (q, q.getLast?.getD next, { f with mQ := [] }, true) := by
  induction q generalizing f next with
  | nil =>
    have hf : ({ f with mQ := [] } : FIFO T) = f := by cases f; simp_all
    have : 0 + 1 + extra = extra + 1 := by omega
    simp [this, GetUntilFalse, GetNext_nil f next h, hf]
  | cons front rest ih =>
    have hk : (front :: rest).length + 1 + extra = (rest.length + 1 + extra) + 1 := by
      simp; omega
    have hlast : (front :: rest).getLast?.getD next = rest.getLast?.getD front := by
      cases rest with
      | nil => rfl
      | cons a r => simp [List.getLast?_cons_cons, List.getLast?_eq_getLast _ (List.cons_ne_nil a r)]
    rw [hk, hlast]
    simp [GetUntilFalse, GetNext_cons f next front rest h, ih { f with mQ := rest } front rfl]

theorem with_mQ_self (f : FIFO T) : ({ f with mQ := f.mQ } : FIFO T) = f := by
  cases f; rfl

theorem AddAll_removeOldest (f : FIFO T) (xs : List T) (hl : f.mLocked = false)
    (hs : f.mReplaceStrategy = FifoReplaceStrategy.kRemoveOldest) (hc : 1 ≤ f.mMaxSize)
    (hle : f.mQ.length ≤ f.mMaxSize) :
    f.AddAll xs =
      { f with mQ := (f.mQ ++ xs).drop (f.mQ.length + xs.length - f.mMaxSize) } := by
  induction xs generalizing f with
  | nil =>
    have h0 : f.mQ.length + ([] : List T).length - f.mMaxSize = 0 := by simp; omega
    rw [h0, AddAll_nil]; simp [with_mQ_self]
  | cons x xs ih =>
    rw [AddAll_cons]
    by_cases hroom : f.mQ.length < f.mMaxSize
    · have hadd := Add_of_room f x hl hroom
      have hih := ih (f.Add x) (by rw [hadd]; exact hl) (by rw [hadd]; exact hs) (by rw [hadd]; exact hc)
        (by rw [hadd]; simp; omega)
      rw [hih, hadd]
      have hk : f.mQ.length + 1 + xs.length - f.mMaxSize
          = f.mQ.length + (xs.length + 1) - f.mMaxSize := by omega
      simp [hk]
    · have hfull : f.mMaxSize ≤ f.mQ.length := by omega
      have hadd := Add_of_full_removeOldest f x hl (by omega) hfull hs
      have hd : f.mQ.length + 1 - f.mMaxSize = 1 := by omega
      rw [hd] at hadd
      have hlen : (List.drop 1 f.mQ ++ [x]).length = f.mMaxSize := by simp; omega
      have hih := ih (f.Add x) (by rw [hadd]; exact hl) (by rw [hadd]; exact hs) (by rw [hadd]; exact hc)
        (by rw [hadd]; exact le_of_eq hlen)
      rw [hih, hadd]
      have hk1 : (List.drop 1 f.mQ ++ [x]).length + xs.length - f.mMaxSize = xs.length := by
        rw [hlen]; omega
      have hk2 : f.mQ.length + (x :: xs).length - f.mMaxSize = xs.length + 1 := by
        simp; omega
      simp only [hk1, hk2]
      cases hq : f.mQ with
      | nil => rw [hq] at hfull; simp at hfull; omega
      | cons a q => simp

theorem AddAll_stopAdding (f : FIFO T) (xs : List T) (hl : f.mLocked = false)
    (hs : f.mReplaceStrategy = FifoReplaceStrategy.kStopAdding)
    (hle : f.mQ.length ≤ f.mMaxSize) :
    f.AddAll xs = { f with mQ := f.mQ ++ xs.take (f.mMaxSize - f.mQ.length) } := by
  induction xs generalizing f with
  | nil => rw [AddAll_nil]; simp [with_mQ_self]
  | cons x xs ih =>
    rw [AddAll_cons]
    by_cases hroom : f.mQ.length < f.mMaxSize
    · have hadd := Add_of_room f x hl hroom
      have hih := ih (f.Add x) (by rw [hadd]; exact hl) (by rw [hadd]; exact hs)
        (by rw [hadd]; simp; omega)
      rw [hih, hadd]
      obtain ⟨k, hk⟩ : ∃ k, f.mMaxSize - f.mQ.length = k + 1 := ⟨f.mMaxSize - f.mQ.length - 1, by omega⟩
      have hk2 : f.mMaxSize - (f.mQ.length + 1) = k := by omega
      simp [hk, hk2]
    · have hfull : f.mMaxSize ≤ f.mQ.length := by omega
      have hadd := Add_of_full_stopAdding f x hfull hs
      rw [hadd, ih f hl hs hle]
      have hk : f.mMaxSize - f.mQ.length = 0 := by omega
      simp [hk]

theorem AddAll_of_locked (f : FIFO T) (xs : List T) (h : f.mLocked = true) :
    f.AddAll xs = f := by
  induction xs with
  | nil => rfl
  | cons x xs ih => rw [AddAll_cons, Add_of_locked f x h, ih]

theorem AddAll_of_maxSize_zero (f : FIFO T) (xs : List T) (h : f.mMaxSize = 0) :
    f.AddAll xs = f := by
  induction xs with
  | nil => rfl
  | cons x xs ih => rw [AddAll_cons, Add_of_maxSize_zero f x h, ih]

/-! ## The claims about `Add`, `GetNext` and `PeekNext` -/

/-- C1, capacity invariant under `Add`: from any state with `Size() <= MaxSize()`, and from the
freshly constructed buffer with any capacity and policy, after each of the calls of a sequence
of `Add` calls (the first `k` calls, for every `k`) `Size() <= MaxSize()` holds. -/
theorem Add_capacity_invariant (f : FIFO T) (xs : List T) (k : Nat) (maxSize : Nat)
    (replaceStrategy : FifoReplaceStrategy) (h : f.Size ≤ f.MaxSize) :
    (f.AddAll (xs.take k)).Size ≤ (f.AddAll (xs.take k)).MaxSize ∧
    ((ctor maxSize replaceStrategy : FIFO T).AddAll (xs.take k)).Size
      ≤ ((ctor maxSize replaceStrategy : FIFO T).AddAll (xs.take k)).MaxSize := by
  simp only [Size, MaxSize, SemWait, if_true] at h ⊢
  constructor
  · rw [AddAll_mMaxSize]
    exact AddAll_length_le f _ h
  · rw [AddAll_mMaxSize]
    exact AddAll_length_le _ _ (by simp [ctor])

/-- Witness of C1: a full evicting buffer of capacity 2 receiving three more values. -/
theorem Add_capacity_invariant_witness :
    ((⟨[7, 8], false, 2, FifoReplaceStrategy.kRemoveOldest⟩ : FIFO Nat).AddAll
        ([1, 2, 3].take 3)).Size
      ≤ ((⟨[7, 8], false, 2, FifoReplaceStrategy.kRemoveOldest⟩ : FIFO Nat).AddAll
        ([1, 2, 3].take 3)).MaxSize ∧
    ((ctor 2 FifoReplaceStrategy.kStopAdding : FIFO Nat).AddAll ([1, 2, 3].take 3)).Size
      ≤ ((ctor 2 FifoReplaceStrategy.kStopAdding : FIFO Nat).AddAll ([1, 2, 3].take 3)).MaxSize :=
  Add_capacity_invariant ⟨[7, 8], false, 2, FifoReplaceStrategy.kRemoveOldest⟩ [1, 2, 3] 3 2
    FifoReplaceStrategy.kStopAdding (by decide)

/-- C2, FIFO ordering. (1) `Add` either leaves the fifo as it is or puts the value behind the
values that stay (it only removes from the front). (2) Calling `GetNext` until it returns
`false` (any number of calls above the number of values held is enough) returns exactly the
values held, oldest first, ends with the call that returns `false`, and leaves the fifo empty
and the last value returned in the caller's variable. (3) Hence what is drained after a
sequence of `Add` calls is, in order, values held before followed by values of the sequence:
a sublist of the values in their order of admission. -/
theorem fifo_ordering (f : FIFO T) (v next : T) (xs : List T) (extra : Nat) :
    (f.Add v = f ∨ ∃ n, f.Add v = { f with mQ := f.mQ.drop n ++ [v] }) ∧
    GetUntilFalse (f.mQ.length + 1 + extra) f next
      = (f.mQ, f.mQ.getLast?.getD next, { f with mQ := [] }, true) ∧
    (∃ n ys, List.Sublist ys xs ∧
      (GetUntilFalse ((f.AddAll xs).mQ.length + 1 + extra) (f.AddAll xs) next).1
        = f.mQ.drop n ++ ys) ∧
    List.Sublist (GetUntilFalse ((f.AddAll xs).mQ.length + 1 + extra) (f.AddAll xs) next).1
      (f.mQ ++ xs) := by
  have hdrain : ∀ g : FIFO T, GetUntilFalse (g.mQ.length + 1 + extra) g next
      = (g.mQ, g.mQ.getLast?.getD next, { g with mQ := [] }, true) :=
    fun g => GetUntilFalse_enough g.mQ g next extra rfl
  obtain ⟨n, ys, hsub, hq⟩ := AddAll_mQ_shape f xs
  refine ⟨Add_eq_or_appended f v, hdrain f, ⟨n, ys, hsub, ?_⟩, ?_⟩
  · rw [hdrain, hq]
  · rw [hdrain, hq]
    exact List.Sublist.append (List.drop_sublist n f.mQ) hsub

/-- C3, `kRemoveOldest` retains the newest: for every capacity `c >= 1` and every list `xs`,
adding the elements of `xs` in order to the empty, unlocked fifo of capacity `c` with policy
`kRemoveOldest` leaves exactly the last `min c |xs|` elements of `xs`, in order. -/
theorem removeOldest_retains_newest (c : Nat) (xs : List T) (hc : 1 ≤ c) :
    (ctor c FifoReplaceStrategy.kRemoveOldest : FIFO T).AddAll xs
      = ⟨xs.drop (xs.length - min c xs.length), false, c, FifoReplaceStrategy.kRemoveOldest⟩ ∧
    ((ctor c FifoReplaceStrategy.kRemoveOldest : FIFO T).AddAll xs).Size = min c xs.length := by
  have h := AddAll_removeOldest (ctor c FifoReplaceStrategy.kRemoveOldest : FIFO T) xs rfl rfl
    hc (Nat.zero_le _)
  have hk : xs.length - min c xs.length = xs.length - c := by omega
  have h0 : ([] : List T).length + xs.length - c = xs.length - c := by simp
  simp only [ctor] at h ⊢
  rw [h, hk]
  simp only [h0, List.nil_append, Size, SemWait, if_true, List.length_drop, true_and]
  omega

/-- Witness of C3, the example of the specification: capacity 3 and `[1,2,3,4,5]` leave
`[3,4,5]`. -/
theorem removeOldest_retains_newest_witness :
    (ctor 3 FifoReplaceStrategy.kRemoveOldest : FIFO Nat).AddAll [1, 2, 3, 4, 5]
      = ⟨[3, 4, 5], false, 3, FifoReplaceStrategy.kRemoveOldest⟩ ∧
    ((ctor 3 FifoReplaceStrategy.kRemoveOldest : FIFO Nat).AddAll [1, 2, 3, 4, 5]).Size = 3 :=
  removeOldest_retains_newest 3 [1, 2, 3, 4, 5] (by decide)

/-- C4, `kStopAdding` drops the excess: for every capacity `c` (zero included) and every list
`xs`, adding the elements of `xs` in order to the empty, unlocked fifo of capacity `c` with
policy `kStopAdding` leaves exactly the first `min c |xs|` elements of `xs`, in order. -/
theorem stopAdding_drops_excess (c : Nat) (xs : List T) :
    (ctor c FifoReplaceStrategy.kStopAdding : FIFO T).AddAll xs
      = ⟨xs.take (min c xs.length), false, c, FifoReplaceStrategy.kStopAdding⟩ ∧
    ((ctor c FifoReplaceStrategy.kStopAdding : FIFO T).AddAll xs).Size = min c xs.length := by
  have h := AddAll_stopAdding (ctor c FifoReplaceStrategy.kStopAdding : FIFO T) xs rfl rfl
    (Nat.zero_le _)
  have hk : xs.take (min c xs.length) = xs.take c := by
    rcases Nat.le_total c xs.length with hle | hle
    · rw [Nat.min_eq_left hle]
    · rw [Nat.min_eq_right hle, List.take_of_length_le (le_refl _), List.take_of_length_le hle]
  simp only [ctor] at h ⊢
  rw [h, hk]
  simp [Size, SemWait, List.length_take]

/-- Witness of C4, the example of the specification: capacity 3 and `[1,2,3,4,5]` leave
`[1,2,3]`. -/
theorem stopAdding_drops_excess_witness :
    (ctor 3 FifoReplaceStrategy.kStopAdding : FIFO Nat).AddAll [1, 2, 3, 4, 5]
      = ⟨[1, 2, 3], false, 3, FifoReplaceStrategy.kStopAdding⟩ ∧
    ((ctor 3 FifoReplaceStrategy.kStopAdding : FIFO Nat).AddAll [1, 2, 3, 4, 5]).Size = 3 :=
  stopAdding_drops_excess 3 [1, 2, 3, 4, 5]

/-- C5, `Add` on a full buffer under `kRemoveOldest`: for an unlocked fifo with policy
`kRemoveOldest`, capacity `c >= 1` and at least `c` values held, the removal loop leaves the
last `c - 1` values held (fewer than `c`), then `v` is appended: the contents become those
`c - 1` values followed by `v`, once; `v` is the last element and `Size() == c`. -/
theorem Add_full_removeOldest (f : FIFO T) (v : T) (hl : f.IsLocked = false)
    (hs : f.ReplaceStrategy = FifoReplaceStrategy.kRemoveOldest) (hc : 1 ≤ f.MaxSize)
    (hfull : f.MaxSize ≤ f.Size) :
    removeOldestLoop f.mMaxSize f.mQ = f.mQ.drop (f.mQ.length - (f.mMaxSize - 1)) ∧
    (removeOldestLoop f.mMaxSize f.mQ).length = f.mMaxSize - 1 ∧
    f.Add v = { f with mQ := f.mQ.drop (f.mQ.length - (f.mMaxSize - 1)) ++ [v] } ∧
    (f.Add v).mQ.getLast? = some v ∧
    (f.Add v).Size = f.MaxSize := by
  simp only [IsLocked, ReplaceStrategy, MaxSize, Size, SemWait, if_true] at hl hs hc hfull ⊢
  have hk : f.mQ.length + 1 - f.mMaxSize = f.mQ.length - (f.mMaxSize - 1) := by omega
  have hadd := Add_of_full_removeOldest f v hl (by omega) hfull hs
  rw [hk] at hadd
  have hloop := removeOldestLoop_eq_drop f.mMaxSize f.mQ
  rw [hk] at hloop
  refine ⟨hloop, ?_, hadd, ?_, ?_⟩
  · rw [hloop, List.length_drop]; omega
  · rw [hadd]; simp
  · rw [hadd]; simp only [List.length_append, List.length_drop, List.length_singleton]; omega

/-- Witness of C5: capacity 3 holding `[1,2,3]`, adding `9` leaves `[2,3,9]`. -/
theorem Add_full_removeOldest_witness :
    removeOldestLoop 3 [1, 2, 3] = [2, 3] ∧
    (removeOldestLoop 3 [1, 2, 3]).length = 2 ∧
    (⟨[1, 2, 3], false, 3, FifoReplaceStrategy.kRemoveOldest⟩ : FIFO Nat).Add 9
      = ⟨[2, 3, 9], false, 3, FifoReplaceStrategy.kRemoveOldest⟩ ∧
    ((⟨[1, 2, 3], false, 3, FifoReplaceStrategy.kRemoveOldest⟩ : FIFO Nat).Add 9).mQ.getLast?
      = some 9 ∧
    ((⟨[1, 2, 3], false, 3, FifoReplaceStrategy.kRemoveOldest⟩ : FIFO Nat).Add 9).Size = 3 :=
  Add_full_removeOldest ⟨[1, 2, 3], false, 3, FifoReplaceStrategy.kRemoveOldest⟩ 9 rfl rfl
    (by decide) (by decide)

/-- C6, `Add` with room: for an unlocked fifo holding fewer values than `MaxSize()`, under
either policy `Add(v)` puts `v` behind the values held and changes nothing else: `Size()`
grows by one, capacity, policy and lock are as before. -/
theorem Add_with_room (f : FIFO T) (v : T) (hl : f.IsLocked = false)
    (hroom : f.Size < f.MaxSize) :
    f.Add v = { f with mQ := f.mQ ++ [v] } ∧
    (f.Add v).Size = f.Size + 1 ∧
    (f.Add v).MaxSize = f.MaxSize ∧
    (f.Add v).ReplaceStrategy = f.ReplaceStrategy ∧
    (f.Add v).IsLocked = f.IsLocked := by
  simp only [IsLocked, ReplaceStrategy, MaxSize, Size, SemWait, if_true] at hl hroom ⊢
  have hadd := Add_of_room f v hl hroom
  rw [hadd]
  simp

/-- Witness of C6: capacity 3 holding `[1,2]`, adding `9` gives `[1,2,9]` (policy
`kStopAdding`). -/
theorem Add_with_room_witness :
    (⟨[1, 2], false, 3, FifoReplaceStrategy.kStopAdding⟩ : FIFO Nat).Add 9
      = ⟨[1, 2, 9], false, 3, FifoReplaceStrategy.kStopAdding⟩ ∧
    ((⟨[1, 2], false, 3, FifoReplaceStrategy.kStopAdding⟩ : FIFO Nat).Add 9).Size = 2 + 1 ∧
    ((⟨[1, 2], false, 3, FifoReplaceStrategy.kStopAdding⟩ : FIFO Nat).Add 9).MaxSize = 3 ∧
    ((⟨[1, 2], false, 3, FifoReplaceStrategy.kStopAdding⟩ : FIFO Nat).Add 9).ReplaceStrategy
      = FifoReplaceStrategy.kStopAdding ∧
    ((⟨[1, 2], false, 3, FifoReplaceStrategy.kStopAdding⟩ : FIFO Nat).Add 9).IsLocked = false :=
  Add_with_room ⟨[1, 2], false, 3, FifoReplaceStrategy.kStopAdding⟩ 9 rfl (by decide)

/-- C7, the admission lock blocks all insertion: for every fifo state, after
`SetLocked(true)` any sequence of `Add` calls leaves the whole state as it is: the contents
and so `Size()`, the capacity, the policy and the lock flag, which stays set. -/
theorem locked_blocks_Add (f : FIFO T) (xs : List T) :
    (f.SetLocked true).AddAll xs = f.SetLocked true ∧
    ((f.SetLocked true).AddAll xs).Size = f.Size ∧
    ((f.SetLocked true).AddAll xs).mQ = f.mQ ∧
    ((f.SetLocked true).AddAll xs).MaxSize = f.MaxSize ∧
    ((f.SetLocked true).AddAll xs).ReplaceStrategy = f.ReplaceStrategy ∧
    ((f.SetLocked true).AddAll xs).IsLocked = true := by
  have h : (f.SetLocked true).AddAll xs = f.SetLocked true :=
    AddAll_of_locked _ xs (by simp [SetLocked, SemWait, SemRelease])
  rw [h]
  simp [SetLocked, SemWait, SemRelease, Size, MaxSize, ReplaceStrategy, IsLocked]

/-- C8, zero capacity never accepts: for every fifo state with `MaxSize() == 0`, under either
policy, locked or not, empty or not, `Add(v)` leaves the whole state as it is, and so does any
sequence of `Add` calls. -/
theorem zero_capacity_never_accepts (f : FIFO T) (v : T) (xs : List T)
    (h : f.MaxSize = 0) :
    f.Add v = f ∧ f.AddAll xs = f := by
  simp only [MaxSize, SemWait, if_true] at h
  exact ⟨Add_of_maxSize_zero f v h, AddAll_of_maxSize_zero f xs h⟩

/-- Witness of C8: a non-empty evicting fifo of capacity 0 keeps its two values. -/
theorem zero_capacity_never_accepts_witness :
    (⟨[1, 2], false, 0, FifoReplaceStrategy.kRemoveOldest⟩ : FIFO Nat).Add 9
      = ⟨[1, 2], false, 0, FifoReplaceStrategy.kRemoveOldest⟩ ∧
    (⟨[1, 2], false, 0, FifoReplaceStrategy.kRemoveOldest⟩ : FIFO Nat).AddAll [7, 8]
      = ⟨[1, 2], false, 0, FifoReplaceStrategy.kRemoveOldest⟩ :=
  zero_capacity_never_accepts ⟨[1, 2], false, 0, FifoReplaceStrategy.kRemoveOldest⟩ 9 [7, 8] rfl

/-- C9, `GetNext`: on a fifo holding `h` followed by `t` it returns `true`, writes `h` to
`next` and leaves `t`; on an empty fifo it returns `false` and leaves the fifo and `next` as
they are; in both cases (for every state `f`) capacity, policy and lock are as before. -/
theorem GetNext_spec (f : FIFO T) (next h : T) (t : List T) (locked : Bool) (maxSize : Nat)
    (strategy : FifoReplaceStrategy) :
    (⟨h :: t, locked, maxSize, strategy⟩ : FIFO T).GetNext next
      = (true, h, ⟨t, locked, maxSize, strategy⟩) ∧
    (⟨[], locked, maxSize, strategy⟩ : FIFO T).GetNext next
      = (false, next, ⟨[], locked, maxSize, strategy⟩) ∧
    (f.GetNext next).2.2.MaxSize = f.MaxSize ∧
    (f.GetNext next).2.2.ReplaceStrategy = f.ReplaceStrategy ∧
    (f.GetNext next).2.2.IsLocked = f.IsLocked := by
  refine ⟨GetNext_cons _ next h t rfl, GetNext_nil _ next rfl, ?_⟩
  cases hq : f.mQ with
  | nil => rw [GetNext_nil f next hq]; simp
  | cons a q =>
    rw [GetNext_cons f next a q hq]
    simp [MaxSize, ReplaceStrategy, IsLocked, SemWait]

theorem PeekNext_cons (f : FIFO T) (next front : T) (rest : List T) (h : f.mQ = front :: rest) :
    f.PeekNext next = (true, front, f) := by
  simp [PeekNext, SemWait, SemRelease, h]

theorem PeekNext_nil (f : FIFO T) (next : T) (h : f.mQ = []) :
    f.PeekNext next = (false, next, f) := by
  simp [PeekNext, SemWait, SemRelease, h]

/-- C10, `PeekNext` is a pure observer of the head: for every state it leaves the fifo as it
is; on a fifo holding `h` followed by `t` it returns `true` and writes `h` to `next`, on an
empty fifo it returns `false` and leaves `next`; an immediately following `GetNext` returns
the same `bool`, and the same value: into the same variable always, and into any other
variable whenever `PeekNext` returned `true`. -/
theorem PeekNext_spec (f : FIFO T) (next other h : T) (t : List T) (locked : Bool)
    (maxSize : Nat) (strategy : FifoReplaceStrategy) :
    (f.PeekNext next).2.2 = f ∧
    (⟨h :: t, locked, maxSize, strategy⟩ : FIFO T).PeekNext next
      = (true, h, ⟨h :: t, locked, maxSize, strategy⟩) ∧
    (⟨[], locked, maxSize, strategy⟩ : FIFO T).PeekNext next
      = (false, next, ⟨[], locked, maxSize, strategy⟩) ∧
    ((f.PeekNext next).2.2.GetNext (f.PeekNext next).2.1).1 = (f.PeekNext next).1 ∧
    ((f.PeekNext next).2.2.GetNext (f.PeekNext next).2.1).2.1 = (f.PeekNext next).2.1 ∧
    ((f.PeekNext next).2.2.GetNext other).1 = (f.PeekNext next).1 ∧
    ((f.PeekNext next).1 = true →
      ((f.PeekNext next).2.2.GetNext other).2.1 = (f.PeekNext next).2.1) := by
  refine ⟨?_, PeekNext_cons _ next h t rfl, PeekNext_nil _ next rfl, ?_⟩
  · cases hq : f.mQ with
    | nil => rw [PeekNext_nil f next hq]
    | cons a q => rw [PeekNext_cons f next a q hq]
  · cases hq : f.mQ with
    | nil =>
      rw [PeekNext_nil f next hq]
      simp [GetNext_nil f _ hq]
    | cons a q =>
      rw [PeekNext_cons f next a q hq]
      simp [GetNext_cons f _ a q hq]

/-- Witness of C10: peeking at `[4,5]` reports `4`, which the following `GetNext` returns. -/
theorem PeekNext_spec_witness :
    ((⟨[4, 5], false, 3, FifoReplaceStrategy.kStopAdding⟩ : FIFO Nat).PeekNext 0).1 = true ∧
    ((⟨[4, 5], false, 3, FifoReplaceStrategy.kStopAdding⟩ : FIFO Nat).PeekNext 0).2.1 = 4 ∧
    (((⟨[4, 5], false, 3, FifoReplaceStrategy.kStopAdding⟩ : FIFO Nat).PeekNext 0).2.2.GetNext
      1).2.1 = ((⟨[4, 5], false, 3, FifoReplaceStrategy.kStopAdding⟩ : FIFO Nat).PeekNext 0).2.1 :=
  ⟨rfl, rfl, (PeekNext_spec ⟨[4, 5], false, 3, FifoReplaceStrategy.kStopAdding⟩ 0 1 0 [] false 0
    FifoReplaceStrategy.kStopAdding).2.2.2.2.2.2 rfl⟩

/-! ## `Clear`, `SetMaxSize` and sequences of calls -/

theorem Clear_eq (f : FIFO T) : f.Clear = { f with mQ := [] } := by
  simp [Clear, EmptyQ, SemWait, SemRelease, emptyLoop_eq_nil]

theorem SetMaxSize_eq (f : FIFO T) (n : Nat) : f.SetMaxSize n = { f with mMaxSize := n } := by
  simp [SetMaxSize, SemWait, SemRelease]

theorem SetLocked_eq (f : FIFO T) (b : Bool) : f.SetLocked b = { f with mLocked := b } := by
  simp [SetLocked, SemWait, SemRelease]

theorem SetReplaceStrategy_eq (f : FIFO T) (s : FifoReplaceStrategy) :
    f.SetReplaceStrategy s = { f with mReplaceStrategy := s } := by
  simp [SetReplaceStrategy, SemWait, SemRelease]

theorem AddAll_of_full_stopAdding (f : FIFO T) (xs : List T)
    (hfull : f.mMaxSize ≤ f.mQ.length)
    (hs : f.mReplaceStrategy = FifoReplaceStrategy.kStopAdding) : f.AddAll xs = f := by
  induction xs with
  | nil => rfl
  | cons x xs ih => rw [AddAll_cons, Add_of_full_stopAdding f x hfull hs, ih]

theorem GetNext_length_le (f : FIFO T) (next : T) :
    (f.GetNext next).2.2.mQ.length ≤ f.mQ.length ∧
    (f.GetNext next).2.2.mMaxSize = f.mMaxSize := by
  cases hq : f.mQ with
  | nil => rw [GetNext_nil f next hq]; simp [hq]
  | cons a q => rw [GetNext_cons f next a q hq]; simp

theorem PeekNext_state (f : FIFO T) (next : T) : (f.PeekNext next).2.2 = f := by
  cases hq : f.mQ with
  | nil => rw [PeekNext_nil f next hq]
  | cons a q => rw [PeekNext_cons f next a q hq]

theorem Op.apply_keeps_bound (f : FIFO T) (op : Op T) (hinv : f.mQ.length ≤ f.mMaxSize)
    (hop : Op.shrinksBelowSize f op = false) :
    (Op.apply f op).mQ.length ≤ (Op.apply f op).mMaxSize := by
  cases op with
  | add element =>
    simp only [Op.apply]
    rw [Add_mMaxSize]
    exact Add_length_le f element hinv
  | getNext next =>
    simp only [Op.apply]
    have h := GetNext_length_le f next
    omega
  | peekNext next =>
    simp only [Op.apply, PeekNext_state]
    exact hinv
  | clear => simp [Op.apply, Clear_eq]
  | setMaxSize maxSize =>
    simp only [Op.shrinksBelowSize, Size, SemWait, if_true, decide_eq_false_iff_not] at hop
    simp only [Op.apply, SetMaxSize_eq]
    omega
  | setReplaceStrategy s => simpa [Op.apply, SetReplaceStrategy_eq] using hinv
  | setLocked b => simpa [Op.apply, SetLocked_eq] using hinv

theorem run_nil (f : FIFO T) : run f [] = f := rfl

theorem run_cons (f : FIFO T) (op : Op T) (ops : List (Op T)) :
    run f (op :: ops) = run (Op.apply f op) ops := rfl

theorem run_keeps_bound (f : FIFO T) (ops : List (Op T)) (hinv : f.mQ.length ≤ f.mMaxSize)
    (hops : noShrinkBelowSize f ops = true) :
    (run f ops).mQ.length ≤ (run f ops).mMaxSize := by
  induction ops generalizing f with
  | nil => exact hinv
  | cons op ops ih =>
    simp only [noShrinkBelowSize, Bool.and_eq_true, Bool.not_eq_true'] at hops
    rw [run_cons]
    exact ih _ (Op.apply_keeps_bound f op hinv hops.1) hops.2

theorem noShrinkBelowSize_take (f : FIFO T) (ops : List (Op T)) (k : Nat)
    (hops : noShrinkBelowSize f ops = true) : noShrinkBelowSize f (ops.take k) = true := by
  induction ops generalizing f k with
  | nil => simpa using hops
  | cons op ops ih =>
    cases k with
    | zero => rfl
    | succ k =>
      simp only [noShrinkBelowSize, Bool.and_eq_true, Bool.not_eq_true'] at hops
      simp only [List.take_succ_cons, noShrinkBelowSize, Bool.and_eq_true, Bool.not_eq_true']
      exact ⟨hops.1, ih _ k hops.2⟩

/-- C11, `Clear` removes all values and nothing else: for every fifo state, after `Clear()`
the queue is empty, `Size() == 0` and `GetNext` returns `false` (leaving the caller's variable
and the fifo as they are), while `MaxSize()`, `ReplaceStrategy()` and `IsLocked()` are as
before. -/
theorem Clear_spec (f : FIFO T) (next : T) :
    f.Clear = { f with mQ := [] } ∧
    f.Clear.Size = 0 ∧
    f.Clear.GetNext next = (false, next, f.Clear) ∧
    f.Clear.MaxSize = f.MaxSize ∧
    f.Clear.ReplaceStrategy = f.ReplaceStrategy ∧
    f.Clear.IsLocked = f.IsLocked := by
  refine ⟨Clear_eq f, ?_, GetNext_nil _ next (by rw [Clear_eq]), ?_⟩
  · simp [Clear_eq, Size, SemWait]
  · simp [Clear_eq, MaxSize, ReplaceStrategy, IsLocked, SemWait]

/-- C12, `SetMaxSize` does not evict: for every fifo state and every `n`, `SetMaxSize(n)`
makes `MaxSize() == n` and leaves the contents (so `Size()`, also when `n < Size()`), the
policy and the lock flag as they are. -/
theorem SetMaxSize_spec (f : FIFO T) (n : Nat) :
    f.SetMaxSize n = { f with mMaxSize := n } ∧
    (f.SetMaxSize n).MaxSize = n ∧
    (f.SetMaxSize n).mQ = f.mQ ∧
    (f.SetMaxSize n).Size = f.Size ∧
    (f.SetMaxSize n).ReplaceStrategy = f.ReplaceStrategy ∧
    (f.SetMaxSize n).IsLocked = f.IsLocked := by
  refine ⟨SetMaxSize_eq f n, ?_⟩
  simp [SetMaxSize_eq, MaxSize, Size, ReplaceStrategy, IsLocked, SemWait]

/-- C13 as stated fails: an unlocked `kRemoveOldest` fifo holds `L = 3` items and gets
`SetMaxSize(1)`; the first following `Add` leaves `Size() == 1`, not `L - 1 == 2`, so the size
equals `n` after one `Add`, before `L - n == 2` of them. -/
theorem lazy_shrink_one_per_Add_counterexample :
    (⟨[1, 2, 3], false, 3, FifoReplaceStrategy.kRemoveOldest⟩ : FIFO Nat).IsLocked = false ∧
    1 ≤ 1 ∧ 1 < (⟨[1, 2, 3], false, 3, FifoReplaceStrategy.kRemoveOldest⟩ : FIFO Nat).Size ∧
    ((⟨[1, 2, 3], false, 3, FifoReplaceStrategy.kRemoveOldest⟩ : FIFO Nat).SetMaxSize 1).Add 9
      = ⟨[9], false, 1, FifoReplaceStrategy.kRemoveOldest⟩ ∧
    (((⟨[1, 2, 3], false, 3, FifoReplaceStrategy.kRemoveOldest⟩ : FIFO Nat).SetMaxSize 1).Add
      9).Size ≠ (⟨[1, 2, 3], false, 3, FifoReplaceStrategy.kRemoveOldest⟩ : FIFO Nat).Size - 1 := by
  decide

/-- C13 amended, lazy shrink under `kRemoveOldest`: after `SetMaxSize(n)` with `1 <= n < L`
on an unlocked `kRemoveOldest` fifo holding `L` items (which removes nothing), the first
following `Add(v)` removes the `L - n + 1` oldest items at once and appends `v`: the contents
are the last `n - 1` old items followed by `v`, and `Size()` is `n` after that `Add` and after
every later one. -/
theorem lazy_shrink_removeOldest (f : FIFO T) (n : Nat) (v : T) (xs : List T)
    (hl : f.IsLocked = false) (hs : f.ReplaceStrategy = FifoReplaceStrategy.kRemoveOldest)
    (hn : 1 ≤ n) (hL : n < f.Size) :
    (f.SetMaxSize n).Size = f.Size ∧
    (f.SetMaxSize n).Add v
      = { f with mQ := f.mQ.drop (f.mQ.length - (n - 1)) ++ [v], mMaxSize := n } ∧
    ((f.SetMaxSize n).Add v).Size = n ∧
    ((f.SetMaxSize n).AddAll (v :: xs)).Size = n := by
  simp only [IsLocked, ReplaceStrategy, Size, SemWait, if_true] at hl hs hL ⊢
  have hk : f.mQ.length + 1 - n = f.mQ.length - (n - 1) := by omega
  have hadd := Add_of_full_removeOldest (f.SetMaxSize n) v (by rw [SetMaxSize_eq]; exact hl)
    (by rw [SetMaxSize_eq]; exact hn) (by rw [SetMaxSize_eq]; exact Nat.le_of_lt hL)
    (by rw [SetMaxSize_eq]; exact hs)
  simp only [SetMaxSize_eq] at hadd ⊢
  rw [hk] at hadd
  have hlen : (f.mQ.drop (f.mQ.length - (n - 1)) ++ [v]).length = n := by
    simp only [List.length_append, List.length_drop, List.length_singleton]; omega
  refine ⟨trivial, hadd, ?_, ?_⟩
  · rw [hadd]; exact hlen
  · rw [AddAll_cons, hadd]
    have hall := AddAll_removeOldest
      ({ f with mQ := f.mQ.drop (f.mQ.length - (n - 1)) ++ [v], mMaxSize := n } : FIFO T) xs
      hl hs hn (le_of_eq hlen)
    rw [hall]
    simp only [List.length_drop, List.length_append, hlen]
    omega

/-- Witness of C13 amended: three items, `SetMaxSize(1)`, then `Add(9)` and two more. -/
theorem lazy_shrink_removeOldest_witness :
    ((⟨[1, 2, 3], false, 3, FifoReplaceStrategy.kRemoveOldest⟩ : FIFO Nat).SetMaxSize 1).Size
      = 3 ∧
    ((⟨[1, 2, 3], false, 3, FifoReplaceStrategy.kRemoveOldest⟩ : FIFO Nat).SetMaxSize 1).Add 9
      = ⟨[9], false, 1, FifoReplaceStrategy.kRemoveOldest⟩ ∧
    (((⟨[1, 2, 3], false, 3, FifoReplaceStrategy.kRemoveOldest⟩ : FIFO Nat).SetMaxSize 1).Add
      9).Size = 1 ∧
    (((⟨[1, 2, 3], false, 3, FifoReplaceStrategy.kRemoveOldest⟩ : FIFO Nat).SetMaxSize
      1).AddAll [9, 7, 8]).Size = 1 :=
  lazy_shrink_removeOldest ⟨[1, 2, 3], false, 3, FifoReplaceStrategy.kRemoveOldest⟩ 1 9 [7, 8]
    rfl rfl (by decide) (by decide)

/-- C14, silent rejection under `kStopAdding`, also over capacity: for every fifo (unlocked
in particular; the lock flag plays no part) with policy `kStopAdding` and
`Size() >= MaxSize()`, `Add(v)` leaves the whole state as it is, and so does any sequence of
`Add` calls: the size stays at or above the capacity. -/
theorem stopAdding_rejects_when_full (f : FIFO T) (v : T) (xs : List T)
    (hs : f.ReplaceStrategy = FifoReplaceStrategy.kStopAdding)
    (hfull : f.MaxSize ≤ f.Size) :
    f.Add v = f ∧ f.AddAll xs = f ∧ (f.AddAll xs).MaxSize ≤ (f.AddAll xs).Size := by
  simp only [ReplaceStrategy, MaxSize, Size, SemWait, if_true] at hs hfull ⊢
  have hall := AddAll_of_full_stopAdding f xs hfull hs
  exact ⟨Add_of_full_stopAdding f v hfull hs, hall, by rw [hall]; exact hfull⟩

/-- Witness of C14: an unlocked fifo with three items after `SetMaxSize(1)` under
`kStopAdding` keeps its three items. -/
theorem stopAdding_rejects_when_full_witness :
    ((⟨[1, 2, 3], false, 3, FifoReplaceStrategy.kStopAdding⟩ : FIFO Nat).SetMaxSize 1).Add 9
      = (⟨[1, 2, 3], false, 3, FifoReplaceStrategy.kStopAdding⟩ : FIFO Nat).SetMaxSize 1 ∧
    ((⟨[1, 2, 3], false, 3, FifoReplaceStrategy.kStopAdding⟩ : FIFO Nat).SetMaxSize 1).AddAll
      [7, 8] = (⟨[1, 2, 3], false, 3, FifoReplaceStrategy.kStopAdding⟩ : FIFO Nat).SetMaxSize 1 ∧
    (((⟨[1, 2, 3], false, 3, FifoReplaceStrategy.kStopAdding⟩ : FIFO Nat).SetMaxSize 1).AddAll
      [7, 8]).MaxSize
      ≤ (((⟨[1, 2, 3], false, 3, FifoReplaceStrategy.kStopAdding⟩ : FIFO Nat).SetMaxSize
        1).AddAll [7, 8]).Size :=
  stopAdding_rejects_when_full
    ((⟨[1, 2, 3], false, 3, FifoReplaceStrategy.kStopAdding⟩ : FIFO Nat).SetMaxSize 1) 9 [7, 8]
    rfl (by decide)

/-- C15 as stated fails: from the constructed fifo of capacity 1, `Add(5)` then
`SetMaxSize(0)` reaches a state with `Size() == 1` and `MaxSize() == 0`. -/
theorem invariant_all_operations_counterexample :
    (run (ctor 1 FifoReplaceStrategy.kStopAdding : FIFO Nat)
      [Op.add 5, Op.setMaxSize 0]).Size = 1 ∧
    (run (ctor 1 FifoReplaceStrategy.kStopAdding : FIFO Nat)
      [Op.add 5, Op.setMaxSize 0]).MaxSize = 0 ∧
    ¬ ((run (ctor 1 FifoReplaceStrategy.kStopAdding : FIFO Nat)
        [Op.add 5, Op.setMaxSize 0]).Size
      ≤ (run (ctor 1 FifoReplaceStrategy.kStopAdding : FIFO Nat)
        [Op.add 5, Op.setMaxSize 0]).MaxSize) := by
  decide

/-- C15 amended, the invariant over all operations but a shrink below the size: in every
state reached from construction by a sequence of `Add`, `GetNext`, `PeekNext`, `Clear`,
`SetMaxSize`, `SetReplaceStrategy` and `SetLocked` calls in which no `SetMaxSize(n)` is made
with `n` below the `Size()` at the time of the call, `Size() <= MaxSize()` holds after every
call (after the first `k` calls, for every `k`). -/
theorem invariant_without_shrink_below_size (maxSize : Nat)
    (replaceStrategy : FifoReplaceStrategy) (ops : List (Op T)) (k : Nat)
    (hops : noShrinkBelowSize (ctor maxSize replaceStrategy : FIFO T) ops = true) :
    (run (ctor maxSize replaceStrategy : FIFO T) (ops.take k)).Size
      ≤ (run (ctor maxSize replaceStrategy : FIFO T) (ops.take k)).MaxSize := by
  simp only [Size, MaxSize, SemWait, if_true]
  exact run_keeps_bound _ _ (by simp [ctor]) (noShrinkBelowSize_take _ ops k hops)

/-- Witness of C15 amended: a run with every kind of call, `SetMaxSize` never below the
size. -/
theorem invariant_without_shrink_below_size_witness :
    (run (ctor 2 FifoReplaceStrategy.kRemoveOldest : FIFO Nat)
      ([Op.add 1, Op.add 2, Op.add 3, Op.peekNext 0, Op.getNext 0, Op.setMaxSize 1,
        Op.setReplaceStrategy FifoReplaceStrategy.kStopAdding, Op.add 4, Op.setLocked true,
        Op.clear].take 8)).Size
      ≤ (run (ctor 2 FifoReplaceStrategy.kRemoveOldest : FIFO Nat)
      ([Op.add 1, Op.add 2, Op.add 3, Op.peekNext 0, Op.getNext 0, Op.setMaxSize 1,
        Op.setReplaceStrategy FifoReplaceStrategy.kStopAdding, Op.add 4, Op.setLocked true,
        Op.clear].take 8)).MaxSize :=
  invariant_without_shrink_below_size 2 FifoReplaceStrategy.kRemoveOldest _ 8 (by decide)

end FIFO

namespace RecorderBase

variable {F : Type}

/-! ## The recorder: `Enable`, `Start`, `Stop`, `Add` -/

theorem Start_of_enabled (r : RecorderBase F) (h : r.mEnabled = true) :
    r.Start = { r with mFifo := { r.mFifo with mQ := [], mLocked := false },
                       mRecording := true } := by
  simp [Start, h, FIFO.Clear_eq, FIFO.SetLocked_eq]

theorem Stop_of_enabled (r : RecorderBase F) (h : r.mEnabled = true) :
    r.Stop = { r with mFifo := { r.mFifo with mLocked := true }, mRecording := false } := by
  simp [Stop, h, FIFO.SetLocked_eq]

theorem Start_of_disabled (r : RecorderBase F) (h : r.mEnabled = false) : r.Start = r := by
  simp [Start, h]

theorem Stop_of_disabled (r : RecorderBase F) (h : r.mEnabled = false) : r.Stop = r := by
  simp [Stop, h]

theorem Add_of_disabled (r : RecorderBase F) (x : F) (h : r.mEnabled = false) :
    r.Add x = r := by
  simp [Add, h]

theorem Add_of_not_recording (r : RecorderBase F) (x : F) (h : r.mRecording = false) :
    r.Add x = r := by
  simp [Add, h]

theorem Add_of_recording (r : RecorderBase F) (x : F) (he : r.mEnabled = true)
    (hr : r.mRecording = true) : r.Add x = { r with mFifo := r.mFifo.Add x } := by
  simp [Add, he, hr]

theorem recorder_AddAll_nil (r : RecorderBase F) : r.AddAll [] = r := rfl

theorem recorder_AddAll_cons (r : RecorderBase F) (x : F) (xs : List F) :
    r.AddAll (x :: xs) = (r.Add x).AddAll xs := rfl

theorem AddAll_of_not_recording (r : RecorderBase F) (xs : List F)
    (h : r.mRecording = false) : r.AddAll xs = r := by
  induction xs with
  | nil => rfl
  | cons x xs ih => rw [recorder_AddAll_cons, Add_of_not_recording r x h, ih]

theorem AddAll_of_recording (r : RecorderBase F) (xs : List F) (he : r.mEnabled = true)
    (hr : r.mRecording = true) : r.AddAll xs = { r with mFifo := r.mFifo.AddAll xs } := by
  induction xs generalizing r with
  | nil => rfl
  | cons x xs ih =>
    rw [recorder_AddAll_cons, Add_of_recording r x he hr]
    exact ih _ he hr

theorem recorder_run_nil (r : RecorderBase F) : run r [] = r := rfl

theorem recorder_run_cons (r : RecorderBase F) (op : Op F) (ops : List (Op F)) :
    run r (op :: ops) = run (Op.apply r op) ops := rfl

theorem Op.apply_of_disabled (r : RecorderBase F) (op : Op F) (h : r.mEnabled = false)
    (hop : Op.isStartAddStop op = true) : Op.apply r op = r := by
  cases op with
  | enable b => simp [Op.isStartAddStop] at hop
  | start => exact Start_of_disabled r h
  | stop => exact Stop_of_disabled r h
  | add x => exact Add_of_disabled r x h
  | setMaxSize n => simp [Op.isStartAddStop] at hop

/-- C16, the recorder's admission gate: on an enabled recorder `Add(v)` is `FIFO::Add(v)` on
the owned buffer when `recording` is set, and changes nothing when it is not; and on every
recorder state `Add` leaves the `enabled` and `recording` flags as they are. -/
theorem Add_admission_gate (r : RecorderBase F) (fifo : FIFO F) (v : F) :
    (⟨fifo, true, true⟩ : RecorderBase F).Add v = ⟨fifo.Add v, true, true⟩ ∧
    (⟨fifo, true, false⟩ : RecorderBase F).Add v = ⟨fifo, true, false⟩ ∧
    (r.Add v).mEnabled = r.mEnabled ∧
    (r.Add v).mRecording = r.mRecording := by
  refine ⟨Add_of_recording _ v rfl rfl, Add_of_not_recording _ v rfl, ?_⟩
  by_cases h : (r.mEnabled && r.mRecording) = true
  · simp [Add, h]
  · simp [Add, h]

/-- C17, `Start` on an enabled recorder: whatever the buffer held and whatever the lock and
the `recording` flag were, `Start()` leaves the buffer empty and unlocked and `recording` set;
`enabled`, the capacity and the policy are as before. -/
theorem Start_enabled_spec (fifo : FIFO F) (recording : Bool) :
    (⟨fifo, true, recording⟩ : RecorderBase F).Start
      = ⟨⟨[], false, fifo.mMaxSize, fifo.mReplaceStrategy⟩, true, true⟩ ∧
    (⟨fifo, true, recording⟩ : RecorderBase F).Start.Size = 0 ∧
    (⟨fifo, true, recording⟩ : RecorderBase F).Start.mFifo.IsLocked = false ∧
    (⟨fifo, true, recording⟩ : RecorderBase F).Start.mRecording = true ∧
    (⟨fifo, true, recording⟩ : RecorderBase F).Start.mEnabled = true ∧
    (⟨fifo, true, recording⟩ : RecorderBase F).Start.mFifo.MaxSize = fifo.MaxSize ∧
    (⟨fifo, true, recording⟩ : RecorderBase F).Start.mFifo.ReplaceStrategy
      = fifo.ReplaceStrategy := by
  have h := Start_of_enabled (⟨fifo, true, recording⟩ : RecorderBase F) rfl
  rw [h]
  simp [Size, FIFO.Size, FIFO.IsLocked, FIFO.MaxSize, FIFO.ReplaceStrategy, FIFO.SemWait]

/-- C18, the Start/Stop lifecycle: for an enabled recorder whose buffer has capacity `c` and
the default policy `kStopAdding`, `Start()`, `Add` of the frames `xs`, `Stop()`, `Add` of the
frames `ys` leaves exactly the first `min |xs| c` frames of `xs`, in order, with the buffer
locked and `recording` clear; `Stop()` itself removes nothing and leaves `IsLocked()` true. -/
theorem start_stop_lifecycle (r : RecorderBase F) (xs ys : List F) (he : r.mEnabled = true)
    (hs : r.mFifo.ReplaceStrategy = FifoReplaceStrategy.kStopAdding) :
    ((r.Start.AddAll xs).Stop).AddAll ys
      = ⟨⟨xs.take (min xs.length r.mFifo.mMaxSize), true, r.mFifo.mMaxSize,
          FifoReplaceStrategy.kStopAdding⟩, true, false⟩ ∧
    (((r.Start.AddAll xs).Stop).AddAll ys).Size = min xs.length r.mFifo.mMaxSize ∧
    (r.Start.AddAll xs).Stop.mFifo.mQ = (r.Start.AddAll xs).mFifo.mQ ∧
    (r.Start.AddAll xs).Stop.mFifo.IsLocked = true ∧
    (r.Start.AddAll xs).Stop.mRecording = false := by
  simp only [FIFO.ReplaceStrategy, FIFO.SemWait, if_true] at hs
  have hstart := Start_of_enabled r he
  have hadds := AddAll_of_recording r.Start xs (by rw [hstart]; exact he) (by rw [hstart])
  have hfifo := FIFO.AddAll_stopAdding r.Start.mFifo xs (by rw [hstart]) (by rw [hstart]; exact hs)
    (by rw [hstart]; exact Nat.zero_le _)
  have hstop := Stop_of_enabled (r.Start.AddAll xs) (by rw [hadds, hstart]; exact he)
  have hafter := AddAll_of_not_recording ((r.Start.AddAll xs).Stop) ys (by rw [hstop])
  have hk : xs.take (min xs.length r.mFifo.mMaxSize) = xs.take r.mFifo.mMaxSize := by
    rcases Nat.le_total xs.length r.mFifo.mMaxSize with hle | hle
    · rw [Nat.min_eq_left hle, List.take_of_length_le (le_refl _), List.take_of_length_le hle]
    · rw [Nat.min_eq_right hle]
  rw [hafter, hstop, hadds, hfifo, hstart, hk]
  simp only [Size, FIFO.Size, FIFO.IsLocked, FIFO.SemWait, if_true, he, hs, List.nil_append,
    List.length_nil, Nat.sub_zero, List.length_take, and_self, and_true, true_and]
  exact Nat.min_comm _ _

/-- Witness of C18, the example of the specification: `Start()`, three `Add` calls, `Stop()`,
one more `Add` on a recorder of capacity 3 that held an old frame leaves exactly the three
frames, locked. -/
theorem start_stop_lifecycle_witness :
    (((⟨⟨[9], true, 3, FifoReplaceStrategy.kStopAdding⟩, true, false⟩ :
        RecorderBase Nat).Start.AddAll [1, 2, 3]).Stop).AddAll [4]
      = ⟨⟨[1, 2, 3], true, 3, FifoReplaceStrategy.kStopAdding⟩, true, false⟩ ∧
    ((((⟨⟨[9], true, 3, FifoReplaceStrategy.kStopAdding⟩, true, false⟩ :
        RecorderBase Nat).Start.AddAll [1, 2, 3]).Stop).AddAll [4]).Size = 3 ∧
    ((⟨⟨[9], true, 3, FifoReplaceStrategy.kStopAdding⟩, true, false⟩ :
        RecorderBase Nat).Start.AddAll [1, 2, 3]).Stop.mFifo.mQ
      = ((⟨⟨[9], true, 3, FifoReplaceStrategy.kStopAdding⟩, true, false⟩ :
        RecorderBase Nat).Start.AddAll [1, 2, 3]).mFifo.mQ ∧
    ((⟨⟨[9], true, 3, FifoReplaceStrategy.kStopAdding⟩, true, false⟩ :
        RecorderBase Nat).Start.AddAll [1, 2, 3]).Stop.mFifo.IsLocked = true ∧
    ((⟨⟨[9], true, 3, FifoReplaceStrategy.kStopAdding⟩, true, false⟩ :
        RecorderBase Nat).Start.AddAll [1, 2, 3]).Stop.mRecording = false :=
  start_stop_lifecycle ⟨⟨[9], true, 3, FifoReplaceStrategy.kStopAdding⟩, true, false⟩
    [1, 2, 3] [4] rfl rfl

/-- C19, a disabled recorder ignores state transitions: for every recorder state with
`enabled` clear, each of `Start()`, `Add(x)` and `Stop()`, and every sequence of such calls,
leaves the entire recorder state (flags, buffer contents, lock, capacity, policy) as it
is. -/
theorem disabled_ignores_transitions (r : RecorderBase F) (x : F) (ops : List (Op F))
    (hd : r.mEnabled = false) (hops : ops.all Op.isStartAddStop = true) :
    r.Start = r ∧ r.Add x = r ∧ r.Stop = r ∧ run r ops = r := by
  refine ⟨Start_of_disabled r hd, Add_of_disabled r x hd, Stop_of_disabled r hd, ?_⟩
  induction ops with
  | nil => rfl
  | cons op ops ih =>
    simp only [List.all_cons, Bool.and_eq_true] at hops
    rw [recorder_run_cons, Op.apply_of_disabled r op hd hops.1]
    exact ih hops.2

/-- Witness of C19: a disabled recorder that is recording and holds two frames. -/
theorem disabled_ignores_transitions_witness :
    (⟨⟨[1, 2], false, 3, FifoReplaceStrategy.kStopAdding⟩, false, true⟩ :
        RecorderBase Nat).Start
      = ⟨⟨[1, 2], false, 3, FifoReplaceStrategy.kStopAdding⟩, false, true⟩ ∧
    (⟨⟨[1, 2], false, 3, FifoReplaceStrategy.kStopAdding⟩, false, true⟩ :
        RecorderBase Nat).Add 5
      = ⟨⟨[1, 2], false, 3, FifoReplaceStrategy.kStopAdding⟩, false, true⟩ ∧
    (⟨⟨[1, 2], false, 3, FifoReplaceStrategy.kStopAdding⟩, false, true⟩ :
        RecorderBase Nat).Stop
      = ⟨⟨[1, 2], false, 3, FifoReplaceStrategy.kStopAdding⟩, false, true⟩ ∧
    run (⟨⟨[1, 2], false, 3, FifoReplaceStrategy.kStopAdding⟩, false, true⟩ :
        RecorderBase Nat) [Op.start, Op.add 5, Op.stop, Op.add 6, Op.start]
      = ⟨⟨[1, 2], false, 3, FifoReplaceStrategy.kStopAdding⟩, false, true⟩ :=
  disabled_ignores_transitions ⟨⟨[1, 2], false, 3, FifoReplaceStrategy.kStopAdding⟩, false, true⟩
    5 [Op.start, Op.add 5, Op.stop, Op.add 6, Op.start] rfl rfl

/-- C20, `Enable` is always effective and touches only the `enabled` flag: for every
recorder state and every `b`, `Enable(b)` gives `enabled = b` and leaves `recording` and the
buffer (contents, lock, capacity, policy) as they are; and from the constructed recorder
(`enabled` set, `recording` clear) the other three combinations of the two flags are reached
by `Start()`, by `Enable(false)`, and by `Start()` then `Enable(false)`. -/
theorem Enable_spec (r : RecorderBase F) (b : Bool) (maxSize : Nat) :
    r.Enable b = ⟨r.mFifo, b, r.mRecording⟩ ∧
    (r.Enable b).mEnabled = b ∧
    (r.Enable b).mRecording = r.mRecording ∧
    (r.Enable b).mFifo = r.mFifo ∧
    ((ctor maxSize : RecorderBase F).mEnabled = true ∧
      (ctor maxSize : RecorderBase F).mRecording = false) ∧
    ((run (ctor maxSize : RecorderBase F) [Op.start]).mEnabled = true ∧
      (run (ctor maxSize : RecorderBase F) [Op.start]).mRecording = true) ∧
    ((run (ctor maxSize : RecorderBase F) [Op.enable false]).mEnabled = false ∧
      (run (ctor maxSize : RecorderBase F) [Op.enable false]).mRecording = false) ∧
    ((run (ctor maxSize : RecorderBase F) [Op.start, Op.enable false]).mEnabled = false ∧
      (run (ctor maxSize : RecorderBase F) [Op.start, Op.enable false]).mRecording = true) := by
  refine ⟨rfl, rfl, rfl, rfl, ⟨rfl, rfl⟩, ?_, ⟨rfl, rfl⟩, ?_⟩
  · simp [run, Op.apply, Start, ctor]
  · simp [run, Op.apply, Start, Enable, ctor]

end RecorderBase

/-! ## Text written to a stream -/

theorem writeAll_append (a b : List String) : writeAll (a ++ b) = writeAll a ++ writeAll b := by
  induction a with
  | nil => simp [writeAll]
  | cons s rest ih => simp [writeAll, ih, String.append_assoc]

theorem writeLines_nil : writeLines [] = "" := rfl

theorem writeLines_cons (line : String) (lines : List String) :
    writeLines (line :: lines) = line ++ "\n" ++ writeLines lines := rfl

theorem writeLines_append (a b : List String) :
    writeLines (a ++ b) = writeLines a ++ writeLines b := by
  simp [writeLines, writeAll_append]

theorem foldl_write {α : Type} (l : List α) (step : String → α → String) (g : α → String)
    (h : ∀ os a, step os a = os ++ g a) (os : String) :
    l.foldl step os = os ++ writeAll (l.map g) := by
  induction l generalizing os with
  | nil => simp [writeAll]
  | cons a rest ih => simp [ih, h, writeAll, String.append_assoc]

theorem foldl_write_lines {α : Type} (l : List α) (step : String → α → String)
    (g : α → String) (h : ∀ os a, step os a = os ++ (g a ++ "\n")) (os : String) :
    l.foldl step os = os ++ writeLines (l.map g) := by
  rw [foldl_write l step (fun a => g a ++ "\n") h os, writeLines, List.map_map]
  rfl

theorem outputLoop_eq {F : Type} (write : String → F → String) (q : List F) (fifo : FIFO F)
    (f : F) (os : String) (hq : fifo.mQ = q) :
    outputLoop write fifo f os
      = ({ fifo with mQ := [] }, q.getLast?.getD f, q.foldl write os) := by
  induction q generalizing fifo f os with
  | nil =>
    have hf : ({ fifo with mQ := [] } : FIFO F) = fifo := by cases fifo; simp_all
    rw [outputLoop]
    simp [FIFO.Size, FIFO.SemWait, hq, hf]
  | cons front rest ih =>
    have hlast : (front :: rest).getLast?.getD f = rest.getLast?.getD front := by
      cases rest with
      | nil => rfl
      | cons a r =>
        simp [List.getLast?_cons_cons, List.getLast?_eq_getLast _ (List.cons_ne_nil a r)]
    rw [outputLoop, hlast]
    simp [FIFO.Size, FIFO.SemWait, hq, FIFO.GetNext_cons fifo f front rest hq,
      ih { fifo with mQ := rest } front (write os front) rfl]

theorem names_by_index (names : List String) :
    (List.range names.length).map (fun i => names.getD i "") = names := by
  apply List.ext_getElem
  · simp
  · intro n h₁ h₂
    simp [List.getElem?_eq_getElem h₂]

theorem foldl_push {α β : Type} (l : List α) (g : α → β) (acc : List β) :
    l.foldl (fun acc a => acc ++ [g a]) acc = acc ++ l.map g := by
  induction l generalizing acc with
  | nil => simp
  | cons a rest ih => simp [ih]

theorem getD_of_index (names : List String) (i : Nat) :
    (if (i : Int) ≥ 0 ∧ (i : Int) < (names.length : Int) then names.getD (i : Int).toNat ""
      else "") = names.getD i "" := by
  by_cases h : i < names.length
  · simp [h]
  · have h2 : names.length ≤ i := by omega
    simp [h, List.getElem?_eq_none h2]

namespace MarkerListWrapper

theorem marker_Name_natCast (m : MarkerListWrapper) (i : Nat) :
    m.Name (i : Int) = m.mMarkerNames.getD i "" :=
  getD_of_index m.mMarkerNames i

theorem marker_names_of_range (m : MarkerListWrapper) :
    (List.range m.Size.toNat).map (fun (i : Nat) => m.Name (i : Int)) = m.mMarkerNames := by
  simp only [Size, Int.toNat_ofNat, marker_Name_natCast]
  exact names_by_index m.mMarkerNames

theorem marker_Copy_eq (m : MarkerListWrapper) : MarkerListWrapper.Copy m = m := by
  cases m with
  | mk names =>
    simp only [Copy, foldl_push, List.nil_append]
    rw [marker_names_of_range]

end MarkerListWrapper

namespace DofNamesWrapper

theorem dofNames_Name_natCast (m : DofNamesWrapper) (i : Nat) :
    m.Name (i : Int) = m.mDofNames.getD i "" :=
  getD_of_index m.mDofNames i

theorem dofNames_names_of_range (m : DofNamesWrapper) :
    (List.range m.Size.toNat).map (fun (i : Nat) => m.Name (i : Int)) = m.mDofNames := by
  simp only [Size, Int.toNat_ofNat, dofNames_Name_natCast]
  exact names_by_index m.mDofNames

theorem dofNames_Copy_eq (m : DofNamesWrapper) : DofNamesWrapper.Copy m = m := by
  cases m with
  | mk names =>
    simp only [Copy, foldl_push, List.nil_append]
    rw [dofNames_names_of_range]

end DofNamesWrapper

namespace TrcRecorder

variable {V : Type}

theorem trc_writeHeader_eq (list : MarkerListWrapper) (os : String) :
    writeHeader list os
      = os ++ writeLines ("Marker Names" :: (list.mMarkerNames ++ ["", ""])) := by
  unfold writeHeader
  simp only []
  rw [foldl_write_lines (List.range list.Size.toNat) _ (fun (i : Nat) => list.Name (i : Int))
    (fun os a => by simp [String.append_assoc]), MarkerListWrapper.marker_names_of_range]
  simp [writeLines_cons, writeLines_append, writeLines_nil, String.append_assoc]

theorem trc_writeFrame_eq (put : V → String) (XEMPTY : V) (list : MarkerListWrapper) (os : String)
    (f : TrcFrameWrapper V) :
    writeFrame put XEMPTY list os f = os ++ writeLines (Stated.trcBlock put XEMPTY list f) := by
  unfold writeFrame
  simp only []
  rw [foldl_write_lines (List.range f.Size.toNat) _
    (fun (i : Nat) => list.Name (i : Int) ++ "," ++ put (f.GetMarkerLocation XEMPTY (i : Int)).1 ++ ","
      ++ put (f.GetMarkerLocation XEMPTY (i : Int)).2.1 ++ "," ++
      put (f.GetMarkerLocation XEMPTY (i : Int)).2.2)
    (fun os a => by simp [String.append_assoc])]
  simp [Stated.trcBlock, Stated.trcItemRows, Stated.trcFrameLine, writeLines_cons,
    String.append_assoc]

theorem trc_writeFrames_eq (put : V → String) (XEMPTY : V) (list : MarkerListWrapper)
    (frames : List (TrcFrameWrapper V)) (os : String) :
    frames.foldl (writeFrame put XEMPTY list) os
      = os ++ writeAll (frames.map (fun f => writeLines (Stated.trcBlock put XEMPTY list f))) :=
  foldl_write frames _ _ (trc_writeFrame_eq put XEMPTY list) os

theorem trc_Output_eq (put : V → String) (XEMPTY : V) (r : TrcRecorder V) (os : String)
    (header : Bool) :
    r.Output put XEMPTY os header
      = ({ r with mFifo := { r.mFifo with mQ := [] } },
         (if header then writeHeader r.mMarkerList os else os) ++
           writeAll (r.mFifo.mQ.map
             (fun f => writeLines (Stated.trcBlock put XEMPTY r.mMarkerList f)))) := by
  unfold Output
  simp only []
  rw [outputLoop_eq _ r.mFifo.mQ r.mFifo _ _ rfl, trc_writeFrames_eq]

end TrcRecorder

theorem writeBlocks_eq {F : Type} (frames : List F) (block : F → List String) :
    writeAll (frames.map (fun f => writeLines (block f)))
      = writeLines (frames.flatMap block) := by
  induction frames with
  | nil => rfl
  | cons f rest ih => simp [writeAll, ih, writeLines_append]

theorem length_flatMap_rows {F : Type} (frames : List F) (rows : F → List String)
    (size : F → Int) (h : ∀ f, ((rows f).length : Int) = size f) :
    ((frames.flatMap rows).length : Int) = (frames.map size).sum := by
  induction frames with
  | nil => rfl
  | cons f rest ih =>
    simp only [List.flatMap_cons, List.length_append, Nat.cast_add, List.map_cons,
      List.sum_cons, ih, h]

theorem flatMap_single {α β : Type} (l : List α) (g : α → β) :
    l.flatMap (fun a => [g a]) = l.map g := by
  induction l with
  | nil => rfl
  | cons a rest ih => simp only [List.flatMap_cons, List.map_cons, ih, List.singleton_append]

namespace HierarchyWrapper

theorem hierarchy_Name_natCast (h : HierarchyWrapper) (i : Nat) :
    h.Name (i : Int) = h.mSegmentNames.getD i "" :=
  getD_of_index h.mSegmentNames i

theorem hierarchy_names_of_range (h : HierarchyWrapper) :
    (List.range h.Size.toNat).map (fun (i : Nat) => h.Name (i : Int)) = h.mSegmentNames := by
  simp only [Size, Int.toNat_ofNat, hierarchy_Name_natCast]
  exact names_by_index h.mSegmentNames

theorem hierarchy_Parent_natCast (h : HierarchyWrapper) (i : Nat) :
    h.Parent (i : Int) = h.mParents.getD i (-2) := by
  unfold Parent
  by_cases hi : i < h.mParents.length
  · simp [hi]
  · have h2 : h.mParents.length ≤ i := by omega
    simp [hi, List.getElem?_eq_none h2]

theorem hierarchy_parents_of_range (h : HierarchyWrapper)
    (hlen : h.mSegmentNames.length = h.mParents.length) :
    (List.range h.Size.toNat).map (fun (i : Nat) => h.Parent (i : Int)) = h.mParents := by
  simp only [Size, Int.toNat_ofNat, hierarchy_Parent_natCast, hlen]
  apply List.ext_getElem
  · simp
  · intro n h₁ h₂
    simp [List.getElem?_eq_getElem h₂]

theorem hierarchy_Copy_fold (src : HierarchyWrapper) (l : List Nat) (acc : HierarchyWrapper) :
    l.foldl (fun h (i : Nat) =>
        ({ mSegmentNames := h.mSegmentNames ++ [src.Name (i : Int)],
           mParents := h.mParents ++ [src.Parent (i : Int)] } : HierarchyWrapper)) acc
      = { mSegmentNames := acc.mSegmentNames ++ l.map (fun (i : Nat) => src.Name (i : Int)),
          mParents := acc.mParents ++ l.map (fun (i : Nat) => src.Parent (i : Int)) } := by
  induction l generalizing acc with
  | nil => simp
  | cons a rest ih => simp [ih]

theorem hierarchy_Copy_eq (h : HierarchyWrapper) (hlen : h.mSegmentNames.length = h.mParents.length) :
    HierarchyWrapper.Copy h = h := by
  unfold Copy
  rw [hierarchy_Copy_fold, hierarchy_names_of_range, hierarchy_parents_of_range h hlen]
  cases h
  simp

end HierarchyWrapper

namespace SegmentRecorder

variable {V : Type}

theorem seg_writeHeader_eq (hierarchy : HierarchyWrapper) (os : String) :
    writeHeader hierarchy os
      = os ++ writeLines (Stated.segHeaderLines hierarchy ++ ["", ""]) := by
  unfold writeHeader
  simp only []
  rw [foldl_write_lines (List.range hierarchy.Size.toNat) _
    (fun (i : Nat) => hierarchy.Name (i : Int) ++ "," ++
      (if hierarchy.Parent (i : Int) = -1 then "GLOBAL"
       else hierarchy.Name (hierarchy.Parent (i : Int))))
    (fun os a => by simp [HierarchyWrapper.NameOfParent, String.append_assoc])]
  simp [Stated.segHeaderLines, writeLines_cons, writeLines_append, writeLines_nil,
    String.append_assoc]

theorem seg_writeFrame_eq (put : V → String) (XEMPTY : V) (hierarchy : HierarchyWrapper)
    (os : String) (f : SegmentFrameWrapper V) :
    writeFrame put XEMPTY hierarchy os f
      = os ++ writeLines (Stated.segBlock put XEMPTY hierarchy f) := by
  unfold writeFrame
  simp only []
  rw [foldl_write_lines (List.range f.Size.toNat) _
    (fun (i : Nat) => hierarchy.Name (i : Int) ++ "," ++
      put (f.GetSegmentInfo XEMPTY (i : Int)).v0 ++ "," ++
      put (f.GetSegmentInfo XEMPTY (i : Int)).v1 ++ "," ++
      put (f.GetSegmentInfo XEMPTY (i : Int)).v2 ++ "," ++
      put (f.GetSegmentInfo XEMPTY (i : Int)).v3 ++ "," ++
      put (f.GetSegmentInfo XEMPTY (i : Int)).v4 ++ "," ++
      put (f.GetSegmentInfo XEMPTY (i : Int)).v5 ++ "," ++
      put (f.GetSegmentInfo XEMPTY (i : Int)).v6)
    (fun os a => by simp [String.append_assoc])]
  simp [Stated.segBlock, Stated.segItemRows, Stated.segFrameLine, writeLines_cons,
    String.append_assoc]

theorem seg_Output_eq (put : V → String) (XEMPTY : V) (r : SegmentRecorder V) (os : String)
    (header : Bool) :
    r.Output put XEMPTY os header
      = ({ r with mFifo := { r.mFifo with mQ := [] } },
         (if header then writeHeader r.mHierarchy os else os) ++
           writeLines (r.mFifo.mQ.flatMap (Stated.segBlock put XEMPTY r.mHierarchy))) := by
  unfold Output
  simp only []
  rw [outputLoop_eq _ r.mFifo.mQ r.mFifo _ _ rfl,
    foldl_write r.mFifo.mQ _ _ (seg_writeFrame_eq put XEMPTY r.mHierarchy), writeBlocks_eq]

end SegmentRecorder

namespace DofRecorder

variable {V : Type}

theorem dof_writeHeader_eq (names : DofNamesWrapper) (os : String) :
    writeHeader names os
      = os ++ ("Frame #," ++ writeAll (names.mDofNames.map (fun name => name ++ ","))
          ++ "\n") := by
  unfold writeHeader
  simp only []
  rw [foldl_write (List.range names.Size.toNat) _
    (fun (i : Nat) => names.Name (i : Int) ++ ",")
    (fun os a => by simp [String.append_assoc])]
  have h := congrArg (List.map (fun name => name ++ ",")) (DofNamesWrapper.dofNames_names_of_range names)
  rw [List.map_map] at h
  rw [← h]
  simp [String.append_assoc, Function.comp_def]

theorem dof_writeFrame_eq (put : V → String) (XEMPTY : V) (os : String) (f : DofFrameWrapper V) :
    writeFrame put XEMPTY os f
      = os ++ writeLines [toString (int32 (f.Frame + 1)) ++ "," ++
          writeAll ((Stated.dofValues XEMPTY f).map (fun v => put v ++ ","))] := by
  unfold writeFrame
  simp only []
  rw [foldl_write (List.range f.Size.toNat) _
    (fun (i : Nat) => put (f.GetDofValue XEMPTY (i : Int)) ++ ",")
    (fun os a => by simp [String.append_assoc])]
  simp [Stated.dofValues, writeLines_cons, writeLines_nil, String.append_assoc,
    Function.comp_def]

theorem dof_Output_eq (put : V → String) (XEMPTY : V) (r : DofRecorder V) (os : String)
    (header : Bool) :
    r.Output put XEMPTY os header
      = ({ r with mFifo := { r.mFifo with mQ := [] } },
         (if header then writeHeader r.mDofNames os else os) ++
           writeLines (r.mFifo.mQ.map (fun f => toString (int32 (f.Frame + 1)) ++ "," ++
             writeAll ((Stated.dofValues XEMPTY f).map (fun v => put v ++ ","))))) := by
  unfold Output
  simp only []
  rw [outputLoop_eq _ r.mFifo.mQ r.mFifo _ _ rfl,
    foldl_write r.mFifo.mQ _ _ (dof_writeFrame_eq put XEMPTY), writeBlocks_eq, flatMap_single]

end DofRecorder

namespace TrcRecorder

variable {V : Type}

theorem trc_AddAll_eq (r : TrcRecorder V) (frames : List (TrcFrameWrapper V)) :
    r.AddAll frames = { r with toRecorderBase := r.toRecorderBase.AddAll frames } := by
  induction frames generalizing r with
  | nil => rfl
  | cons f rest ih =>
    have h : r.AddAll (f :: rest) = (r.Add f).AddAll rest := rfl
    rw [h, ih]
    rfl

theorem trc_Output_eq_lines (put : V → String) (XEMPTY : V) (r : TrcRecorder V) (os : String)
    (header : Bool) :
    r.Output put XEMPTY os header
      = ({ r with mFifo := { r.mFifo with mQ := [] } },
         (if header then writeHeader r.mMarkerList os else os) ++
           writeLines (r.mFifo.mQ.flatMap (Stated.trcBlock put XEMPTY r.mMarkerList))) := by
  rw [trc_Output_eq, writeBlocks_eq]

/-! ## The claims about `Output` and the metadata -/

/-- C21, `Output` ignores the flags: two position recorders with the same buffer and marker
list, whatever their `enabled` and `recording` flags, get the same text written and are left
with the same buffer by `Output(os, header)`; `Output` changes neither flag; in particular
after `Enable(false)` the call writes what it would have written before, the blocks of all
buffered frames, and leaves `Size() == 0`. -/
theorem Output_ignores_flags (put : V → String) (XEMPTY : V) (r : TrcRecorder V)
    (fifo : FIFO (TrcFrameWrapper V)) (list : MarkerListWrapper)
    (e₁ r₁ e₂ r₂ : Bool) (os : String) (header : Bool) :
    ((⟨⟨fifo, e₁, r₁⟩, list⟩ : TrcRecorder V).Output put XEMPTY os header).2
      = ((⟨⟨fifo, e₂, r₂⟩, list⟩ : TrcRecorder V).Output put XEMPTY os header).2 ∧
    ((⟨⟨fifo, e₁, r₁⟩, list⟩ : TrcRecorder V).Output put XEMPTY os header).1.mFifo
      = ((⟨⟨fifo, e₂, r₂⟩, list⟩ : TrcRecorder V).Output put XEMPTY os header).1.mFifo ∧
    (r.Output put XEMPTY os header).1.mEnabled = r.mEnabled ∧
    (r.Output put XEMPTY os header).1.mRecording = r.mRecording ∧
    ((r.Enable false).Output put XEMPTY os header).2 = (r.Output put XEMPTY os header).2 ∧
    ((r.Enable false).Output put XEMPTY os header).2
      = (if header then writeHeader r.mMarkerList os else os) ++
          writeLines (r.mFifo.mQ.flatMap (Stated.trcBlock put XEMPTY r.mMarkerList)) ∧
    ((r.Enable false).Output put XEMPTY os header).1.Size = 0 := by
  simp only [trc_Output_eq_lines]
  simp [Enable, RecorderBase.Enable, Size, RecorderBase.Size, FIFO.Size, FIFO.SemWait]

/-- C22, `Output` drains fully: after `Output` (with or without header) of a position,
segment or degree-of-freedom recorder `Size() == 0`; and without header the position and the
segment recorder write, for each buffered frame in turn, one `Frame #` line followed by the
rows of the frame, the rows of a frame `f` being `f.Size()` many, so the rows written are as
many as the sum of `f.Size()` over the frames buffered at the call. -/
theorem Output_drains_fully (put : V → String) (XEMPTY : V) (r : TrcRecorder V)
    (s : SegmentRecorder V) (d : DofRecorder V) (os : String) (header : Bool) :
    (r.Output put XEMPTY os header).1.Size = 0 ∧
    (s.Output put XEMPTY os header).1.Size = 0 ∧
    (d.Output put XEMPTY os header).1.Size = 0 ∧
    (r.Output put XEMPTY os false).2
      = os ++ writeLines (r.mFifo.mQ.flatMap (fun f =>
          Stated.trcFrameLine f :: Stated.trcItemRows put XEMPTY r.mMarkerList f)) ∧
    (∀ f : TrcFrameWrapper V,
      ((Stated.trcItemRows put XEMPTY r.mMarkerList f).length : Int) = f.Size) ∧
    ((r.mFifo.mQ.flatMap (Stated.trcItemRows put XEMPTY r.mMarkerList)).length : Int)
      = (r.mFifo.mQ.map (fun f => f.Size)).sum ∧
    (s.Output put XEMPTY os false).2
      = os ++ writeLines (s.mFifo.mQ.flatMap (fun f =>
          Stated.segFrameLine f :: Stated.segItemRows put XEMPTY s.mHierarchy f)) ∧
    (∀ f : SegmentFrameWrapper V,
      ((Stated.segItemRows put XEMPTY s.mHierarchy f).length : Int) = f.Size) ∧
    ((s.mFifo.mQ.flatMap (Stated.segItemRows put XEMPTY s.mHierarchy)).length : Int)
      = (s.mFifo.mQ.map (fun f => f.Size)).sum := by
  have htrc : ∀ f : TrcFrameWrapper V,
      ((Stated.trcItemRows put XEMPTY r.mMarkerList f).length : Int) = f.Size := by
    intro f; simp [Stated.trcItemRows, TrcFrameWrapper.Size]
  have hseg : ∀ f : SegmentFrameWrapper V,
      ((Stated.segItemRows put XEMPTY s.mHierarchy f).length : Int) = f.Size := by
    intro f; simp [Stated.segItemRows, SegmentFrameWrapper.Size]
  refine ⟨?_, ?_, ?_, ?_, htrc, length_flatMap_rows _ _ _ htrc, ?_, hseg,
    length_flatMap_rows _ _ _ hseg⟩
  · simp [trc_Output_eq_lines, Size, RecorderBase.Size, FIFO.Size, FIFO.SemWait]
  · simp [SegmentRecorder.seg_Output_eq, SegmentRecorder.Size, RecorderBase.Size, FIFO.Size,
      FIFO.SemWait]
  · simp [DofRecorder.dof_Output_eq, DofRecorder.Size, RecorderBase.Size, FIFO.Size, FIFO.SemWait]
  · simp [trc_Output_eq_lines]; rfl
  · simp [SegmentRecorder.seg_Output_eq]; rfl

/-- C25, the metadata is taken at `Output` time: when frames are added under the marker list
`m₁` and `SetMarkerList(m₂)` is called before `Output`, the text written is the one for `m₂`:
the header and every row of every buffered frame take their names from `m₂`, whatever `m₁`
was; and `SetMarkerList`, `SetHierarchy` (for a hierarchy with as many parents as names) and
`SetDofNames` replace the metadata and leave the buffer and the flags as they are. -/
theorem metadata_taken_at_Output (put : V → String) (XEMPTY : V) (r : TrcRecorder V)
    (m₁ m₂ : MarkerListWrapper) (frames : List (TrcFrameWrapper V)) (os : String)
    (header : Bool) (s : SegmentRecorder V) (h : HierarchyWrapper) (d : DofRecorder V)
    (n : DofNamesWrapper) (hlen : h.mSegmentNames.length = h.mParents.length) :
    ((((r.SetMarkerList m₁).AddAll frames).SetMarkerList m₂).Output put XEMPTY os header).2
      = (if header then writeHeader m₂ os else os) ++
          writeLines ((r.AddAll frames).mFifo.mQ.flatMap (Stated.trcBlock put XEMPTY m₂)) ∧
    r.SetMarkerList m₂ = { r with mMarkerList := m₂ } ∧
    s.SetHierarchy h = { s with mHierarchy := h } ∧
    d.SetDofNames n = { d with mDofNames := n } := by
  refine ⟨?_, ?_, ?_, ?_⟩
  · simp [trc_Output_eq_lines, SetMarkerList, trc_AddAll_eq, MarkerListWrapper.marker_Copy_eq]
  · simp [SetMarkerList, MarkerListWrapper.marker_Copy_eq]
  · simp [SegmentRecorder.SetHierarchy, HierarchyWrapper.hierarchy_Copy_eq h hlen]
  · simp [DofRecorder.SetDofNames, DofNamesWrapper.dofNames_Copy_eq]

/-- Witness of C25: a frame recorded under the name `OLD` is written with the name `NEW` set
before `Output`. -/
theorem metadata_taken_at_Output_witness :
    (((((⟨⟨⟨[], false, 2, FifoReplaceStrategy.kStopAdding⟩, true, true⟩, ⟨[]⟩⟩ :
      TrcRecorder Nat).SetMarkerList ⟨["OLD"]⟩).AddAll [⟨some [(1, 2, 3)], 0, 1⟩]).SetMarkerList
        ⟨["NEW"]⟩).Output (fun v => toString v) 0 "" false).2
      = "Frame #1,X,Y,Z\nNEW,1,2,3\n" :=
  (metadata_taken_at_Output (fun v => toString v) 0
    (⟨⟨⟨[], false, 2, FifoReplaceStrategy.kStopAdding⟩, true, true⟩, ⟨[]⟩⟩ : TrcRecorder Nat)
    ⟨["OLD"]⟩ ⟨["NEW"]⟩ [⟨some [(1, 2, 3)], 0, 1⟩] "" false
    (SegmentRecorder.ctor 1) ⟨["A", "B"], [-1, 0]⟩ (DofRecorder.ctor 1) ⟨["d"]⟩ rfl).1.trans
    (by decide)

/-- C26 as stated fails: with the marker list `["a"]` and an empty buffer `Output(os, true)`
writes the four lines `Marker Names`, `a` and two empty lines, not only the line `a`. -/
theorem Output_position_header_counterexample :
    ((⟨⟨⟨[], false, 3, FifoReplaceStrategy.kStopAdding⟩, true, false⟩, ⟨["a"]⟩⟩ :
      TrcRecorder Nat).Output (fun v => toString v) 0 "" true).2
      = "Marker Names\na\n\n\n" ∧
    Stated.trcHeader ⟨["a"]⟩ = "a\n" ∧
    ((⟨⟨⟨[], false, 3, FifoReplaceStrategy.kStopAdding⟩, true, false⟩, ⟨["a"]⟩⟩ :
      TrcRecorder Nat).Output (fun v => toString v) 0 "" true).2
      ≠ "" ++ Stated.trcHeader ⟨["a"]⟩ := by
  simp only [trc_Output_eq_lines]
  decide

/-- C26 amended, the header of the position recorder: for every marker list and an empty
buffer, `Output(os, true)` writes the line `Marker Names`, then the attached marker names, one
per line, in list order, then two empty lines, and nothing else; with `header = false` it
writes nothing. -/
theorem Output_position_header (put : V → String) (XEMPTY : V) (list : MarkerListWrapper)
    (locked : Bool) (maxSize : Nat) (strategy : FifoReplaceStrategy) (enabled recording : Bool)
    (os : String) :
    ((⟨⟨⟨[], locked, maxSize, strategy⟩, enabled, recording⟩, list⟩ :
      TrcRecorder V).Output put XEMPTY os true).2
      = os ++ writeLines ("Marker Names" :: (list.mMarkerNames ++ ["", ""])) ∧
    ((⟨⟨⟨[], locked, maxSize, strategy⟩, enabled, recording⟩, list⟩ :
      TrcRecorder V).Output put XEMPTY os false).2 = os := by
  simp [trc_Output_eq_lines, trc_writeHeader_eq, writeLines_nil]

end TrcRecorder

namespace DofRecorder

variable {V : Type}

/-- C28 as stated fails: with the names `["a", "b"]` the header line written is
`Frame #,a,b,` with a comma after the last name, not `Frame #,a,b`. -/
theorem Output_dof_header_counterexample :
    ((⟨⟨⟨[], false, 3, FifoReplaceStrategy.kStopAdding⟩, true, false⟩, ⟨["a", "b"]⟩⟩ :
      DofRecorder Nat).Output (fun v => toString v) 0 "" true).2 = "Frame #,a,b,\n" ∧
    writeLines [Stated.dofHeaderLine ⟨["a", "b"]⟩] = "Frame #,a,b\n" ∧
    ((⟨⟨⟨[], false, 3, FifoReplaceStrategy.kStopAdding⟩, true, false⟩, ⟨["a", "b"]⟩⟩ :
      DofRecorder Nat).Output (fun v => toString v) 0 "" true).2
      ≠ "" ++ writeLines [Stated.dofHeaderLine ⟨["a", "b"]⟩] := by
  simp only [dof_Output_eq]
  decide

/-- C28 amended, the header of the degree-of-freedom recorder: for every DOF name list,
`Output(os, true)` writes as header one line consisting of `Frame #,` followed by each name
followed by a comma (`n0,n1,...,nm-1,`: a comma after every name, the last included); the rows
of the buffered frames follow. -/
theorem Output_dof_header (put : V → String) (XEMPTY : V) (d : DofRecorder V) (os : String) :
    (d.Output put XEMPTY os true).2
      = os ++ writeLines ["Frame #," ++ writeAll (d.mDofNames.mDofNames.map
            (fun name => name ++ ","))] ++
          writeLines (d.mFifo.mQ.map (fun f => toString (int32 (f.Frame + 1)) ++ "," ++
            writeAll ((Stated.dofValues XEMPTY f).map (fun v => put v ++ ",")))) := by
  simp [dof_Output_eq, dof_writeHeader_eq, writeLines_cons, writeLines_nil, String.append_assoc]

/-- C29 as stated fails: for a buffered frame with sequence number 0 and the values 7, 8 the
line written is `1,7,8,` with a comma after the last value, not `1,7,8`. -/
theorem Output_dof_rows_counterexample :
    ((⟨⟨⟨[⟨some [7, 8], 0, 2⟩], false, 3, FifoReplaceStrategy.kStopAdding⟩, true, false⟩,
      ⟨["a", "b"]⟩⟩ : DofRecorder Nat).Output (fun v => toString v) 0 "" false).2
      = "1,7,8,\n" ∧
    writeLines [Stated.dofRow (fun v => toString v) 0 (⟨some [7, 8], 0, 2⟩ : DofFrameWrapper Nat)]
      = "1,7,8\n" ∧
    ((⟨⟨⟨[⟨some [7, 8], 0, 2⟩], false, 3, FifoReplaceStrategy.kStopAdding⟩, true, false⟩,
      ⟨["a", "b"]⟩⟩ : DofRecorder Nat).Output (fun v => toString v) 0 "" false).2
      ≠ "" ++ writeLines [Stated.dofRow (fun v => toString v) 0
          (⟨some [7, 8], 0, 2⟩ : DofFrameWrapper Nat)] := by
  simp only [dof_Output_eq]
  decide

end DofRecorder

/-- C30, the defaults: a fifo constructed without arguments has capacity 1024, policy
`kStopAdding`, is unlocked and empty; a recorder constructed without arguments (the base and
the three recorders) owns such a fifo and has `enabled` set and `recording` clear. -/
theorem default_construction (T F V : Type) :
    (FIFO.ctorDefault : FIFO T).MaxSize = 1024 ∧
    (FIFO.ctorDefault : FIFO T).ReplaceStrategy = FifoReplaceStrategy.kStopAdding ∧
    (FIFO.ctorDefault : FIFO T).IsLocked = false ∧
    (FIFO.ctorDefault : FIFO T).Size = 0 ∧
    (FIFO.ctorDefault : FIFO T).mQ = [] ∧
    (RecorderBase.ctorDefault : RecorderBase F).mFifo = FIFO.ctorDefault ∧
    (RecorderBase.ctorDefault : RecorderBase F).mEnabled = true ∧
    (RecorderBase.ctorDefault : RecorderBase F).mRecording = false ∧
    (TrcRecorder.ctorDefault : TrcRecorder V).toRecorderBase = RecorderBase.ctorDefault ∧
    (SegmentRecorder.ctorDefault : SegmentRecorder V).toRecorderBase
      = RecorderBase.ctorDefault ∧
    (DofRecorder.ctorDefault : DofRecorder V).toRecorderBase = RecorderBase.ctorDefault := by
  refine ⟨rfl, rfl, rfl, rfl, rfl, rfl, rfl, rfl, rfl, rfl, rfl⟩

/-! ## `Add`: termination and the reads before `SemWait` -/

namespace FIFO

variable {T : Type}

theorem Add_eq_guard_critical (f : FIFO T) (v : T) :
    f.Add v = (if Add.guard f then Add.critical f v else f) := by
  by_cases hg : Add.guard f = true
  · have hg2 := hg
    simp only [Add.guard] at hg2
    simp [Add, Add.critical, hg, hg2, SemWait]
  · have hg2 := hg
    simp only [Add.guard] at hg2
    simp [Add, hg, hg2, SemWait]

theorem Add_three_ways (f : FIFO T) (v : T) :
    f.Add v = f ∨ f.Add v = { f with mQ := f.mQ ++ [v] } ∨
      (0 < f.mMaxSize ∧ f.mMaxSize ≤ f.mQ.length ∧
        f.Add v = { f with mQ := removeOldestLoop f.mMaxSize f.mQ ++ [v] }) := by
  by_cases hl : f.mLocked = true
  · exact Or.inl (Add_of_locked f v hl)
  have hl : f.mLocked = false := by simpa using hl
  by_cases hroom : f.mQ.length < f.mMaxSize
  · exact Or.inr (Or.inl (Add_of_room f v hl hroom))
  have hfull : f.mMaxSize ≤ f.mQ.length := by omega
  by_cases hpos : 0 < f.mMaxSize
  · rcases strategy_cases f.mReplaceStrategy with hs | hs
    · refine Or.inr (Or.inr ⟨hpos, hfull, ?_⟩)
      rw [Add_of_full_removeOldest f v hl hpos hfull hs, removeOldestLoop_eq_drop]
    · exact Or.inl (Add_of_full_stopAdding f v hfull hs)
  · exact Or.inl (Add_of_maxSize_zero f v (by omega))

theorem whileLoop_of_pos (c : Nat) (hc : 0 < c) :
    ∀ (passes : Nat) (q : List T), q.length + 1 ≤ passes →
      Add.whileLoop c passes q = some (removeOldestLoop c q) := by
  intro passes
  induction passes with
  | zero => intro q h; omega
  | succ n ih =>
    intro q h
    cases q with
    | nil =>
      have hnot : ¬ ([] : List T).length ≥ c := by simp; omega
      simp only [Add.whileLoop, removeOldestLoop, hnot, if_false]
    | cons x rest =>
      by_cases hfull : (x :: rest).length ≥ c
      · have hrest : rest.length + 1 ≤ n := by simp at h; omega
        simp only [Add.whileLoop, removeOldestLoop, hfull, if_true, List.tail_cons]
        exact ih rest hrest
      · simp only [Add.whileLoop, removeOldestLoop, hfull, if_false]

theorem whileLoop_zero (passes : Nat) (q : List T) : Add.whileLoop 0 passes q = none := by
  induction passes generalizing q with
  | zero => rfl
  | succ n ih => simp [Add.whileLoop, ih]

/-- C31, `Add` never waits for space: `Add` is a total function that either leaves the fifo as
it is, or appends the value, or (only with `MaxSize() > 0` and `Size() >= MaxSize()`) runs the
removal loop and appends the value. The loop `while (mQ.size() >= mMaxSize) mQ.pop();`, taken
pass by pass, ends whenever `mMaxSize > 0`: within `Size() + 1` evaluations of its condition
it has removed `Size() + 1 - MaxSize()` elements from the head (none when there is room),
never more than `Size() - MaxSize() + 1`, and when it is entered from `Add` it removes exactly
`Size() - MaxSize() + 1` and leaves `MaxSize() - 1`. With `mMaxSize == 0` the loop does not end
within any number of passes, and `Add` does not enter it: with `MaxSize() == 0` `Add` does
nothing. -/
theorem Add_never_waits (f : FIFO T) (v : T) (c passes : Nat) (q : List T) :
    (f.Add v = f ∨ f.Add v = { f with mQ := f.mQ ++ [v] } ∨
      (0 < f.MaxSize ∧ f.MaxSize ≤ f.Size ∧
        Add.whileLoop f.mMaxSize (f.mQ.length + 1) f.mQ
          = some (f.mQ.drop (f.Size - f.MaxSize + 1)) ∧
        f.Add v = { f with mQ := f.mQ.drop (f.Size - f.MaxSize + 1) ++ [v] })) ∧
    (0 < c → q.length + 1 ≤ passes →
      Add.whileLoop c passes q = some (q.drop (q.length + 1 - c)) ∧
      q.length + 1 - c ≤ q.length - c + 1) ∧
    (0 < c → c ≤ q.length → q.length + 1 ≤ passes →
      Add.whileLoop c passes q = some (q.drop (q.length - c + 1)) ∧
      q.length - c + 1 ≤ q.length ∧
      (q.drop (q.length - c + 1)).length = c - 1) ∧
    (f.MaxSize = 0 → f.Add v = f) ∧
    Add.whileLoop 0 passes q = none := by
  simp only [MaxSize, Size, SemWait, if_true]
  refine ⟨?_, ?_, ?_, Add_of_maxSize_zero f v, whileLoop_zero passes q⟩
  · rcases Add_three_ways f v with h | h | ⟨hpos, hfull, h⟩
    · exact Or.inl h
    · exact Or.inr (Or.inl h)
    · have hk : f.mQ.length + 1 - f.mMaxSize = f.mQ.length - f.mMaxSize + 1 := by omega
      refine Or.inr (Or.inr ⟨hpos, hfull, ?_, ?_⟩)
      · rw [whileLoop_of_pos f.mMaxSize hpos _ _ (Nat.le_refl _), removeOldestLoop_eq_drop, hk]
      · rw [h, removeOldestLoop_eq_drop, hk]
  · intro hc hp
    refine ⟨?_, by omega⟩
    rw [whileLoop_of_pos c hc passes q hp, removeOldestLoop_eq_drop]
  · intro hc hq hp
    have hk : q.length + 1 - c = q.length - c + 1 := by omega
    rw [whileLoop_of_pos c hc passes q hp, removeOldestLoop_eq_drop, hk]
    refine ⟨rfl, by omega, ?_⟩
    rw [List.length_drop]; omega

/-- Witness of C31: the loop on a queue of four values with capacity 2 ends within five
passes, having removed `4 - 2 + 1 = 3` of them. -/
theorem Add_never_waits_witness :
    Add.whileLoop 2 5 [1, 2, 3, 4] = some ([1, 2, 3, 4].drop (4 - 2 + 1)) ∧
    4 - 2 + 1 ≤ 4 ∧ ([1, 2, 3, 4].drop (4 - 2 + 1)).length = 2 - 1 :=
  (Add_never_waits (⟨[1, 2, 3, 4], false, 2, FifoReplaceStrategy.kRemoveOldest⟩ : FIFO Nat) 9 2 5
    [1, 2, 3, 4]).2.2.1 (by decide) (by decide) (by decide)

/-- C32, mutual exclusion, fails for `Add`: `Add` is its two reads `mMaxSize > 0 && !mLocked`
followed, when they allow it, by the part under the semaphore; so another thread's calls can
run between the reads and the critical section. On the fifo of capacity 2 holding `[5]`: the
reads allow the addition, the consumer then runs `SetLocked(true)` and `Clear()`, and the
critical section pushes `9` into the locked, cleared fifo; in each of the three orders of the
whole calls the fifo ends empty. -/
theorem Add_reads_before_SemWait (f : FIFO T) (v : T) :
    f.Add v = (if Add.guard f then Add.critical f v else f) ∧
    Add.guard (⟨[5], false, 2, FifoReplaceStrategy.kStopAdding⟩ : FIFO Nat) = true ∧
    Add.critical (((⟨[5], false, 2, FifoReplaceStrategy.kStopAdding⟩ : FIFO Nat).SetLocked
      true).Clear) 9 = ⟨[9], true, 2, FifoReplaceStrategy.kStopAdding⟩ ∧
    (((⟨[5], false, 2, FifoReplaceStrategy.kStopAdding⟩ : FIFO Nat).Add 9).SetLocked true).Clear
      = ⟨[], true, 2, FifoReplaceStrategy.kStopAdding⟩ ∧
    (((⟨[5], false, 2, FifoReplaceStrategy.kStopAdding⟩ : FIFO Nat).SetLocked true).Add 9).Clear
      = ⟨[], true, 2, FifoReplaceStrategy.kStopAdding⟩ ∧
    (((⟨[5], false, 2, FifoReplaceStrategy.kStopAdding⟩ : FIFO Nat).SetLocked true).Clear).Add 9
      = ⟨[], true, 2, FifoReplaceStrategy.kStopAdding⟩ := by
  refine ⟨Add_eq_guard_critical f v, ?_, ?_, ?_, ?_, ?_⟩ <;> decide

end FIFO

/-! ## Invariants of the recorders over sequences of calls -/

namespace RecorderBase

variable {F : Type}

theorem Op.apply_mReplaceStrategy (b : RecorderBase F) (op : Op F) :
    (Op.apply b op).mFifo.mReplaceStrategy = b.mFifo.mReplaceStrategy := by
  cases op with
  | enable e => rfl
  | start =>
    by_cases he : b.mEnabled = true
    · simp [Op.apply, Start_of_enabled b he]
    · simp [Op.apply, Start_of_disabled b (by simpa using he)]
  | stop =>
    by_cases he : b.mEnabled = true
    · simp [Op.apply, Stop_of_enabled b he]
    · simp [Op.apply, Stop_of_disabled b (by simpa using he)]
  | add x =>
    by_cases h : (b.mEnabled && b.mRecording) = true
    · simp [Op.apply, Add, h, FIFO.Add_mReplaceStrategy]
    · simp [Op.apply, Add, h]
  | setMaxSize n => simp [Op.apply, SetMaxSize, FIFO.SetMaxSize_eq]

theorem Op.apply_recording_unlocked (b : RecorderBase F) (op : Op F)
    (h : b.mRecording = true → b.mFifo.mLocked = false) :
    (Op.apply b op).mRecording = true → (Op.apply b op).mFifo.mLocked = false := by
  cases op with
  | enable e => exact h
  | start =>
    by_cases he : b.mEnabled = true
    · simp [Op.apply, Start_of_enabled b he]
    · simpa [Op.apply, Start_of_disabled b (by simpa using he)] using h
  | stop =>
    by_cases he : b.mEnabled = true
    · simp [Op.apply, Stop_of_enabled b he]
    · simpa [Op.apply, Stop_of_disabled b (by simpa using he)] using h
  | add x =>
    by_cases hg : (b.mEnabled && b.mRecording) = true
    · simpa [Op.apply, Add, hg, FIFO.Add_mLocked] using h
    · simpa [Op.apply, Add, hg] using h
  | setMaxSize n => simpa [Op.apply, SetMaxSize, FIFO.SetMaxSize_eq] using h

theorem run_recording_unlocked (b : RecorderBase F) (ops : List (Op F))
    (h : b.mRecording = true → b.mFifo.mLocked = false) :
    (run b ops).mRecording = true → (run b ops).mFifo.mLocked = false := by
  induction ops generalizing b with
  | nil => exact h
  | cons op ops ih =>
    rw [recorder_run_cons]
    exact ih _ (Op.apply_recording_unlocked b op h)

end RecorderBase

theorem trc_run_invariant {V : Type} (I : RecorderBase (TrcFrameWrapper V) → Prop)
    (hbase : ∀ b op, I b → I (RecorderBase.Op.apply b op))
    (hdrain : ∀ b : RecorderBase (TrcFrameWrapper V),
      I b → I { b with mFifo := { b.mFifo with mQ := [] } })
    (put : V → String) (XEMPTY : V) (r : TrcRecorder V) (hr : I r.toRecorderBase)
    (ops : List (TrcRecorder.Op V)) :
    I (TrcRecorder.run put XEMPTY r ops).toRecorderBase := by
  induction ops generalizing r with
  | nil => exact hr
  | cons op ops ih =>
    have hrun : TrcRecorder.run put XEMPTY r (op :: ops)
        = TrcRecorder.run put XEMPTY (TrcRecorder.Op.apply put XEMPTY r op) ops := rfl
    rw [hrun]
    apply ih
    cases op with
    | base op => exact hbase _ op hr
    | output os header =>
      simp only [TrcRecorder.Op.apply, TrcRecorder.trc_Output_eq_lines]
      exact hdrain _ hr
    | setMarkerList list => exact hr

theorem seg_run_invariant {V : Type} (I : RecorderBase (SegmentFrameWrapper V) → Prop)
    (hbase : ∀ b op, I b → I (RecorderBase.Op.apply b op))
    (hdrain : ∀ b : RecorderBase (SegmentFrameWrapper V),
      I b → I { b with mFifo := { b.mFifo with mQ := [] } })
    (put : V → String) (XEMPTY : V) (r : SegmentRecorder V) (hr : I r.toRecorderBase)
    (ops : List (SegmentRecorder.Op V)) :
    I (SegmentRecorder.run put XEMPTY r ops).toRecorderBase := by
  induction ops generalizing r with
  | nil => exact hr
  | cons op ops ih =>
    have hrun : SegmentRecorder.run put XEMPTY r (op :: ops)
        = SegmentRecorder.run put XEMPTY (SegmentRecorder.Op.apply put XEMPTY r op) ops := rfl
    rw [hrun]
    apply ih
    cases op with
    | base op => exact hbase _ op hr
    | output os header =>
      simp only [SegmentRecorder.Op.apply, SegmentRecorder.seg_Output_eq]
      exact hdrain _ hr
    | setHierarchy hierarchy => exact hr

theorem dof_run_invariant {V : Type} (I : RecorderBase (DofFrameWrapper V) → Prop)
    (hbase : ∀ b op, I b → I (RecorderBase.Op.apply b op))
    (hdrain : ∀ b : RecorderBase (DofFrameWrapper V),
      I b → I { b with mFifo := { b.mFifo with mQ := [] } })
    (put : V → String) (XEMPTY : V) (r : DofRecorder V) (hr : I r.toRecorderBase)
    (ops : List (DofRecorder.Op V)) :
    I (DofRecorder.run put XEMPTY r ops).toRecorderBase := by
  induction ops generalizing r with
  | nil => exact hr
  | cons op ops ih =>
    have hrun : DofRecorder.run put XEMPTY r (op :: ops)
        = DofRecorder.run put XEMPTY (DofRecorder.Op.apply put XEMPTY r op) ops := rfl
    rw [hrun]
    apply ih
    cases op with
    | base op => exact hbase _ op hr
    | output os header =>
      simp only [DofRecorder.Op.apply, DofRecorder.dof_Output_eq]
      exact hdrain _ hr
    | setDofNames names => exact hr

/-- C33, the policy of a recorder is fixed at `kStopAdding`: in every state of a position,
segment or degree-of-freedom recorder reached from construction by a sequence of `Enable`,
`Start`, `Stop`, `Add`, `SetMaxSize`, `Output` and metadata setter calls, the owned buffer has
policy `kStopAdding`; hence in such a state with `Size()` at (or above) the capacity a further
`Add` leaves the recorder as it is: the frame is dropped and the frames held are kept. -/
theorem recorder_policy_fixed {V : Type} (put : V → String) (XEMPTY : V) (maxSize : Nat)
    (opsT : List (TrcRecorder.Op V)) (opsS : List (SegmentRecorder.Op V))
    (opsD : List (DofRecorder.Op V)) (f : TrcFrameWrapper V) :
    (TrcRecorder.run put XEMPTY (TrcRecorder.ctor maxSize) opsT).mFifo.ReplaceStrategy
      = FifoReplaceStrategy.kStopAdding ∧
    (SegmentRecorder.run put XEMPTY (SegmentRecorder.ctor maxSize) opsS).mFifo.ReplaceStrategy
      = FifoReplaceStrategy.kStopAdding ∧
    (DofRecorder.run put XEMPTY (DofRecorder.ctor maxSize) opsD).mFifo.ReplaceStrategy
      = FifoReplaceStrategy.kStopAdding ∧
    ((TrcRecorder.run put XEMPTY (TrcRecorder.ctor maxSize) opsT).mFifo.MaxSize
        ≤ (TrcRecorder.run put XEMPTY (TrcRecorder.ctor maxSize) opsT).Size →
      (TrcRecorder.run put XEMPTY (TrcRecorder.ctor maxSize) opsT).Add f
        = TrcRecorder.run put XEMPTY (TrcRecorder.ctor maxSize) opsT) := by
  have hT := trc_run_invariant
    (fun b => b.mFifo.mReplaceStrategy = FifoReplaceStrategy.kStopAdding)
    (fun b op h => (RecorderBase.Op.apply_mReplaceStrategy b op).trans h)
    (fun b h => h) put XEMPTY (TrcRecorder.ctor maxSize) rfl opsT
  have hS := seg_run_invariant
    (fun b => b.mFifo.mReplaceStrategy = FifoReplaceStrategy.kStopAdding)
    (fun b op h => (RecorderBase.Op.apply_mReplaceStrategy b op).trans h)
    (fun b h => h) put XEMPTY (SegmentRecorder.ctor maxSize) rfl opsS
  have hD := dof_run_invariant
    (fun b => b.mFifo.mReplaceStrategy = FifoReplaceStrategy.kStopAdding)
    (fun b op h => (RecorderBase.Op.apply_mReplaceStrategy b op).trans h)
    (fun b h => h) put XEMPTY (DofRecorder.ctor maxSize) rfl opsD
  simp only [FIFO.ReplaceStrategy, FIFO.MaxSize, TrcRecorder.Size, RecorderBase.Size, FIFO.Size,
    FIFO.SemWait, if_true]
  refine ⟨hT, hS, hD, ?_⟩
  intro hfull
  simp only [TrcRecorder.Add, RecorderBase.Add]
  by_cases hg : ((TrcRecorder.run put XEMPTY (TrcRecorder.ctor maxSize) opsT).mEnabled &&
      (TrcRecorder.run put XEMPTY (TrcRecorder.ctor maxSize) opsT).mRecording) = true
  · simp [hg, FIFO.Add_of_full_stopAdding _ f hfull hT]
  · simp [hg]

/-- Witness of C33: a position recorder of capacity 1 that has recorded one frame drops the
next one. -/
theorem recorder_policy_fixed_witness :
    (TrcRecorder.run (fun v : Nat => toString v) 0 (TrcRecorder.ctor 1)
        [TrcRecorder.Op.base RecorderBase.Op.start,
         TrcRecorder.Op.base (RecorderBase.Op.add ⟨some [(1, 2, 3)], 0, 1⟩)]).Add
        ⟨some [(4, 5, 6)], 1, 1⟩
      = TrcRecorder.run (fun v : Nat => toString v) 0 (TrcRecorder.ctor 1)
        [TrcRecorder.Op.base RecorderBase.Op.start,
         TrcRecorder.Op.base (RecorderBase.Op.add ⟨some [(1, 2, 3)], 0, 1⟩)] :=
  (recorder_policy_fixed (fun v : Nat => toString v) 0 1
    [TrcRecorder.Op.base RecorderBase.Op.start,
     TrcRecorder.Op.base (RecorderBase.Op.add ⟨some [(1, 2, 3)], 0, 1⟩)] [] []
    ⟨some [(4, 5, 6)], 1, 1⟩).2.2.2 (by decide)

/-- C34, recording implies unlocked: in every state of a position, segment or
degree-of-freedom recorder reached from construction by a sequence of `Enable`, `Start`,
`Stop`, `Add`, `SetMaxSize`, `Output` (and metadata setter) calls, `recording` set implies that
the buffer is not locked, and a locked buffer implies `recording` clear. -/
theorem recording_implies_unlocked {V : Type} (put : V → String) (XEMPTY : V) (maxSize : Nat)
    (opsT : List (TrcRecorder.Op V)) (opsS : List (SegmentRecorder.Op V))
    (opsD : List (DofRecorder.Op V)) :
    ((TrcRecorder.run put XEMPTY (TrcRecorder.ctor maxSize) opsT).mRecording = true →
      (TrcRecorder.run put XEMPTY (TrcRecorder.ctor maxSize) opsT).mFifo.IsLocked = false) ∧
    ((TrcRecorder.run put XEMPTY (TrcRecorder.ctor maxSize) opsT).mFifo.IsLocked = true →
      (TrcRecorder.run put XEMPTY (TrcRecorder.ctor maxSize) opsT).mRecording = false) ∧
    ((SegmentRecorder.run put XEMPTY (SegmentRecorder.ctor maxSize) opsS).mRecording = true →
      (SegmentRecorder.run put XEMPTY (SegmentRecorder.ctor maxSize) opsS).mFifo.IsLocked
        = false) ∧
    ((SegmentRecorder.run put XEMPTY (SegmentRecorder.ctor maxSize) opsS).mFifo.IsLocked = true →
      (SegmentRecorder.run put XEMPTY (SegmentRecorder.ctor maxSize) opsS).mRecording
        = false) ∧
    ((DofRecorder.run put XEMPTY (DofRecorder.ctor maxSize) opsD).mRecording = true →
      (DofRecorder.run put XEMPTY (DofRecorder.ctor maxSize) opsD).mFifo.IsLocked = false) ∧
    ((DofRecorder.run put XEMPTY (DofRecorder.ctor maxSize) opsD).mFifo.IsLocked = true →
      (DofRecorder.run put XEMPTY (DofRecorder.ctor maxSize) opsD).mRecording = false) := by
  have hT := trc_run_invariant (fun b => b.mRecording = true → b.mFifo.mLocked = false)
    (fun b op h => RecorderBase.Op.apply_recording_unlocked b op h)
    (fun b h => h) put XEMPTY (TrcRecorder.ctor maxSize) (fun _ => rfl) opsT
  have hS := seg_run_invariant (fun b => b.mRecording = true → b.mFifo.mLocked = false)
    (fun b op h => RecorderBase.Op.apply_recording_unlocked b op h)
    (fun b h => h) put XEMPTY (SegmentRecorder.ctor maxSize) (fun _ => rfl) opsS
  have hD := dof_run_invariant (fun b => b.mRecording = true → b.mFifo.mLocked = false)
    (fun b op h => RecorderBase.Op.apply_recording_unlocked b op h)
    (fun b h => h) put XEMPTY (DofRecorder.ctor maxSize) (fun _ => rfl) opsD
  simp only [FIFO.IsLocked, FIFO.SemWait, if_true]
  refine ⟨hT, ?_, hS, ?_, hD, ?_⟩
  · intro hl
    by_cases hr : (TrcRecorder.run put XEMPTY (TrcRecorder.ctor maxSize) opsT).mRecording = true
    · rw [hT hr] at hl; cases hl
    · simpa using hr
  · intro hl
    by_cases hr :
        (SegmentRecorder.run put XEMPTY (SegmentRecorder.ctor maxSize) opsS).mRecording = true
    · rw [hS hr] at hl; cases hl
    · simpa using hr
  · intro hl
    by_cases hr : (DofRecorder.run put XEMPTY (DofRecorder.ctor maxSize) opsD).mRecording = true
    · rw [hD hr] at hl; cases hl
    · simpa using hr

/-- Witness of C34: after `Start()`, an `Add` and a `SetMaxSize` the position recorder is
recording and its buffer is not locked. -/
theorem recording_implies_unlocked_witness :
    (TrcRecorder.run (fun v : Nat => toString v) 0 (TrcRecorder.ctor 2)
        [TrcRecorder.Op.base RecorderBase.Op.start,
         TrcRecorder.Op.base (RecorderBase.Op.add ⟨some [(1, 2, 3)], 0, 1⟩),
         TrcRecorder.Op.base (RecorderBase.Op.setMaxSize 5)]).mFifo.IsLocked = false :=
  (recording_implies_unlocked (fun v : Nat => toString v) 0 2
    [TrcRecorder.Op.base RecorderBase.Op.start,
     TrcRecorder.Op.base (RecorderBase.Op.add ⟨some [(1, 2, 3)], 0, 1⟩),
     TrcRecorder.Op.base (RecorderBase.Op.setMaxSize 5)] [] []).1 (by decide)

namespace RecorderBase

variable {F : Type}

/-- C35, disabling does not end a recording session: for every recorder state with `enabled`
and `recording` set, `Enable(false); Stop(); Enable(true)` gives back the very same state:
`recording` is still set, the buffer (contents, lock, capacity, policy) is as before, and a
following `Add(v)` is forwarded to the buffer as it would have been before; in every such
state reached from construction the buffer is unlocked after the sequence. -/
theorem disabling_keeps_session (r : RecorderBase F) (v : F) (maxSize : Nat)
    (ops : List (Op F)) (he : r.mEnabled = true) (hr : r.mRecording = true) :
    ((r.Enable false).Stop).Enable true = r ∧
    (((r.Enable false).Stop).Enable true).mRecording = true ∧
    (((r.Enable false).Stop).Enable true).mFifo = r.mFifo ∧
    (((r.Enable false).Stop).Enable true).Add v = r.Add v ∧
    (((r.Enable false).Stop).Enable true).Add v = { r with mFifo := r.mFifo.Add v } ∧
    ((run (ctor maxSize : RecorderBase F) ops).mEnabled = true →
      (run (ctor maxSize : RecorderBase F) ops).mRecording = true →
      (((((run (ctor maxSize : RecorderBase F) ops).Enable false).Stop).Enable true).mRecording
          = true ∧
       ((((run (ctor maxSize : RecorderBase F) ops).Enable false).Stop).Enable
          true).mFifo.IsLocked = false)) := by
  have hseq : ∀ b : RecorderBase F, b.mEnabled = true →
      ((b.Enable false).Stop).Enable true = b := by
    intro b hb
    cases b with
    | mk fifo e rec =>
      simp only at hb
      simp [Enable, Stop, hb]
  rw [hseq r he]
  refine ⟨rfl, hr, rfl, rfl, Add_of_recording r v he hr, ?_⟩
  intro he2 hr2
  rw [hseq _ he2]
  refine ⟨hr2, ?_⟩
  simp only [FIFO.IsLocked, FIFO.SemWait, if_true]
  exact run_recording_unlocked (ctor maxSize) ops (fun _ => rfl) hr2

/-- Witness of C35: a recording recorder holding one frame. -/
theorem disabling_keeps_session_witness :
    ((((⟨⟨[7], false, 2, FifoReplaceStrategy.kStopAdding⟩, true, true⟩ :
      RecorderBase Nat).Enable false).Stop).Enable true).Add 8
      = ⟨(⟨[7], false, 2, FifoReplaceStrategy.kStopAdding⟩ : FIFO Nat).Add 8, true, true⟩ :=
  (disabling_keeps_session
    (⟨⟨[7], false, 2, FifoReplaceStrategy.kStopAdding⟩, true, true⟩ : RecorderBase Nat) 8 2 []
    rfl rfl).2.2.2.2.1

end RecorderBase

/-! ## Construction and copying of the wrappers -/

theorem list_by_index {α : Type} (l : List α) (d : α) :
    (List.range l.length).map (fun i => l.getD i d) = l := by
  apply List.ext_getElem
  · simp
  · intro n h₁ h₂
    simp [List.getElem?_eq_getElem h₂]

theorem getD_map_range {α : Type} (g : Nat → α) (n j : Nat) (d : α) (h : j < n) :
    ((List.range n).map g).getD j d = g j := by
  rw [List.getD_eq_getElem _ _ (by simpa using h)]
  simp

namespace TrcFrameWrapper

variable {V : Type}

theorem trc_CopySrc_pos (self : TrcFrameWrapper V) (s : sTrcFrame V) (count : Int)
    (h : count > 0) :
    self.CopySrc (some s) count
      = ⟨some ((List.range count.toNat).map (fun (i : Nat) => s.Markers i)), s.iFrame,
          count.toNat⟩ := by
  simp [CopySrc, h]

theorem trc_CopySrc_empty (self : TrcFrameWrapper V) (src : Option (sTrcFrame V))
    (count : Int) (h : src = none ∨ count ≤ 0) :
    self.CopySrc src count = ⟨none, -1, 0⟩ := by
  rcases h with h | h
  · subst h; rfl
  · cases src with
    | none => rfl
    | some s =>
      have : ¬ count > 0 := by omega
      simp [CopySrc, this, FreeMemory]

theorem trc_inv_CopySrc (self : TrcFrameWrapper V) (src : Option (sTrcFrame V)) (count : Int) :
    (self.CopySrc src count).Size = 0 → (self.CopySrc src count).Frame = -1 := by
  by_cases h : src = none ∨ count ≤ 0
  · intro _; rw [trc_CopySrc_empty self src count h]; rfl
  · have hc : count > 0 := by
      by_contra hc; exact h (Or.inr (by omega))
    cases src with
    | none => exact absurd (Or.inl rfl) h
    | some s =>
      rw [trc_CopySrc_pos self s count hc]
      intro hs
      simp only [Size] at hs
      omega

theorem trc_inv_Copy (XEMPTY : V) (self src : TrcFrameWrapper V) :
    (Copy XEMPTY self src).Size = 0 → (Copy XEMPTY self src).Frame = -1 := by
  by_cases h : src.Size > 0
  · intro hs
    rw [Copy, if_pos h] at hs
    simp only [Size, Int.toNat_ofNat] at hs h
    omega
  · intro _; simp [Copy, h, FreeMemory, Frame]

theorem trc_Copy_of_array (XEMPTY : V) (self : TrcFrameWrapper V) (arr : List (V × V × V))
    (frame : Int) (h : 0 < arr.length) :
    Copy XEMPTY self ⟨some arr, frame, arr.length⟩ = ⟨some arr, frame, arr.length⟩ := by
  have hpos : (⟨some arr, frame, arr.length⟩ : TrcFrameWrapper V).Size > 0 := by
    simp only [Size]; omega
  have hmap : (List.range arr.length).map
      (fun (i : Nat) => GetMarkerLocation XEMPTY ⟨some arr, frame, arr.length⟩ (i : Int))
      = (List.range arr.length).map (fun i => arr.getD i (XEMPTY, XEMPTY, XEMPTY)) := by
    apply List.map_congr_left
    intro i hi
    have hi2 : i < arr.length := by simpa using hi
    simp [GetMarkerLocation, hi2]
  rw [Copy, if_pos hpos]
  simp only [Size, Frame, Int.toNat_ofNat, hmap, list_by_index]

theorem trc_Copy_of_empty (XEMPTY : V) (self : TrcFrameWrapper V) :
    Copy XEMPTY self ⟨none, -1, 0⟩ = ⟨none, -1, 0⟩ := by
  simp [Copy, Size, FreeMemory]

theorem trc_Copy_ctor (XEMPTY : V) (self : TrcFrameWrapper V) (src : Option (sTrcFrame V))
    (count : Int) : Copy XEMPTY self (ctor src count) = ctor src count := by
  by_cases h : src = none ∨ count ≤ 0
  · simp only [ctor, trc_CopySrc_empty _ src count h, trc_Copy_of_empty]
  · have hc : count > 0 := by
      by_contra hc; exact h (Or.inr (by omega))
    cases src with
    | none => exact absurd (Or.inl rfl) h
    | some s =>
      simp only [ctor, trc_CopySrc_pos _ s count hc]
      have hlen : ((List.range count.toNat).map (fun (i : Nat) => s.Markers i)).length
          = count.toNat := by simp
      have hpos : 0 < ((List.range count.toNat).map (fun (i : Nat) => s.Markers i)).length := by
        rw [hlen]; omega
      have := trc_Copy_of_array XEMPTY self _ s.iFrame hpos
      rw [hlen] at this
      exact this

theorem trc_rawMarker_ctor (src : Option (sTrcFrame V)) (count : Int) (i : Nat)
    (h : i < (ctor src count).mCount) : ∃ m, (ctor src count).rawMarker i = some m := by
  by_cases he : src = none ∨ count ≤ 0
  · rw [ctor, trc_CopySrc_empty _ src count he] at h
    exact absurd h (Nat.not_lt_zero i)
  · have hc : count > 0 := by
      by_contra hc; exact he (Or.inr (by omega))
    cases src with
    | none => exact absurd (Or.inl rfl) he
    | some s =>
      rw [ctor, trc_CopySrc_pos _ s count hc] at h ⊢
      have h2 : i < count.toNat := h
      exact ⟨s.Markers i, by simp [rawMarker, h2]⟩

theorem trc_operatorEq_self (feq : V → V → Bool) (w : TrcFrameWrapper V)
    (hwf : ∀ i, i < w.mCount → ∃ m, w.rawMarker i = some m)
    (hw : ∀ i m, w.rawMarker i = some m →
      feq m.1 m.1 = true ∧ feq m.2.1 m.2.1 = true ∧ feq m.2.2 m.2.2 = true) :
    operatorEq feq w w = some true := by
  have hfold : ∀ l : List Nat, (∀ i ∈ l, i < w.mCount) →
      l.foldl
        (fun rc (i : Nat) =>
          match rc with
          | some true =>
            match w.rawMarker i, w.rawMarker i with
            | some a, some b => some (feq a.1 b.1 && feq a.2.1 b.2.1 && feq a.2.2 b.2.2)
            | _, _ => none
          | other => other)
        (some true) = some true := by
    intro l
    induction l with
    | nil => intro _; rfl
    | cons a rest ih =>
      intro hl
      obtain ⟨m, hm⟩ := hwf a (hl a (List.mem_cons_self a rest))
      obtain ⟨h1, h2, h3⟩ := hw a m hm
      rw [List.foldl_cons]
      simp only [hm, h1, h2, h3, Bool.and_self]
      exact ih (fun i hi => hl i (List.mem_cons_of_mem a hi))
  simp only [operatorEq, decide_True, Bool.and_self]
  exact hfold _ (fun i hi => by simpa using hi)

end TrcFrameWrapper

namespace SegmentFrameWrapper

variable {V : Type}

theorem seg_inv_CopySrc (self : SegmentFrameWrapper V) (src : Option (sHtr2Frame V))
    (count : Int) :
    (self.CopySrc src count).Size = 0 → (self.CopySrc src count).Frame = -1 := by
  cases src with
  | none => intro _; rfl
  | some s =>
    by_cases hc : count > 0
    · intro hs
      simp only [CopySrc, hc, if_true, Size] at hs
      omega
    · intro _; simp [CopySrc, hc, FreeMemory, Frame]

theorem seg_inv_Copy (XEMPTY : V) (self src : SegmentFrameWrapper V) :
    (Copy XEMPTY self src).Size = 0 → (Copy XEMPTY self src).Frame = -1 := by
  by_cases h : src.Size > 0
  · intro hs
    rw [Copy, if_pos h] at hs
    simp only [Size, Int.toNat_ofNat] at hs h
    omega
  · intro _; simp [Copy, h, FreeMemory, Frame]

end SegmentFrameWrapper

namespace DofFrameWrapper

variable {V : Type}

theorem dof_inv_CopySrc (self : DofFrameWrapper V) (src : Option (sDofFrame V)) :
    (self.CopySrc src).Size = 0 → (self.CopySrc src).Frame = -1 := by
  cases src with
  | none => intro _; rfl
  | some s =>
    by_cases hc : s.nDOFs > 0
    · intro hs
      simp only [CopySrc, hc, if_true, Size] at hs
      omega
    · intro _; simp [CopySrc, hc, FreeMemory, Frame]

theorem dof_inv_Copy (self src : DofFrameWrapper V) :
    (Copy self src).Size = 0 → (Copy self src).Frame = -1 := by
  by_cases h : src.Size > 0
  · intro hs
    rw [Copy, if_pos h] at hs
    simp only [Size, Int.toNat_ofNat] at hs h
    omega
  · intro _; simp [Copy, h, FreeMemory, Frame]

end DofFrameWrapper

namespace HierarchyWrapper

theorem hierarchy_CopySrc_fold (g : Nat → String) (p : Nat → Int) (l : List Nat)
    (acc : HierarchyWrapper) :
    l.foldl (fun h (i : Nat) =>
        ({ mSegmentNames := h.mSegmentNames ++ [g i],
           mParents := h.mParents ++ [p i] } : HierarchyWrapper)) acc
      = { mSegmentNames := acc.mSegmentNames ++ l.map g,
          mParents := acc.mParents ++ l.map p } := by
  induction l generalizing acc with
  | nil => simp
  | cons a rest ih => simp [ih]

theorem hierarchy_ctor_lengths (src : Option sHierarchy) :
    (ctor src).mSegmentNames.length = (ctor src).mParents.length := by
  cases src with
  | none => rfl
  | some s => simp [ctor, CopySrc, hierarchy_CopySrc_fold]

end HierarchyWrapper

/-- C36, empty frames lose their sequence number: after every constructor, `Set` and
assignment of a position, segment or degree-of-freedom frame wrapper, `Size() == 0` implies
`Frame() == -1`; constructing a position frame from a null source or with `count <= 0` gives
`Size() == 0` and `Frame() == -1` whatever the source's `iFrame`, from a source with
`count > 0` it gives `Size() == count` and `Frame() == src.iFrame`; and a buffered position
frame constructed with no items is written by `Output` as the line `Frame #0,X,Y,Z`. -/
theorem empty_frames_lose_number {V : Type} (put : V → String) (XEMPTY : V)
    (srcT : Option (sTrcFrame V)) (srcS : Option (sHtr2Frame V)) (srcD : Option (sDofFrame V))
    (count : Int) (selfT wT : TrcFrameWrapper V) (selfS wS : SegmentFrameWrapper V)
    (selfD wD : DofFrameWrapper V) (r : TrcRecorder V) (os : String) :
    (((TrcFrameWrapper.ctor srcT count).Size = 0 → (TrcFrameWrapper.ctor srcT count).Frame = -1) ∧
      ((TrcFrameWrapper.ctorCopy XEMPTY wT).Size = 0 →
        (TrcFrameWrapper.ctorCopy XEMPTY wT).Frame = -1) ∧
      ((selfT.Set srcT count).Size = 0 → (selfT.Set srcT count).Frame = -1) ∧
      ((selfT.assign XEMPTY wT).Size = 0 → (selfT.assign XEMPTY wT).Frame = -1)) ∧
    (((SegmentFrameWrapper.ctor srcS count).Size = 0 →
        (SegmentFrameWrapper.ctor srcS count).Frame = -1) ∧
      ((SegmentFrameWrapper.ctorCopy XEMPTY wS).Size = 0 →
        (SegmentFrameWrapper.ctorCopy XEMPTY wS).Frame = -1) ∧
      ((selfS.Set srcS count).Size = 0 → (selfS.Set srcS count).Frame = -1) ∧
      ((selfS.assign XEMPTY wS).Size = 0 → (selfS.assign XEMPTY wS).Frame = -1)) ∧
    (((DofFrameWrapper.ctor srcD).Size = 0 → (DofFrameWrapper.ctor srcD).Frame = -1) ∧
      ((DofFrameWrapper.ctorCopy wD).Size = 0 → (DofFrameWrapper.ctorCopy wD).Frame = -1) ∧
      ((selfD.Set srcD).Size = 0 → (selfD.Set srcD).Frame = -1) ∧
      ((selfD.assign wD).Size = 0 → (selfD.assign wD).Frame = -1)) ∧
    (srcT = none ∨ count ≤ 0 →
      (TrcFrameWrapper.ctor srcT count).Size = 0 ∧ (TrcFrameWrapper.ctor srcT count).Frame = -1) ∧
    (∀ s : sTrcFrame V, count > 0 →
      (TrcFrameWrapper.ctor (some s) count).Size = count ∧
      (TrcFrameWrapper.ctor (some s) count).Frame = s.iFrame) ∧
    (srcT = none ∨ count ≤ 0 → r.mFifo.mQ = [TrcFrameWrapper.ctor srcT count] →
      (r.Output put XEMPTY os false).2 = os ++ "Frame #0,X,Y,Z\n") := by
  refine ⟨⟨TrcFrameWrapper.trc_inv_CopySrc _ srcT count, TrcFrameWrapper.trc_inv_Copy XEMPTY _ wT,
      TrcFrameWrapper.trc_inv_CopySrc selfT srcT count,
      TrcFrameWrapper.trc_inv_Copy XEMPTY selfT wT⟩,
    ⟨SegmentFrameWrapper.seg_inv_CopySrc _ srcS count,
      SegmentFrameWrapper.seg_inv_Copy XEMPTY _ wS,
      SegmentFrameWrapper.seg_inv_CopySrc selfS srcS count,
      SegmentFrameWrapper.seg_inv_Copy XEMPTY selfS wS⟩,
    ⟨DofFrameWrapper.dof_inv_CopySrc _ srcD, DofFrameWrapper.dof_inv_Copy _ wD,
      DofFrameWrapper.dof_inv_CopySrc selfD srcD, DofFrameWrapper.dof_inv_Copy selfD wD⟩,
    ?_, ?_, ?_⟩
  · intro h
    rw [TrcFrameWrapper.ctor, TrcFrameWrapper.trc_CopySrc_empty _ srcT count h]
    exact ⟨rfl, rfl⟩
  · intro s hc
    rw [TrcFrameWrapper.ctor, TrcFrameWrapper.trc_CopySrc_pos _ s count hc]
    refine ⟨?_, rfl⟩
    simp only [TrcFrameWrapper.Size]
    omega
  · intro h hq
    rw [TrcRecorder.trc_Output_eq_lines, hq, TrcFrameWrapper.ctor,
      TrcFrameWrapper.trc_CopySrc_empty _ srcT count h]
    simp only [Bool.false_eq_true, if_false, List.flatMap_cons, List.flatMap_nil,
      List.append_nil, Stated.trcBlock, Stated.trcItemRows, TrcFrameWrapper.Size,
      Stated.trcFrameLine, TrcFrameWrapper.Frame]
    have hline : "Frame #" ++ toString (int32 0) ++ ",X,Y,Z" ++ "\n" = "Frame #0,X,Y,Z\n" := by
      decide
    simp [writeLines_cons, writeLines_nil]
    rw [hline]

/-- Witness of C36: a position frame constructed with `count = 0` from a source with
`iFrame = 41`, alone in the buffer, is written as `Frame #0,X,Y,Z`. -/
theorem empty_frames_lose_number_witness :
    ((⟨⟨⟨[TrcFrameWrapper.ctor (some ⟨41, fun i => (i, i, i)⟩) 0], false, 2,
        FifoReplaceStrategy.kStopAdding⟩, true, true⟩, ⟨["M0"]⟩⟩ :
      TrcRecorder Nat).Output (fun v => toString v) 0 "" false).2 = "" ++ "Frame #0,X,Y,Z\n" :=
  (empty_frames_lose_number (fun v : Nat => toString v) 0 (some ⟨41, fun i => (i, i, i)⟩) none
    none 0 TrcFrameWrapper.ctorDefault TrcFrameWrapper.ctorDefault
    SegmentFrameWrapper.ctorDefault SegmentFrameWrapper.ctorDefault
    DofFrameWrapper.ctorDefault DofFrameWrapper.ctorDefault
    (⟨⟨⟨[TrcFrameWrapper.ctor (some ⟨41, fun i => (i, i, i)⟩) 0], false, 2,
        FifoReplaceStrategy.kStopAdding⟩, true, true⟩, ⟨["M0"]⟩⟩ : TrcRecorder Nat)
    "").2.2.2.2.2 (Or.inr (by decide)) rfl

/-- C37, the frame wrapper stores exactly the valid markers: for every non-null `sTrcFrame`
`src` and `count > 0`, `w = TrcFrameWrapper(src, count)` has `w.Size() == count`, and
`w.GetMarkerLocation(i)` gives `src.Markers[i]` for `0 <= i < count` and
`(XEMPTY, XEMPTY, XEMPTY)` for every other `i`, negative ones included. -/
theorem wrapper_stores_valid_markers {V : Type} (XEMPTY : V) (src : sTrcFrame V) (count i : Int)
    (hc : count > 0) :
    (TrcFrameWrapper.ctor (some src) count).Size = count ∧
    (0 ≤ i → i < count →
      (TrcFrameWrapper.ctor (some src) count).GetMarkerLocation XEMPTY i
        = src.Markers i.toNat) ∧
    (i < 0 ∨ count ≤ i →
      (TrcFrameWrapper.ctor (some src) count).GetMarkerLocation XEMPTY i
        = (XEMPTY, XEMPTY, XEMPTY)) := by
  rw [TrcFrameWrapper.ctor, TrcFrameWrapper.trc_CopySrc_pos _ src count hc]
  have hn : ((count.toNat : Nat) : Int) = count := by omega
  refine ⟨by simp only [TrcFrameWrapper.Size]; exact hn, ?_, ?_⟩
  · intro h0 hi
    have hj : i.toNat < count.toNat := by omega
    have hcond : i ≥ 0 ∧ i < ((count.toNat : Nat) : Int) := ⟨h0, by omega⟩
    simp only [TrcFrameWrapper.GetMarkerLocation, hcond, and_self, if_true]
    exact getD_map_range _ _ _ _ hj
  · intro h
    have hcond : ¬ (i ≥ 0 ∧ i < ((count.toNat : Nat) : Int)) := by omega
    simp only [TrcFrameWrapper.GetMarkerLocation, hcond, if_false]

/-- Witness of C37: two markers taken from a source; index 1 is stored, index 2 and index -1
give the sentinel. -/
theorem wrapper_stores_valid_markers_witness :
    (TrcFrameWrapper.ctor (some (⟨7, fun i => (i, i + 1, i + 2)⟩ : sTrcFrame Nat))
      2).GetMarkerLocation 99 1 = (1, 2, 3) ∧
    (TrcFrameWrapper.ctor (some (⟨7, fun i => (i, i + 1, i + 2)⟩ : sTrcFrame Nat))
      2).GetMarkerLocation 99 2 = (99, 99, 99) ∧
    (TrcFrameWrapper.ctor (some (⟨7, fun i => (i, i + 1, i + 2)⟩ : sTrcFrame Nat))
      2).GetMarkerLocation 99 (-1) = (99, 99, 99) :=
  ⟨(wrapper_stores_valid_markers 99 (⟨7, fun i => (i, i + 1, i + 2)⟩ : sTrcFrame Nat) 2 1
      (by decide)).2.1 (by decide) (by decide),
   (wrapper_stores_valid_markers 99 (⟨7, fun i => (i, i + 1, i + 2)⟩ : sTrcFrame Nat) 2 2
      (by decide)).2.2 (Or.inr (by decide)),
   (wrapper_stores_valid_markers 99 (⟨7, fun i => (i, i + 1, i + 2)⟩ : sTrcFrame Nat) 2 (-1)
      (by decide)).2.2 (Or.inl (by decide))⟩

/-- Counterexample to C38 as stated: a position frame built by the public constructor from a
source whose first coordinate is a NaN; its copy has the same count, frame number and stored
values, and `operator==` between the copy and the frame is false. -/
theorem copy_of_NaN_frame_not_equal :
    TrcFrameWrapper.ctorCopy (some 9999999)
        (TrcFrameWrapper.ctor (some ⟨3, fun _ => (none, some 0, some 0)⟩) 1)
      = TrcFrameWrapper.ctor (some ⟨3, fun _ => (none, some 0, some 0)⟩) 1 ∧
    TrcFrameWrapper.operatorEq floatEq
        (TrcFrameWrapper.ctorCopy (some 9999999)
          (TrcFrameWrapper.ctor (some ⟨3, fun _ => (none, some 0, some 0)⟩) 1))
        (TrcFrameWrapper.ctor (some ⟨3, fun _ => (none, some 0, some 0)⟩) 1) = some false := by
  decide

/-- C38 amended, copying a value is faithful: for every position frame wrapper `w` made by
the constructor from a source (any source, any count), the wrapper copy-constructed from `w`
and any other wrapper assigned from `w` hold what `w` holds: the same `Size()`, `Frame()` and
marker location at every index, and a copy of a copy is again `w`; `operator==` between the
copy and `w` is true when every stored coordinate of `w` compares equal to itself under
`==` on `float` (none is a NaN); and for every hierarchy wrapper `h` made by the
constructor, the copy of `h` has the names and the parents of `h` and `operator==` holds. -/
theorem copying_is_faithful {V : Type} (feq : V → V → Bool) (XEMPTY : V)
    (src : Option (sTrcFrame V)) (count i : Int) (self : TrcFrameWrapper V)
    (hsrc : Option sHierarchy)
    (hw : ∀ j m, (TrcFrameWrapper.ctor src count).rawMarker j = some m →
      feq m.1 m.1 = true ∧ feq m.2.1 m.2.1 = true ∧ feq m.2.2 m.2.2 = true) :
    TrcFrameWrapper.ctorCopy XEMPTY (TrcFrameWrapper.ctor src count)
      = TrcFrameWrapper.ctor src count ∧
    self.assign XEMPTY (TrcFrameWrapper.ctor src count) = TrcFrameWrapper.ctor src count ∧
    TrcFrameWrapper.operatorEq feq
      (TrcFrameWrapper.ctorCopy XEMPTY (TrcFrameWrapper.ctor src count))
      (TrcFrameWrapper.ctor src count) = some true ∧
    TrcFrameWrapper.operatorEq feq
      (self.assign XEMPTY (TrcFrameWrapper.ctor src count))
      (TrcFrameWrapper.ctor src count) = some true ∧
    (TrcFrameWrapper.ctorCopy XEMPTY (TrcFrameWrapper.ctor src count)).Size
      = (TrcFrameWrapper.ctor src count).Size ∧
    (TrcFrameWrapper.ctorCopy XEMPTY (TrcFrameWrapper.ctor src count)).Frame
      = (TrcFrameWrapper.ctor src count).Frame ∧
    (TrcFrameWrapper.ctorCopy XEMPTY (TrcFrameWrapper.ctor src count)).GetMarkerLocation XEMPTY i
      = (TrcFrameWrapper.ctor src count).GetMarkerLocation XEMPTY i ∧
    TrcFrameWrapper.ctorCopy XEMPTY
        (TrcFrameWrapper.ctorCopy XEMPTY (TrcFrameWrapper.ctor src count))
      = TrcFrameWrapper.ctor src count ∧
    HierarchyWrapper.ctorCopy (HierarchyWrapper.ctor hsrc) = HierarchyWrapper.ctor hsrc ∧
    (HierarchyWrapper.ctorCopy (HierarchyWrapper.ctor hsrc)).mSegmentNames
      = (HierarchyWrapper.ctor hsrc).mSegmentNames ∧
    (HierarchyWrapper.ctorCopy (HierarchyWrapper.ctor hsrc)).mParents
      = (HierarchyWrapper.ctor hsrc).mParents ∧
    HierarchyWrapper.operatorEq (HierarchyWrapper.ctorCopy (HierarchyWrapper.ctor hsrc))
      (HierarchyWrapper.ctor hsrc) = true := by
  have hc : TrcFrameWrapper.ctorCopy XEMPTY (TrcFrameWrapper.ctor src count)
      = TrcFrameWrapper.ctor src count := TrcFrameWrapper.trc_Copy_ctor XEMPTY _ src count
  have ha : self.assign XEMPTY (TrcFrameWrapper.ctor src count)
      = TrcFrameWrapper.ctor src count := TrcFrameWrapper.trc_Copy_ctor XEMPTY self src count
  have hh : HierarchyWrapper.ctorCopy (HierarchyWrapper.ctor hsrc) = HierarchyWrapper.ctor hsrc :=
    HierarchyWrapper.hierarchy_Copy_eq _ (HierarchyWrapper.hierarchy_ctor_lengths hsrc)
  have he : TrcFrameWrapper.operatorEq feq (TrcFrameWrapper.ctor src count)
      (TrcFrameWrapper.ctor src count) = some true :=
    TrcFrameWrapper.trc_operatorEq_self feq _
      (fun j hj => TrcFrameWrapper.trc_rawMarker_ctor src count j hj) hw
  rw [hc, hc, ha, hh]
  refine ⟨rfl, rfl, he, he, rfl, rfl, rfl, rfl, rfl, rfl, rfl, ?_⟩
  simp [HierarchyWrapper.operatorEq]

/-- Witness of C38 amended: a frame of two markers with numbers for coordinates; its copy is
equal to it under `operator==`. -/
theorem copying_is_faithful_witness :
    TrcFrameWrapper.operatorEq floatEq
      (TrcFrameWrapper.ctorCopy (some 9999999)
        (TrcFrameWrapper.ctor
          (some ⟨3, fun i => (some (i : Int), some 1, some 2)⟩) 2))
      (TrcFrameWrapper.ctor (some ⟨3, fun i => (some (i : Int), some 1, some 2)⟩) 2)
      = some true :=
  (copying_is_faithful floatEq (some 9999999)
    (some ⟨3, fun i => (some (i : Int), some 1, some 2)⟩) 2 0 TrcFrameWrapper.ctorDefault none
    (by
      intro j m hm
      have hmem : m ∈ [((some 0, some 1, some 2) : Option Int × Option Int × Option Int),
          (some 1, some 1, some 2)] := List.getElem?_mem hm
      simp only [List.mem_cons, List.mem_singleton, List.not_mem_nil, or_false] at hmem
      rcases hmem with h | h <;> subst h <;> decide)).2.2.1

/-- C39, name lookup is total: `Name(i)` of the marker list, the DOF names and the hierarchy
is the stored name for `0 <= i < Size()` and the empty string for every other `i`; so
`TrcRecorder::Output` on a buffered frame `f` writes the frame line and then `f.Size()` rows
whatever the number of attached names, and the row of an item `k` at or beyond the number
of names starts with an empty name field. -/
theorem name_lookup_total {V : Type} (put : V → String) (XEMPTY : V) (r : TrcRecorder V)
    (d : DofNamesWrapper) (h : HierarchyWrapper) (i : Int) (f : TrcFrameWrapper V) (k : Nat)
    (os : String) :
    (0 ≤ i → i < r.mMarkerList.Size →
      r.mMarkerList.mMarkerNames[i.toNat]? = some (r.mMarkerList.Name i)) ∧
    (i < 0 ∨ r.mMarkerList.Size ≤ i → r.mMarkerList.Name i = "") ∧
    (0 ≤ i → i < d.Size → d.mDofNames[i.toNat]? = some (d.Name i)) ∧
    (i < 0 ∨ d.Size ≤ i → d.Name i = "") ∧
    (0 ≤ i → i < h.Size → h.mSegmentNames[i.toNat]? = some (h.Name i)) ∧
    (i < 0 ∨ h.Size ≤ i → h.Name i = "") ∧
    (r.mFifo.mQ = [f] →
      (r.Output put XEMPTY os false).2
        = os ++ writeLines
            (Stated.trcFrameLine f :: Stated.trcItemRows put XEMPTY r.mMarkerList f)) ∧
    ((Stated.trcItemRows put XEMPTY r.mMarkerList f).length : Int) = f.Size ∧
    (k < f.mCount → r.mMarkerList.Size ≤ (k : Int) →
      (Stated.trcItemRows put XEMPTY r.mMarkerList f)[k]?
        = some ("" ++ "," ++ put (f.GetMarkerLocation XEMPTY (k : Int)).1 ++ "," ++
            put (f.GetMarkerLocation XEMPTY (k : Int)).2.1 ++ "," ++
            put (f.GetMarkerLocation XEMPTY (k : Int)).2.2)) := by
  have hin : ∀ (names : List String), 0 ≤ i → i < (names.length : Int) →
      names[i.toNat]? = some (if i ≥ 0 ∧ i < (names.length : Int) then names.getD i.toNat ""
        else "") := by
    intro names h0 hi
    have hj : i.toNat < names.length := by omega
    simp [h0, hi, List.getElem?_eq_getElem hj]
  have hout : ∀ (names : List String) (i : Int), i < 0 ∨ (names.length : Int) ≤ i →
      (if i ≥ 0 ∧ i < (names.length : Int) then names.getD i.toNat "" else "") = "" := by
    intro names i hi
    have : ¬ (i ≥ 0 ∧ i < (names.length : Int)) := by omega
    simp [this]
  refine ⟨hin r.mMarkerList.mMarkerNames, hout r.mMarkerList.mMarkerNames i, hin d.mDofNames,
    hout d.mDofNames i, hin h.mSegmentNames, hout h.mSegmentNames i, ?_, ?_, ?_⟩
  · intro hq
    rw [TrcRecorder.trc_Output_eq_lines, hq]
    simp [Stated.trcBlock]
  · simp [Stated.trcItemRows, TrcFrameWrapper.Size]
  · intro hk hm
    have hname : r.mMarkerList.Name (k : Int) = "" :=
      hout r.mMarkerList.mMarkerNames (k : Int) (Or.inr hm)
    simp [Stated.trcItemRows, TrcFrameWrapper.Size, hk, hname]

/-- Witness of C39: a buffered frame with two items and one attached name: the second row has
an empty name field. -/
theorem name_lookup_total_witness :
    (Stated.trcItemRows (fun v : Nat => toString v) 0 ⟨["M0"]⟩
        ⟨some [(1, 2, 3), (4, 5, 6)], 0, 2⟩)[1]?
      = some ("" ++ "," ++ "4" ++ "," ++ "5" ++ "," ++ "6") :=
  (name_lookup_total (fun v : Nat => toString v) 0
    (⟨⟨⟨[⟨some [(1, 2, 3), (4, 5, 6)], 0, 2⟩], false, 2, FifoReplaceStrategy.kStopAdding⟩,
      true, true⟩, ⟨["M0"]⟩⟩ : TrcRecorder Nat) ⟨[]⟩ ⟨[], []⟩ 0
    ⟨some [(1, 2, 3), (4, 5, 6)], 0, 2⟩ 1 "").2.2.2.2.2.2.2.2 (by decide) (by decide)

/-! ## The loops of `trimWhiteSpace` -/

theorem getElem?_after (A B : List Nat) (x : Nat) : (A ++ x :: B)[A.length]? = some x := by
  rw [List.getElem?_append_right (Nat.le_refl _)]
  simp

theorem skipLeading_spec (isspace : Nat → Bool) (c : Nat) (tail : List Nat)
    (hc : isspace c = false) :
    ∀ (W pre : List Nat) (passes : Nat), (∀ x ∈ W, isspace x = true) → W.length + 1 ≤ passes →
      trimWhiteSpace.skipLeading isspace (pre ++ W ++ c :: tail) passes pre.length
        = some (pre.length + W.length) := by
  intro W
  induction W with
  | nil =>
    intro pre passes _ hp
    obtain ⟨n, rfl⟩ : ∃ n, passes = n + 1 := ⟨passes - 1, by simp at hp; omega⟩
    have hget : (pre ++ [] ++ c :: tail)[pre.length]? = some c := by
      rw [List.append_nil]; exact getElem?_after pre tail c
    rw [trimWhiteSpace.skipLeading, hget]
    simp [hc]
  | cons w W ih =>
    intro pre passes hW hp
    obtain ⟨n, rfl⟩ : ∃ n, passes = n + 1 := ⟨passes - 1, by simp at hp; omega⟩
    have hw : isspace w = true := hW w (List.mem_cons_self w W)
    have hbuf : pre ++ w :: W ++ c :: tail = (pre ++ [w]) ++ W ++ c :: tail := by simp
    have hget : (pre ++ w :: W ++ c :: tail)[pre.length]? = some w := by
      have : pre ++ w :: W ++ c :: tail = pre ++ w :: (W ++ c :: tail) := by simp
      rw [this]; exact getElem?_after pre _ w
    rw [trimWhiteSpace.skipLeading, hget]
    simp only [hw, if_true]
    rw [hbuf]
    have := ih (pre ++ [w]) n (fun x hx => hW x (List.mem_cons_of_mem w hx))
      (by simp at hp ⊢; omega)
    simp only [List.length_append, List.length_singleton] at this
    rw [this]
    simp; omega

theorem moveDown_spec (R : List Nat) :
    ∀ (r d U : List Nat) (passes : Nat), (∀ c ∈ r, c ≠ 0) → r.length + 1 ≤ passes →
      ∃ Y, trimWhiteSpace.moveDown U.length passes (d.length + U.length) (d ++ U ++ r ++ 0 :: R)
          = some (d.length + U.length + r.length, d ++ r ++ Y) ∧
        Y.length = U.length + 1 + R.length := by
  intro r
  induction r with
  | nil =>
    intro d U passes _ hp
    obtain ⟨n, rfl⟩ : ∃ n, passes = n + 1 := ⟨passes - 1, by simp at hp; omega⟩
    refine ⟨U ++ 0 :: R, ?_, by simp; omega⟩
    have hget : (d ++ U ++ [] ++ 0 :: R)[d.length + U.length]? = some 0 := by
      have := getElem?_after (d ++ U) R 0
      simpa using this
    rw [trimWhiteSpace.moveDown, hget]
    simp
  | cons c r ih =>
    intro d U passes hr hp
    obtain ⟨n, rfl⟩ : ∃ n, passes = n + 1 := ⟨passes - 1, by simp at hp; omega⟩
    have hc : c ≠ 0 := hr c (List.mem_cons_self c r)
    have hget : (d ++ U ++ c :: r ++ 0 :: R)[d.length + U.length]? = some c := by
      have := getElem?_after (d ++ U) (r ++ 0 :: R) c
      simpa using this
    rw [trimWhiteSpace.moveDown, hget]
    simp only [hc, ne_eq, not_false_eq_true, if_true, Nat.add_sub_cancel]
    have hset : (d ++ U ++ c :: r ++ 0 :: R).set d.length c
        = (d ++ [c]) ++ (U ++ [c]).tail ++ r ++ 0 :: R := by
      cases U with
      | nil =>
        simp
      | cons u U =>
        simp
    have hlen : (U ++ [c]).tail.length = U.length := by simp
    obtain ⟨Y, hY, hYl⟩ := ih (d ++ [c]) (U ++ [c]).tail n
      (fun x hx => hr x (List.mem_cons_of_mem c hx)) (by simp at hp ⊢; omega)
    refine ⟨Y, ?_, by rw [hYl, hlen]⟩
    rw [hset]
    rw [hlen] at hY
    simp only [List.length_append, List.length_singleton] at hY
    have e1 : d.length + U.length + 1 = d.length + 1 + U.length := by omega
    rw [e1, hY]
    simp; omega

theorem trimTrailing_spec (isspace : Nat → Bool) (pre : List Nat)
    (hpre : ∀ c, pre.getLast? = some c → isspace c = false) :
    ∀ (S Z : List Nat), (∀ c ∈ S, isspace c = true) →
      trimWhiteSpace.trimTrailing isspace (pre.length + S.length) (pre ++ S ++ Z)
        = some (pre ++ List.replicate S.length 0 ++ Z) := by
  intro S
  induction S using List.reverseRecOn with
  | nil =>
    intro Z _
    rcases List.eq_nil_or_concat pre with h | ⟨pre', x, h⟩
    · subst h; simp [trimWhiteSpace.trimTrailing]
    · subst h
      have hx : isspace x = false := hpre x (by simp)
      have hget : (pre'.concat x ++ [] ++ Z)[pre'.length]? = some x := by
        have := getElem?_after pre' Z x
        simpa using this
      have e : (pre'.concat x).length + ([] : List Nat).length = pre'.length + 1 := by simp
      rw [e, trimWhiteSpace.trimTrailing, hget]
      simp [hx]
  | append_singleton S x ih =>
    intro Z hS
    have hx : isspace x = true := hS x (by simp)
    have hget : (pre ++ (S ++ [x]) ++ Z)[pre.length + S.length]? = some x := by
      have := getElem?_after (pre ++ S) Z x
      simpa using this
    have hset : (pre ++ (S ++ [x]) ++ Z).set (pre.length + S.length) 0
        = pre ++ S ++ (0 :: Z) := by
      simp
    have e : pre.length + (S ++ [x]).length = (pre.length + S.length) + 1 := by simp; omega
    rw [e, trimWhiteSpace.trimTrailing, hget]
    simp only [hx, if_true]
    rw [hset, ih (0 :: Z) (fun c hc => hS c (by simp [hc]))]
    simp [List.replicate_succ']

theorem trimmed_parts (isspace : Nat → Bool) (cs : List Nat) :
    ∃ W S, cs = W ++ Stated.trimmed isspace cs ++ S ∧
      (∀ c ∈ W, isspace c = true) ∧ (∀ c ∈ S, isspace c = true) ∧
      (∀ c, (Stated.trimmed isspace cs).head? = some c → isspace c = false) ∧
      (∀ c, (Stated.trimmed isspace cs).getLast? = some c → isspace c = false) ∧
      (Stated.trimmed isspace cs = [] → S = []) := by
  have h1 : cs = cs.takeWhile isspace ++ cs.dropWhile isspace :=
    (List.takeWhile_append_dropWhile isspace cs).symm
  have h2 : cs.dropWhile isspace
      = Stated.trimmed isspace cs ++ ((cs.dropWhile isspace).reverse.takeWhile isspace).reverse := by
    have := List.takeWhile_append_dropWhile isspace (cs.dropWhile isspace).reverse
    have h3 := congrArg List.reverse this
    rw [List.reverse_append, List.reverse_reverse] at h3
    exact h3.symm
  have hhead : ∀ c, (cs.dropWhile isspace).head? = some c → isspace c = false := by
    intro c hc
    have := List.head?_dropWhile_not isspace cs
    rw [hc] at this
    simpa using this
  have hlast : ∀ c, (Stated.trimmed isspace cs).getLast? = some c → isspace c = false := by
    intro c hc
    rw [Stated.trimmed, List.getLast?_reverse] at hc
    have := List.head?_dropWhile_not isspace (cs.dropWhile isspace).reverse
    rw [hc] at this
    simpa using this
  have hS : ∀ c ∈ ((cs.dropWhile isspace).reverse.takeWhile isspace).reverse,
      isspace c = true := by
    intro c hc
    exact List.mem_takeWhile_imp (List.mem_reverse.mp hc)
  refine ⟨cs.takeWhile isspace, ((cs.dropWhile isspace).reverse.takeWhile isspace).reverse,
    ?_, fun c hc => List.mem_takeWhile_imp hc, hS, ?_, hlast, ?_⟩
  · rw [List.append_assoc, ← h2]; exact h1
  · intro c hc
    apply hhead
    rw [h2]
    cases ht : Stated.trimmed isspace cs with
    | nil => rw [ht] at hc; simp at hc
    | cons a t => rw [ht] at hc; simpa using hc
  · intro ht
    rw [ht, List.nil_append] at h2
    cases hd : cs.dropWhile isspace with
    | nil => rw [hd] at h2; exact h2.symm ▸ rfl
    | cons a t =>
      have ha : isspace a = false := hhead a (by rw [hd]; rfl)
      have : isspace a = true := hS a (by rw [← h2, hd]; exact List.mem_cons_self a t)
      rw [ha] at this
      exact absurd this (by decide)

theorem cString_of_terminated (T Z : List Nat) (hT : ∀ c ∈ T, c ≠ 0) :
    Stated.cString (T ++ 0 :: Z) = T := by
  induction T with
  | nil => simp [Stated.cString]
  | cons a T ih =>
    have ha : a ≠ 0 := hT a (List.mem_cons_self a T)
    have := ih (fun c hc => hT c (List.mem_cons_of_mem a hc))
    simp only [Stated.cString] at this ⊢
    rw [List.cons_append, List.takeWhile_cons_of_pos (by simpa using ha), this]

theorem trimWhiteSpace_spec (isspace : Nat → Bool) (h0 : isspace 0 = false)
    (cs rest : List Nat) (hcs : ∀ c ∈ cs, c ≠ 0) :
    ∃ buf, trimWhiteSpace isspace (some (cs ++ 0 :: rest)) = some (some buf) ∧
      Stated.cString buf = Stated.trimmed isspace cs ∧
      buf.length = (cs ++ 0 :: rest).length := by
  obtain ⟨W, S, hdec, hW, hS, hhead, hlast, hnil⟩ := trimmed_parts isspace cs
  generalize hT : Stated.trimmed isspace cs = T at hdec hhead hlast hnil
  have hTz : ∀ c ∈ T, c ≠ 0 := fun c hc => hcs c (by rw [hdec]; simp [hc])
  have hSz : ∀ c ∈ T ++ S, c ≠ 0 := fun c hc => hcs c (by
    rw [hdec]; simp only [List.mem_append] at hc ⊢; tauto)
  -- the first character after the leading whitespace
  obtain ⟨c, tail, hct, hc⟩ : ∃ c tail, T ++ S ++ 0 :: rest = c :: tail ∧ isspace c = false := by
    cases T with
    | nil =>
      rw [hnil rfl]
      exact ⟨0, rest, rfl, h0⟩
    | cons a T => exact ⟨a, T ++ S ++ 0 :: rest, rfl, hhead a rfl⟩
  have hbuf : cs ++ 0 :: rest = [] ++ W ++ (T ++ S) ++ 0 :: rest := by
    rw [hdec]; simp
  have hbuf2 : cs ++ 0 :: rest = [] ++ W ++ c :: tail := by
    rw [hbuf, ← hct]; simp
  have hlenb : (cs ++ 0 :: rest).length = W.length + (T ++ S).length + 1 + rest.length := by
    rw [hbuf]; simp; omega
  have hskip : trimWhiteSpace.skipLeading isspace (cs ++ 0 :: rest)
      ((cs ++ 0 :: rest).length + 1) 0 = some W.length := by
    have := skipLeading_spec isspace c tail hc W [] ((cs ++ 0 :: rest).length + 1) hW
      (by rw [hlenb]; omega)
    rw [← hbuf2] at this
    simpa using this
  obtain ⟨Y, hmove, hY⟩ := moveDown_spec rest (T ++ S) [] W ((cs ++ 0 :: rest).length + 1) hSz
    (by rw [hlenb]; omega)
  rw [← hbuf] at hmove
  simp only [List.length_nil, Nat.zero_add, List.nil_append] at hmove
  obtain ⟨y, Y', rfl⟩ : ∃ y Y', Y = y :: Y' := by
    cases Y with
    | nil => simp at hY; omega
    | cons y Y' => exact ⟨y, Y', rfl⟩
  have hset : (T ++ S ++ y :: Y').set (W.length + (T ++ S).length - W.length) 0
      = T ++ S ++ 0 :: Y' := by
    rw [Nat.add_sub_cancel_left]
    simp
  have htrim := trimTrailing_spec isspace T hlast S (0 :: Y') hS
  refine ⟨T ++ List.replicate S.length 0 ++ 0 :: Y', ?_, ?_, ?_⟩
  · simp only [trimWhiteSpace, hskip, Nat.sub_zero, hmove]
    rw [hset, Nat.add_sub_cancel_left, List.length_append, htrim]
    rfl
  · have hrep : List.replicate S.length 0 ++ 0 :: Y' = 0 :: (List.replicate S.length 0 ++ Y') := by
      have : List.replicate S.length 0 ++ 0 :: Y' = List.replicate (S.length + 1) 0 ++ Y' := by
        rw [List.replicate_succ']; simp
      rw [this, List.replicate_succ]; rfl
    rw [List.append_assoc, hrep]
    exact cString_of_terminated T _ hTz
  · rw [hlenb]
    simp only [List.length_append, List.length_replicate, List.length_cons] at hY ⊢
    omega

/-- C40, `trimWhiteSpace` removes leading and trailing whitespace: for every array that holds
a NUL-terminated string `cs` (no `0` in `cs`, then a `0`, then anything), with `isspace`
false on `0`, the call returns, leaves an array of the same length, and the string it then
holds is `cs` without its longest all-whitespace prefix and its longest all-whitespace
suffix: `cs` is a whitespace prefix, the result, and a whitespace suffix, and the result, if
not empty, begins and ends with a character that is not whitespace; a string of whitespace
only, the empty string included, becomes empty; a null pointer is left alone. -/
theorem trimWhiteSpace_trims (isspace : Nat → Bool) (h0 : isspace 0 = false)
    (cs rest : List Nat) (hcs : ∀ c ∈ cs, c ≠ 0) :
    Stated.cString (cs ++ 0 :: rest) = cs ∧
    (∃ buf, trimWhiteSpace isspace (some (cs ++ 0 :: rest)) = some (some buf) ∧
      Stated.cString buf = Stated.trimmed isspace cs ∧
      buf.length = (cs ++ 0 :: rest).length) ∧
    (∃ W S, cs = W ++ Stated.trimmed isspace cs ++ S ∧
      (∀ c ∈ W, isspace c = true) ∧ (∀ c ∈ S, isspace c = true) ∧
      (∀ c, (Stated.trimmed isspace cs).head? = some c → isspace c = false) ∧
      (∀ c, (Stated.trimmed isspace cs).getLast? = some c → isspace c = false)) ∧
    ((∀ c ∈ cs, isspace c = true) → Stated.trimmed isspace cs = []) ∧
    trimWhiteSpace isspace none = some none := by
  refine ⟨cString_of_terminated cs rest hcs, trimWhiteSpace_spec isspace h0 cs rest hcs, ?_, ?_,
    rfl⟩
  · obtain ⟨W, S, h1, h2, h3, h4, h5, _⟩ := trimmed_parts isspace cs
    exact ⟨W, S, h1, h2, h3, h4, h5⟩
  · intro hall
    have : cs.dropWhile isspace = [] := List.dropWhile_eq_nil_iff.mpr hall
    simp [Stated.trimmed, this]

/-- Witness of C40: the array of `" a b\t"`, a terminator and one more element, with the
whitespace of the C locale. -/
theorem trimWhiteSpace_trims_witness :
    ∃ buf, trimWhiteSpace (fun c => decide (c = 32) || (decide (9 ≤ c) && decide (c ≤ 13)))
        (some ([32, 97, 32, 98, 9] ++ 0 :: [120])) = some (some buf) ∧
      Stated.cString buf
        = Stated.trimmed (fun c => decide (c = 32) || (decide (9 ≤ c) && decide (c ≤ 13)))
            [32, 97, 32, 98, 9] ∧
      buf.length = ([32, 97, 32, 98, 9] ++ 0 :: [120]).length :=
  (trimWhiteSpace_trims (fun c => decide (c = 32) || (decide (9 ≤ c) && decide (c ≤ 13)))
    (by decide) [32, 97, 32, 98, 9] [120] (by decide)).2.1

/-! ## The text of `Output` over the stored data -/

theorem int32_of_range (x : Int) (h1 : -2147483648 ≤ x) (h2 : x ≤ 2147483647) :
    int32 x = x := by
  unfold int32
  omega

theorem flatMap_congr_mem {α β : Type} (l : List α) (g₁ g₂ : α → List β)
    (h : ∀ a ∈ l, g₁ a = g₂ a) : l.flatMap g₁ = l.flatMap g₂ := by
  induction l with
  | nil => rfl
  | cons a rest ih =>
    rw [List.flatMap_cons, List.flatMap_cons, h a (List.mem_cons_self a rest),
      ih (fun b hb => h b (List.mem_cons_of_mem a hb))]

theorem markerRows_by_index {V : Type} (put : V → String) (d : V × V × V) :
    ∀ (ms : List (V × V × V)) (names : List String),
      (List.range ms.length).map (fun (i : Nat) =>
        names.getD i "" ++ "," ++ put (ms.getD i d).1 ++ "," ++ put (ms.getD i d).2.1 ++ "," ++
          put (ms.getD i d).2.2)
      = Stated.markerRows put names ms := by
  intro ms
  induction ms with
  | nil => intro names; rfl
  | cons m rest ih =>
    intro names
    rw [List.length_cons, List.range_succ_eq_map, List.map_cons, List.map_map,
      Stated.markerRows, ← ih names.tail]
    congr 1
    · cases names <;> simp
    · apply List.map_congr_left
      intro i _
      cases names <;> simp

namespace RecorderBase

variable {F : Type}

end RecorderBase

namespace TrcRecorder

variable {V : Type}

/-- C23 as stated fails: a position frame made by the public constructor from a source with
`iFrame == 2147483647` is written with the line `Frame #-2147483648,X,Y,Z`, the sum
`f.Frame()+1` being taken in `int`, and not with `Frame #2147483648,X,Y,Z`, the sequence
number plus one. -/
theorem Output_position_text_counterexample :
    TrcFrameWrapper.ctor (some ⟨2147483647, fun _ => (1, 2, 3)⟩) 1
      = (⟨some [(1, 2, 3)], 2147483647, 1⟩ : TrcFrameWrapper Nat) ∧
    ((⟨⟨⟨[⟨some [(1, 2, 3)], 2147483647, 1⟩], false, 2, FifoReplaceStrategy.kStopAdding⟩,
        true, false⟩, ⟨["M0"]⟩⟩ : TrcRecorder Nat).Output (fun v => toString v) 0 "" false).2
      = "Frame #-2147483648,X,Y,Z\nM0,1,2,3\n" ∧
    writeLines (("Frame #" ++ Stated.oneBased 2147483647 ++ ",X,Y,Z")
        :: Stated.markerRows (fun v : Nat => toString v) ["M0"] [(1, 2, 3)])
      = "Frame #2147483648,X,Y,Z\nM0,1,2,3\n" ∧
    ((⟨⟨⟨[⟨some [(1, 2, 3)], 2147483647, 1⟩], false, 2, FifoReplaceStrategy.kStopAdding⟩,
        true, false⟩, ⟨["M0"]⟩⟩ : TrcRecorder Nat).Output (fun v => toString v) 0 "" false).2
      ≠ "" ++ writeLines (("Frame #" ++ Stated.oneBased 2147483647 ++ ",X,Y,Z")
          :: Stated.markerRows (fun v : Nat => toString v) ["M0"] [(1, 2, 3)]) := by
  simp only [trc_Output_eq_lines]
  decide

/-- C23 amended, the text of the position recorder: for every buffer whose frames hold as
many markers as their count says (every frame made by the constructors does) and every marker
list, `Output(os, false)` appends to the stream exactly the blocks of the buffered frames,
oldest first, and leaves the buffer empty and everything else as it is. The block of a frame
is the line `Frame #<k>,X,Y,Z`, `k` being `Frame()+1` taken in `int`, followed by one line
`<name>,<x>,<y>,<z>` for each stored marker in index order, `(x, y, z)` being the stored
coordinates and `name` the attached name at the same index, empty when there is none. When
every buffered frame has `-2147483648 <= Frame() < 2147483647`, `k` is the sequence number
plus one. -/
theorem Output_position_text (put : V → String) (XEMPTY : V) (r : TrcRecorder V) (os : String)
    (hq : ∀ f ∈ r.mFifo.mQ, (f.mMarkers.getD []).length = f.mCount) :
    r.Output put XEMPTY os false
      = ({ r with mFifo := { r.mFifo with mQ := [] } },
         os ++ writeLines (r.mFifo.mQ.flatMap (fun f =>
           ("Frame #" ++ toString (int32 (f.mFrame + 1)) ++ ",X,Y,Z")
             :: Stated.markerRows put r.mMarkerList.mMarkerNames (f.mMarkers.getD [])))) ∧
    ((∀ f ∈ r.mFifo.mQ, -2147483648 ≤ f.mFrame ∧ f.mFrame < 2147483647) →
      (r.Output put XEMPTY os false).2
        = os ++ writeLines (r.mFifo.mQ.flatMap (fun f =>
            ("Frame #" ++ Stated.oneBased f.mFrame ++ ",X,Y,Z")
              :: Stated.markerRows put r.mMarkerList.mMarkerNames (f.mMarkers.getD [])))) ∧
    (∀ (src : Option (sTrcFrame V)) (count : Int),
      ((TrcFrameWrapper.ctor src count).mMarkers.getD []).length
        = (TrcFrameWrapper.ctor src count).mCount) := by
  have hblocks : r.mFifo.mQ.flatMap (Stated.trcBlock put XEMPTY r.mMarkerList)
      = r.mFifo.mQ.flatMap (fun f =>
          ("Frame #" ++ toString (int32 (f.mFrame + 1)) ++ ",X,Y,Z")
            :: Stated.markerRows put r.mMarkerList.mMarkerNames (f.mMarkers.getD [])) := by
    apply flatMap_congr_mem
    intro f hf
    have hlen := hq f hf
    have hrows : Stated.trcItemRows put XEMPTY r.mMarkerList f
        = Stated.markerRows put r.mMarkerList.mMarkerNames (f.mMarkers.getD []) := by
      rw [← markerRows_by_index put (XEMPTY, XEMPTY, XEMPTY)]
      unfold Stated.trcItemRows
      simp only [TrcFrameWrapper.Size, Int.toNat_ofNat, hlen]
      apply List.map_congr_left
      intro i hi
      have hi2 : i < f.mCount := by simpa using hi
      have hname : r.mMarkerList.Name (i : Int) = r.mMarkerList.mMarkerNames.getD i "" := by
        unfold MarkerListWrapper.Name
        exact getD_of_index r.mMarkerList.mMarkerNames i
      have hg : f.GetMarkerLocation XEMPTY (i : Int)
          = (f.mMarkers.getD []).getD i (XEMPTY, XEMPTY, XEMPTY) := by
        cases hm : f.mMarkers with
        | none => rw [hm] at hlen; simp at hlen; omega
        | some ms => simp [TrcFrameWrapper.GetMarkerLocation, hm, hi2]
      rw [hname, hg]
    rw [Stated.trcBlock, hrows]
    rfl
  have hout : r.Output put XEMPTY os false
      = ({ r with mFifo := { r.mFifo with mQ := [] } },
         os ++ writeLines (r.mFifo.mQ.flatMap (fun f =>
           ("Frame #" ++ toString (int32 (f.mFrame + 1)) ++ ",X,Y,Z")
             :: Stated.markerRows put r.mMarkerList.mMarkerNames (f.mMarkers.getD [])))) := by
    rw [trc_Output_eq_lines, hblocks]
    simp
  refine ⟨hout, ?_, ?_⟩
  · intro hrange
    rw [hout]
    simp only []
    congr 2
    apply flatMap_congr_mem
    intro f hf
    rw [Stated.oneBased, int32_of_range (f.mFrame + 1) (by have := hrange f hf; omega)
      (by have := hrange f hf; omega)]
  · intro src count
    by_cases h : src = none ∨ count ≤ 0
    · rw [TrcFrameWrapper.ctor, TrcFrameWrapper.trc_CopySrc_empty _ src count h]
      rfl
    · have hc : count > 0 := by
        by_contra hc; exact h (Or.inr (by omega))
      cases src with
      | none => exact absurd (Or.inl rfl) h
      | some s =>
        rw [TrcFrameWrapper.ctor, TrcFrameWrapper.trc_CopySrc_pos _ s count hc]
        simp

/-- Witness of C23 amended: two buffered frames, the first with two markers and one attached
name, the second without markers; the text written, and the theorem at this recorder. -/
theorem Output_position_text_witness :
    ((⟨⟨⟨[⟨some [(1, 2, 3), (4, 5, 6)], 0, 2⟩, ⟨none, -1, 0⟩], false, 2,
        FifoReplaceStrategy.kStopAdding⟩, true, false⟩, ⟨["M0"]⟩⟩ :
      TrcRecorder Nat).Output (fun v => toString v) 0 "" false).2
      = "Frame #1,X,Y,Z\nM0,1,2,3\n,4,5,6\nFrame #0,X,Y,Z\n" ∧
    "" ++ writeLines (([⟨some [(1, 2, 3), (4, 5, 6)], 0, 2⟩, ⟨none, -1, 0⟩] :
        List (TrcFrameWrapper Nat)).flatMap (fun f =>
          ("Frame #" ++ toString (int32 (f.mFrame + 1)) ++ ",X,Y,Z")
            :: Stated.markerRows (fun v => toString v) ["M0"] (f.mMarkers.getD [])))
      = "Frame #1,X,Y,Z\nM0,1,2,3\n,4,5,6\nFrame #0,X,Y,Z\n" ∧
    ((⟨⟨⟨[⟨some [(1, 2, 3), (4, 5, 6)], 0, 2⟩, ⟨none, -1, 0⟩], false, 2,
        FifoReplaceStrategy.kStopAdding⟩, true, false⟩, ⟨["M0"]⟩⟩ :
      TrcRecorder Nat).Output (fun v => toString v) 0 "" false)
      = (⟨⟨⟨[], false, 2, FifoReplaceStrategy.kStopAdding⟩, true, false⟩, ⟨["M0"]⟩⟩,
         "" ++ writeLines (([⟨some [(1, 2, 3), (4, 5, 6)], 0, 2⟩, ⟨none, -1, 0⟩] :
            List (TrcFrameWrapper Nat)).flatMap (fun f =>
              ("Frame #" ++ toString (int32 (f.mFrame + 1)) ++ ",X,Y,Z")
                :: Stated.markerRows (fun v => toString v) ["M0"] (f.mMarkers.getD [])))) :=
  ⟨by simp only [trc_Output_eq_lines]; decide, by decide,
   (Output_position_text (fun v => toString v) 0
    (⟨⟨⟨[⟨some [(1, 2, 3), (4, 5, 6)], 0, 2⟩, ⟨none, -1, 0⟩], false, 2,
        FifoReplaceStrategy.kStopAdding⟩, true, false⟩, ⟨["M0"]⟩⟩ : TrcRecorder Nat) ""
    (by decide)).1⟩

end TrcRecorder

namespace SegmentRecorder

variable {V : Type}

/-- C27, the header of the segment recorder: for every hierarchy, storing the names `names`
and as many parent indices `parents` (every hierarchy made by the constructors does),
`Output(os, true)` writes the line `CHILD,PARENT`, then one line `<name>,<parent>` per
segment in index order, `<parent>` being `GLOBAL` when the stored parent index of the segment
is `-1` and the stored name at the parent index otherwise (nothing when no segment has that
index); two empty lines and the blocks of the buffered frames follow. The line of the
segment at index `i` is stated from the stored name and parent index at `i`. -/
theorem Output_segment_header (put : V → String) (XEMPTY : V)
    (base : RecorderBase (SegmentFrameWrapper V)) (names : List String) (parents : List Int)
    (os : String) (i : Nat) (name : String) (parent : Int) (src : Option sHierarchy)
    (hlen : names.length = parents.length) :
    ((⟨base, ⟨names, parents⟩⟩ : SegmentRecorder V).Output put XEMPTY os true).2
      = os ++ writeLines ("CHILD,PARENT" :: Stated.segmentLines names parents) ++
          writeLines ["", ""] ++
          writeLines (base.mFifo.mQ.flatMap (Stated.segBlock put XEMPTY ⟨names, parents⟩)) ∧
    (Stated.segmentLines names parents).length = names.length ∧
    (names[i]? = some name → parents[i]? = some parent →
      (Stated.segmentLines names parents)[i]?
        = some (name ++ "," ++
            (if parent = -1 then "GLOBAL"
             else if 0 ≤ parent ∧ parent < (names.length : Int) then
               names.getD parent.toNat ""
             else ""))) ∧
    (names[i]? = some name → parents[i]? = some (-1) →
      (Stated.segmentLines names parents)[i]? = some (name ++ "," ++ "GLOBAL")) ∧
    (HierarchyWrapper.ctor src).mSegmentNames.length
      = (HierarchyWrapper.ctor src).mParents.length := by
  have hline : ∀ p : Int, names[i]? = some name → parents[i]? = some p →
      (Stated.segmentLines names parents)[i]?
        = some (name ++ "," ++
            (if p = -1 then "GLOBAL"
             else if 0 ≤ p ∧ p < (names.length : Int) then names.getD p.toNat "" else "")) := by
    intro p hn hp
    have hz : (names.zip parents)[i]? = some (name, p) :=
      List.getElem?_zip_eq_some.mpr ⟨hn, hp⟩
    simp only [Stated.segmentLines, List.getElem?_map, hz, Option.map_some']
  have hglobal : names[i]? = some name → parents[i]? = some (-1) →
      (Stated.segmentLines names parents)[i]? = some (name ++ "," ++ "GLOBAL") := by
    intro hn hp
    rw [hline (-1) hn hp, if_pos rfl]
  refine ⟨?_, ?_, hline parent, hglobal, HierarchyWrapper.hierarchy_ctor_lengths src⟩
  · rw [seg_Output_eq, if_pos rfl, seg_writeHeader_eq]
    have hhead : Stated.segHeaderLines ⟨names, parents⟩
        = "CHILD,PARENT" :: Stated.segmentLines names parents := by
      unfold Stated.segHeaderLines Stated.segmentLines
      congr 1
      apply List.ext_getElem
      · simp [HierarchyWrapper.Size, hlen]
      · intro k h₁ h₂
        have hk : k < names.length := by simpa [HierarchyWrapper.Size] using h₁
        have hp : k < parents.length := by omega
        have hN : HierarchyWrapper.Name ⟨names, parents⟩ (k : Int) = names.getD k "" := by
          unfold HierarchyWrapper.Name
          exact getD_of_index names k
        have hP : HierarchyWrapper.Parent ⟨names, parents⟩ (k : Int) = parents.getD k (-2) := by
          unfold HierarchyWrapper.Parent
          simp [hp]
        simp [hN, hP, HierarchyWrapper.Name, List.getElem?_eq_getElem hk,
          List.getElem?_eq_getElem hp, hk]
    simp only [hhead]
    rw [writeLines_append]
    simp [String.append_assoc]
  · simp [Stated.segmentLines, hlen]

/-- Witness of C27: three segments, the first with parent index `-1`, an empty buffer; the
text written, and the theorem at this recorder. -/
theorem Output_segment_header_witness :
    ((⟨⟨⟨[], false, 2, FifoReplaceStrategy.kStopAdding⟩, true, false⟩,
        ⟨["Hips", "Spine", "Head"], [-1, 0, 1]⟩⟩ :
      SegmentRecorder Nat).Output (fun v => toString v) 0 "" true).2
      = "CHILD,PARENT\nHips,GLOBAL\nSpine,Hips\nHead,Spine\n\n\n" ∧
    Stated.segmentLines ["Hips", "Spine", "Head"] [-1, 0, 1]
      = ["Hips,GLOBAL", "Spine,Hips", "Head,Spine"] ∧
    ((⟨⟨⟨[], false, 2, FifoReplaceStrategy.kStopAdding⟩, true, false⟩,
        ⟨["Hips", "Spine", "Head"], [-1, 0, 1]⟩⟩ :
      SegmentRecorder Nat).Output (fun v => toString v) 0 "" true).2
      = "" ++ writeLines ("CHILD,PARENT"
            :: Stated.segmentLines ["Hips", "Spine", "Head"] [-1, 0, 1]) ++
          writeLines ["", ""] ++
          writeLines (([] : List (SegmentFrameWrapper Nat)).flatMap
            (Stated.segBlock (fun v => toString v) 0
              ⟨["Hips", "Spine", "Head"], [-1, 0, 1]⟩)) :=
  ⟨by simp only [seg_Output_eq, seg_writeHeader_eq]; decide, by decide,
   (Output_segment_header (fun v : Nat => toString v) 0
    ⟨⟨[], false, 2, FifoReplaceStrategy.kStopAdding⟩, true, false⟩
    ["Hips", "Spine", "Head"] [-1, 0, 1] "" 0 "Hips" (-1) none rfl).1⟩

end SegmentRecorder

namespace DofRecorder

variable {V : Type}

/-- C29 amended, the rows of the degree-of-freedom recorder: for every buffer whose frames
hold as many values as their count says (every frame made by the constructors does), `Output`
writes exactly one line for each buffered frame `f`, in buffer order, the line being `<k>,`
followed by each of the stored values `v0..vk-1` of `f` followed by a comma
(`<k>,<v0>,<v1>,...,<vk-1>,`: a comma after every field, the last included), `k` being
`f.Frame()+1` taken in `int`; when every buffered frame has
`-2147483648 <= Frame() < 2147483647`, `k` is the sequence number plus one. -/
theorem Output_dof_rows (put : V → String) (XEMPTY : V) (d : DofRecorder V) (os : String)
    (hq : ∀ f ∈ d.mFifo.mQ, (f.mDofs.getD []).length = f.mCount) :
    (d.Output put XEMPTY os false).2
      = os ++ writeLines (d.mFifo.mQ.map (fun f =>
          toString (int32 (f.mFrame + 1)) ++ "," ++
            writeAll ((f.mDofs.getD []).map (fun v => put v ++ ",")))) ∧
    ((∀ f ∈ d.mFifo.mQ, -2147483648 ≤ f.mFrame ∧ f.mFrame < 2147483647) →
      (d.Output put XEMPTY os false).2
        = os ++ writeLines (d.mFifo.mQ.map (fun f =>
            Stated.oneBased f.mFrame ++ "," ++
              writeAll ((f.mDofs.getD []).map (fun v => put v ++ ","))))) ∧
    (d.mFifo.mQ.map (fun f =>
        toString (int32 (f.mFrame + 1)) ++ "," ++
          writeAll ((f.mDofs.getD []).map (fun v => put v ++ ",")))).length
      = d.mFifo.mQ.length ∧
    (∀ src : Option (sDofFrame V),
      ((DofFrameWrapper.ctor src).mDofs.getD []).length = (DofFrameWrapper.ctor src).mCount) := by
  have hout : (d.Output put XEMPTY os false).2
      = os ++ writeLines (d.mFifo.mQ.map (fun f =>
          toString (int32 (f.mFrame + 1)) ++ "," ++
            writeAll ((f.mDofs.getD []).map (fun v => put v ++ ",")))) := by
    rw [dof_Output_eq]
    simp only [Bool.false_eq_true, if_false]
    congr 2
    apply List.map_congr_left
    intro f hf
    have hlen := hq f hf
    have hvalues : Stated.dofValues XEMPTY f = f.mDofs.getD [] := by
      have h := list_by_index (f.mDofs.getD []) XEMPTY
      rw [hlen] at h
      rw [← h]
      unfold Stated.dofValues
      simp only [DofFrameWrapper.Size, Int.toNat_ofNat]
      apply List.map_congr_left
      intro i hi
      have hi2 : i < f.mCount := by simpa using hi
      cases hm : f.mDofs with
      | none => rw [hm] at hlen; simp at hlen; omega
      | some vs => simp [DofFrameWrapper.GetDofValue, hm, hi2]
    rw [hvalues]
    rfl
  refine ⟨hout, ?_, by simp, ?_⟩
  · intro hrange
    rw [hout]
    congr 2
    apply List.map_congr_left
    intro f hf
    rw [Stated.oneBased, int32_of_range (f.mFrame + 1) (by have := hrange f hf; omega)
      (by have := hrange f hf; omega)]
  · intro src
    cases src with
    | none => rfl
    | some s =>
      by_cases hc : s.nDOFs > 0
      · simp [DofFrameWrapper.ctor, DofFrameWrapper.CopySrc, hc]
      · simp [DofFrameWrapper.ctor, DofFrameWrapper.CopySrc, hc, DofFrameWrapper.FreeMemory]

/-- Witness of C29 amended: two buffered frames with sequence numbers 0 and 1, holding the
values 7, 8 and the value 9; the text written, and the theorem at this recorder. -/
theorem Output_dof_rows_witness :
    ((⟨⟨⟨[⟨some [7, 8], 0, 2⟩, ⟨some [9], 1, 1⟩], false, 3, FifoReplaceStrategy.kStopAdding⟩,
        true, false⟩, ⟨["a", "b"]⟩⟩ : DofRecorder Nat).Output (fun v => toString v) 0 ""
        false).2
      = "1,7,8,\n2,9,\n" ∧
    ((⟨⟨⟨[⟨some [7, 8], 0, 2⟩, ⟨some [9], 1, 1⟩], false, 3, FifoReplaceStrategy.kStopAdding⟩,
        true, false⟩, ⟨["a", "b"]⟩⟩ : DofRecorder Nat).Output (fun v => toString v) 0 ""
        false).2
      = "" ++ writeLines (([⟨some [7, 8], 0, 2⟩, ⟨some [9], 1, 1⟩] :
          List (DofFrameWrapper Nat)).map (fun f =>
            toString (int32 (f.mFrame + 1)) ++ "," ++
              writeAll ((f.mDofs.getD []).map (fun v => toString v ++ ",")))) :=
  ⟨by simp only [dof_Output_eq]; decide,
   (Output_dof_rows (fun v : Nat => toString v) 0
    (⟨⟨⟨[⟨some [7, 8], 0, 2⟩, ⟨some [9], 1, 1⟩], false, 3, FifoReplaceStrategy.kStopAdding⟩,
        true, false⟩, ⟨["a", "b"]⟩⟩ : DofRecorder Nat) "" (by decide)).1⟩

end DofRecorder

end MoCap
